import Mathlib

/-!
Verification of the kauma cryptographic toolkit against its specification.

The development shallowly embeds the Python sources:
* `src/actions/gf128.py`  — GF(2^128) arithmetic on 128-bit integers,
* `src/actions/gfpoly.py` — polynomials over GF(2^128),
* `src/actions/aes_gcm.py` — the `inc32` counter helper,
* `src/actions/rsa_factor.py` — batch-GCD shared factor recovery,
* `src/actions/calc.py` — the integer calculator action,
* `src/kauma.py` — error handling of the dispatcher.

Loops are rendered as fuel-indexed recursions (the fuel is always shown to be
sufficient), machine integers become `Nat` with explicit masking, and Python
exceptions become `Option`/sum results.
-/

open Polynomial

namespace Kauma

/-- Bit length of a natural number, fuel-indexed (`int.bit_length` in Python). -/
def bitLenF : Nat → Nat → Nat
  | 0, _ => 0
  | fuel + 1, n => if n = 0 then 0 else bitLenF fuel (n / 2) + 1

/-- `n.bit_length()`: number of bits needed to represent `n`. -/
def bitLen (n : Nat) : Nat := bitLenF n n

/-- `P1 = x^128 + x^7 + x^2 + x + 1` as in `gf128.py`. -/
def P1 : Nat := (1 <<< 128) ||| (1 <<< 7) ||| (1 <<< 2) ||| (1 <<< 1) ||| 1

/-- `P2 = x^128 + x^98 + x^69 + x^33 + 1` as in `gf128.py`. -/
def P2 : Nat := (1 <<< 128) ||| (1 <<< 98) ||| (1 <<< 69) ||| (1 <<< 33) ||| 1

/-- One fuel-indexed pass of `carryless_mul` from `gf128.py`:
`while b: if b & 1: result ^= a; a <<= 1; b >>= 1`. -/
def clmulF : Nat → Nat → Nat → Nat
  | 0, _, _ => 0
  | fuel + 1, a, b =>
    if b = 0 then 0
    else (if b % 2 = 1 then a else 0) ^^^ clmulF fuel (2 * a) (b / 2)

/-- `carryless_mul(a, b)`: polynomial multiplication over GF(2) without reduction. -/
def carryless_mul (a b : Nat) : Nat := clmulF b a b

/-- One fuel-indexed pass of the reduction loop of `gf_reduce_poly` in `gf128.py`. -/
def gfReduceF (r : Nat) : Nat → Nat → Nat
  | 0, product => product &&& ((1 <<< 128) - 1)
  | fuel + 1, product =>
    if 128 < bitLen product then
      gfReduceF r fuel
        (product ^^^ ((1 <<< (bitLen product - 1)) ||| (r <<< (bitLen product - 1 - 128))))
    else product &&& ((1 <<< 128) - 1)

/-- `gf_reduce_poly(product, r)`: reduce a polynomial modulo `x^128 + r`. -/
def gf_reduce_poly (product r : Nat) : Nat := gfReduceF r product product

/-- Fuel-indexed loop of `poly_divmod` in `gf128.py`, acting on state `(q, r)`. -/
def polyDivmodF (b : Nat) : Nat → Nat → Nat → Nat × Nat
  | 0, q, r => (q, r)
  | fuel + 1, q, r =>
    if r ≠ 0 ∧ bitLen b ≤ bitLen r then
      polyDivmodF b fuel (q ^^^ (1 <<< (bitLen r - bitLen b)))
        (r ^^^ (b <<< (bitLen r - bitLen b)))
    else (q, r)

/-- The body of `poly_divmod(a, b)` for `b ≠ 0` (GF(2)[x] long division on bits). -/
def polyDivmodAux (a b : Nat) : Nat × Nat := polyDivmodF b a 0 a

/-- `poly_divmod(a, b)`: `None` models the `ZeroDivisionError` raised on `b = 0`. -/
def poly_divmod (a b : Nat) : Option (Nat × Nat) :=
  if b = 0 then none else some (polyDivmodAux a b)

/-- Fuel-indexed loop of `poly_inv` in `gf128.py`: state `(u, v, s, t)`,
`while v != 0: q, r = divmod(u, v); u, v = v, r; s, t = t, s ^ q*t`. -/
def polyInvF : Nat → Nat → Nat → Nat → Nat → Nat
  | 0, _, _, s, _ => s &&& ((1 <<< 128) - 1)
  | fuel + 1, u, v, s, t =>
    if v = 0 then s &&& ((1 <<< 128) - 1)
    else
      polyInvF fuel v (polyDivmodAux u v).2 t (s ^^^ carryless_mul (polyDivmodAux u v).1 t)

/-- `poly_inv(a, mod_poly)`: extended Euclid over GF(2)[x]; `None` models the
`ValueError` raised on `a = 0`. -/
def poly_inv (a mod_poly : Nat) : Option Nat :=
  if a = 0 then none
  else some (polyInvF (a + 1) ((1 <<< 128) ||| mod_poly) a 0 1)

/-- Fuel-indexed loop of `gf_square_and_multiply` in `gf128.py`: state `(x, base, e)`. -/
def gfPowF (mod_poly : Nat) : Nat → Nat → Nat → Nat → Nat
  | 0, x, _, _ => x
  | fuel + 1, x, base, e =>
    if 0 < e then
      gfPowF mod_poly fuel
        (if e % 2 = 1 then gf_reduce_poly (carryless_mul x base) mod_poly else x)
        (if e / 2 ≠ 0 then gf_reduce_poly (carryless_mul base base) mod_poly else base)
        (e / 2)
    else x

/-- `gf_square_and_multiply(x, base, exponent, mod_poly)`. -/
def gf_square_and_multiply (x base exponent mod_poly : Nat) : Nat :=
  gfPowF mod_poly (exponent + 1) x base exponent

/-- `GF128.mul` on element values: carryless multiply then reduce, as in `gf128.py`. -/
def gfmul (p a b : Nat) : Nat := gf_reduce_poly (carryless_mul a b) p

/-- `GF128.pow` on element values: `base` is pre-reduced, accumulator starts at 1. -/
def gfpow (p a e : Nat) : Nat := gf_square_and_multiply 1 (gf_reduce_poly a p) e p

/-- `GF128.sqrt` on element values: power `2^127`, as in `gf128.py`. -/
def gfsqrt (p a : Nat) : Nat := gfpow p a (1 <<< 127)


/-! ### Fast modular reduction used only by the irreducibility certificates -/

/-- Clear bit `128 + k` of `t` (if set) by adding the aligned modulus `m <<< k`. -/
def redStep (m k t : Nat) : Nat := if t.testBit (128 + k) then t ^^^ (m <<< k) else t

/-- Fold `redStep` for `k = K-1, ..., 0`. -/
def redAll (m : Nat) : Nat → Nat → Nat
  | 0, t => t
  | k + 1, t => redAll m k (redStep m k t)

/-- One modular squaring `x * x mod m` for `x < 2^128`, `2^128 ≤ m < 2^129`. -/
def sqStep (m x : Nat) : Nat := redAll m 127 (carryless_mul x x)

/-- Check that each list entry is the modular square of its predecessor and is
reduced below `2^128`. -/
def sqList (m : Nat) : Nat → List Nat → Bool
  | _, [] => true
  | x, y :: ys => (sqStep m x == y) && decide (y < 2 ^ 128) && sqList m y ys

/-- Run Euclid steps `(a, b) ↦ (b, a + q·b)` for the given quotient list. -/
def eucRun : Nat → Nat → List Nat → Nat × Nat
  | a, b, [] => (a, b)
  | a, b, q :: qs => eucRun b (a ^^^ carryless_mul q b) qs

/-- `X^(2^64) mod P1` in the `toP` encoding (certificate constant). -/
def s64vP1 : Nat := 129460184901158119860735353079755610614

/-- Successive squares `X^(2^k) mod P1` for k = 1..64 (certificate data). -/
def sqAP1 : List Nat := [4,
  16,
  256,
  65536,
  4294967296,
  18446744073709551616,
  135,
  16405,
  268435729,
  72057594037993729,
  5192296858534827628530500624252929,
  10695801939444132319206437814273,
  40852786614935679133548678,
  594486085799880,
  317319171807580447641733255232,
  21272841581577792734377501409119104880,
  178123058470187579300754373079857658247,
  185309517472602589216710143146226674206,
  243359572833697916948025442825716044212,
  2242402909557391341593841539292758713,
  23534795660742517158384838884479883757,
  174985988737277424980776175160916846157,
  175030095290142335996286672108454299053,
  265807388946362947165055761130818848797,
  249252559114209554249604311851685858361,
  58796763164556581763983006251523293764,
  49134626841591323031921206452464859177,
  27987540068191889485421864406071811155,
  271029757364165806137532465049589437209,
  280724925951004403811542151209009346242,
  128752713728467045721822022561693573808,
  159741227827866894033846763158209103146,
  274834116766907886484561602157405644722,
  269592872973127703478481607229849893488,
  281740353144251213267627901976484830580,
  43449847600466687806806694967245739940,
  37727843099595198433684011782007776478,
  311928417185453978908537250809886516984,
  297740222968517774644413722072226000397,
  32339339626698503367513300576590613010,
  223132434853550809815195064548738067112,
  265523960741914972480486897956328640665,
  317476001073086156486538380654899563653,
  281134273668648985900959546328737677036,
  134228771238834113055021444037992255816,
  150254873993691350120483903676558564010,
  233624311168361768088952357930788403998,
  301852678830317075984151617556076790269,
  334713874327018819147718792733305726656,
  102613057823079007323731014766805608102,
  102960897267461938273022342347012760795,
  12615472659389050585944223579430941846,
  127982396443970808193093289421192168483,
  80211020574021611523259929375765860447,
  328306714951167239883061265636229931255,
  154202500596702199027624208412024772979,
  243851091912831247504069218024646202792,
  27440791048182847192756476088690644789,
  211387903213242387898935001709526309270,
  159829576190644668190096436593299055684,
  211134062703199012190249497033863383866,
  82185866721533220436512213066902333519,
  327395961906668187682165754937045283500,
  129460184901158119860735353079755610614]

/-- Successive squares `X^(2^k) mod P1` for k = 65..128 (certificate data). -/
def sqBP1 : List Nat := [165640453935684170557382138895643060837,
  258895673196720778598706762360552858556,
  301930392259976828106625834641931740308,
  254590090333913220966971847449742103658,
  154605543219637426435106976091970670442,
  328554470600989978311552677909447941173,
  66427334083092228965437207507360258028,
  269818012861271281423176274446422361113,
  264132206416858785477441377236972222062,
  334025740161143946608295602721698306491,
  122383803109284106894334171034010591779,
  296025850348968698648586558724418263869,
  37960944824515205685591230648204258402,
  226742293150914418175831072849372273624,
  248467511393027050396179622604745119342,
  161687256048543766767383987762312963194,
  269110802679140966820977389101215773081,
  195167772352272279581770856328715365701,
  6839019468748781921035578916625770989,
  119133456490525504919656485393064943290,
  284976786280009736580048287615377352507,
  53368461820224018424322992725600146993,
  165521487478005576843608560748526611000,
  195068410978310211650239904624548258566,
  113589941149803520359128394698002916676,
  249467295398400182484435455780551427523,
  75006380269635190750556711265086168923,
  318824008587287836741888684444380361623,
  178459331004814995506250383468567150771,
  211872363948266361377324272839095225429,
  143811789042420870636385239690585466781,
  86248589110002907259851524152594849147,
  44507931730853748353717482469352571553,
  32963873827986936976259691565938463060,
  216630587467047648990556766097492264828,
  185272067944601170075289186680278366549,
  220985417642294560069226125886699449841,
  264688778274977021302766754871988896216,
  333264177890741770072193430405525003928,
  33205950964766484238866480871644341798,
  301310530123703810140221288298382736979,
  254546671986439821273357947065150691235,
  154463474563896264286711223429656871936,
  238553731111275542579218303752720181533,
  18384089493480778990035902178609102351,
  75820400037257621222803633372476097890,
  317696663419018730218660346852253168842,
  265151192445743918497476159262292403413,
  227243742383211985895879960446026839890,
  253422517028958359388508295558326299841,
  150927228725920353331738429768615062888,
  313214421372485833387472208663997282205,
  205270197963465857064863719867483624364,
  64566217092196733533220887167246694252,
  296938408697389789750215214903058009285,
  10807226621238021931262095742919972793,
  129631382596958590886433730895748353798,
  59414367279926819390058891142076462501,
  70216996008105906389747657374764050840,
  264664062837534286517811593844813647762,
  313275912279873968957145467509231826604,
  205249681632336591850764335734481569114,
  48611766702991209068831621643639680420,
  2]

/-- Euclid quotients for gcd(P1, X^(2^64) + X mod P1) (certificate data). -/
def eucP1 : List Nat := [7,
  3,
  5,
  12,
  4,
  5,
  22,
  4,
  4,
  17,
  3,
  7,
  2,
  2,
  10,
  3,
  21,
  9,
  2,
  4,
  2,
  3,
  511,
  2,
  3,
  2,
  3,
  2,
  3,
  2,
  3,
  26,
  2,
  3,
  2,
  5,
  3,
  2,
  58,
  3,
  15,
  3,
  3,
  15,
  4,
  2,
  11,
  23,
  3,
  8,
  17,
  3,
  3,
  2,
  3,
  30,
  6,
  2,
  6,
  25,
  15,
  3,
  6,
  2]

/-- `X^(2^64) mod P2` in the `toP` encoding (certificate constant). -/
def s64vP2 : Nat := 84832711850969670233393946934770351517

/-- Successive squares `X^(2^k) mod P2` for k = 1..64 (certificate data). -/
def sqAP2 : List Nat := [4,
  16,
  256,
  65536,
  4294967296,
  18446744073709551616,
  316912650647353160741471387649,
  408183494334030077583316014335745,
  29409418572450612594138211007809814800,
  299777411468389170246032509239408870728,
  118324448329585405858881459834874220809,
  119907641822189262189068130108624774795,
  49475580112955067144872872979184063534,
  142533761167405685395411862678785786964,
  149560923633749619643701467467595702495,
  333909929493262719560168820400249022771,
  260771922628488740905755351183518809649,
  266327834121523988446209498058125924012,
  196976605377639388289329561852477513822,
  58428730068903623839957361272349458302,
  81435048998125735574632092597961991662,
  92960661999328208575174792982047811564,
  266805313315370656953152335185565521779,
  309192533302821070027734742529087493593,
  278003901898445144100398281879008832250,
  273906477229781266898935060985496412263,
  122791931248706055876095929602735057793,
  159632641279815085749873296757044657466,
  81627720439196697932537063249390828856,
  325654978605772476606465074006733113860,
  85918123415950602141975174999253748468,
  91139362712082964194312198961300881749,
  53299020876962473985818174705137207229,
  128333323919129514084525214120187608243,
  317150663836492188512307994682559250605,
  252016004687068702639021254407635544173,
  304935771669303606842952239099334163309,
  298940199797848394621577709918021235458,
  81150841212121725358575404201812095456,
  77563585633323506541869828251444429222,
  146108779731426427553744555691711472892,
  114221034100905633641761516145617316957,
  206920916964332245304937958660631276514,
  51510971316566579961799888960817047330,
  64161723914992911236394699686589650878,
  231597574747753560872495644922150422548,
  82082033405418495169038722645722156191,
  194991361767388216992346572739154956673,
  86309513525039307324216054426168659522,
  59171101900566946075305913626465706554,
  211329888679377480924063863294380324182,
  79883233325155618014422095608541284414,
  3828397922940698704838407821006907791,
  292467189689299894912844167845045705442,
  212234310897518792783093166346022569160,
  60595744609408228723162477483673600305,
  332899847311408283530328010132947839105,
  317823485987029975091678219547824207205,
  272394254920369390712202568012927523097,
  32703692864320821814177710601878184198,
  84881782713862587160636840575768254943,
  224245953595668553178083054499962834224,
  104523439627890645508018209155794920461,
  84832711850969670233393946934770351517]

/-- Successive squares `X^(2^k) mod P2` for k = 65..128 (certificate data). -/
def sqBP2 : List Nat := [225857515748786440086783789710425164092,
  215088142129930614831945047730244872993,
  154922027220939910081223113403746447068,
  302735065305311191177805550811022448731,
  275157483861029805921952398152928496949,
  174363382987117633258600353413409307628,
  250138021084252566858172110399941856503,
  174116594592038366735922401091680805004,
  273758634881112825718576102233356074157,
  293410567625535347066855959897030916088,
  261060921558840964082176279041455154430,
  65609089225016807041069564812801189659,
  302969726274008786274171980071227182983,
  200241359890067174018120466823207298076,
  44006913301723336605823638132057082431,
  242621482357238620000500946761352753520,
  309135773243356014525545960374341550149,
  42786283923439291654045725774329395303,
  318842894880698798209206443362199836357,
  80409517740614106290978536592344186847,
  277575689094959257205066617116694880261,
  157497190228706390410436881891637706887,
  327354042322123903178772238808977780608,
  294329120254416396316057115182551250001,
  70189847037195001968191516670310115518,
  90688953926152823263324160674720655024,
  123945550749381274712767561484662852065,
  247568689698609000741184108080271781303,
  143975502305348171358161717053123613436,
  60837333933570496504371131554704266826,
  47496341104764465643616459553552691724,
  172874591315438636887623062251198284294,
  157731095270719999732290921195118714196,
  296344109742918579471070672327330976144,
  336292188587755817383550937382069233273,
  334567476746824281180674406418025343070,
  318472390767031025363545516262787269332,
  199253405544881063617103794958946206756,
  308919508730086573890380522260810532741,
  99519269734503520856455598932137467785,
  146217815008000813684382178694090183483,
  58487078359552012035959787898424147636,
  233242989361245205248570936770473852282,
  131862960660238268442875579955480807344,
  140808936969988477972401137107932910450,
  170578743858385487566290755293172125485,
  309162039819463425610163790056250319273,
  88859814079874721496803269317449178082,
  120279238420878903748066800156902540701,
  240158850283218641828391689191937680453,
  266230925506627765306065381629039073382,
  195673026757475732052385187919293349547,
  171198734955740499136399516742667169440,
  151205801838070682924735896227873718616,
  209892464389018139686505027768586849678,
  39879164513701893969130988800647109402,
  320672163370836493468886247820125022755,
  249860326384118975083087017395331874677,
  336562177762570472266381822850459438169,
  332526349643179047812549636698631265875,
  176834108317214022535014393097946036675,
  250219235242094692455148107155222006342,
  9630449354210777852974784839141956859,
  2]

/-- Euclid quotients for gcd(P2, X^(2^64) + X mod P2) (certificate data). -/
def eucP2 : List Nat := [12,
  38,
  9,
  3,
  3,
  11,
  13,
  3,
  3,
  27,
  29,
  13,
  6,
  7,
  3,
  2,
  10,
  6,
  4,
  16,
  6,
  3,
  2,
  2,
  2,
  77,
  3,
  2,
  2,
  2,
  5,
  17,
  6,
  3,
  15,
  6,
  7,
  5,
  2,
  3,
  7,
  5,
  2,
  2,
  2,
  3,
  2,
  488,
  3,
  4,
  25,
  14,
  3,
  3,
  4,
  15,
  2,
  5,
  3,
  2,
  2,
  6,
  3]


/-! ### Byte/bit codec from `gf128.py` -/

/-- `reverse_byte(b)`: reverse the bit order of a single byte. -/
def reverse_byte (b : Nat) : Nat :=
  let b1 := ((b &&& 0xF0) >>> 4) ||| ((b &&& 0x0F) <<< 4)
  let b2 := ((b1 &&& 0xCC) >>> 2) ||| ((b1 &&& 0x33) <<< 2)
  ((b2 &&& 0xAA) >>> 1) ||| ((b2 &&& 0x55) <<< 1)

/-- `x.to_bytes(k, "big")` as a list of byte values. -/
def natToBytesBE : Nat → Nat → List Nat
  | 0, _ => []
  | k + 1, x => natToBytesBE k (x / 256) ++ [x % 256]

/-- `int.from_bytes(bs, "big")`. -/
def bytesBEToNat (bs : List Nat) : Nat := bs.foldl (fun acc b => 256 * acc + b) 0

/-- `reverse_bits_128(x)`: reverse byte order, then mirror the bits of each byte. -/
def reverse_bits_128 (x : Nat) : Nat :=
  bytesBEToNat (((natToBytesBE 16 x).reverse).map reverse_byte)

/-- `bytes_to_int_gcm(bs)`: 16 GCM bytes to the internal polynomial integer. -/
def bytes_to_int_gcm (bs : List Nat) : Nat := reverse_bits_128 (bytesBEToNat bs)

/-- `int_to_bytes_gcm(x)`: internal polynomial integer to 16 GCM bytes. -/
def int_to_bytes_gcm (x : Nat) : List Nat := natToBytesBE 16 (reverse_bits_128 x)

/-! ### `inc32` from `aes_gcm.py` -/

/-- `inc32(counter_block)`: keep the 12-byte nonce, increment the last 4 bytes mod 2^32. -/
def inc32 (counter_block : List Nat) : List Nat :=
  let noncePart := counter_block.take 12
  let counterValue := bytesBEToNat (counter_block.drop 12)
  noncePart ++ natToBytesBE 4 ((counterValue + 1) &&& 0xFFFFFFFF)

/-! ### The calculator action from `calc.py` -/

/-- `divide_trunc_toward_zero(a, b)`: Python `divmod` is floor-based; the quotient is
bumped by one when the signs differ and the remainder is nonzero. -/
def divide_trunc_toward_zero (a b : Int) : Int :=
  let quotient := Int.fdiv a b
  let remainder := Int.fmod a b
  let differentSign := decide (a < 0) != decide (b < 0)
  let hasRemainder := remainder != 0
  if differentSign && hasRemainder then quotient + 1 else quotient

/-- The four operators accepted by the `calc` action. -/
inductive CalcOp
  | add
  | sub
  | mul
  | div

/-- The `answer` value of a `calc` reply: a JSON integer when the result fits in
int32, otherwise the hex string rendering of the same integer. -/
inductive CalcAnswer
  | intAns (z : Int)
  | hexAns (z : Int)

/-- The integer a `CalcAnswer` denotes. -/
def answerValue : CalcAnswer → Int
  | CalcAnswer.intAns z => z
  | CalcAnswer.hexAns z => z

/-- A `calc` reply: `{"answer": ...}` or `{"error": ...}`. -/
inductive CalcReply
  | answer (v : CalcAnswer)
  | error

/-- `result` if it lies in `range(-(2**31), 2**31)`, else its hex rendering. -/
def encodeAnswer (result : Int) : CalcAnswer :=
  if -(2 ^ 31) ≤ result ∧ result < 2 ^ 31 then CalcAnswer.intAns result
  else CalcAnswer.hexAns result

/-- The `calc` action on parsed integers; division by zero raises in Python and is
caught by the surrounding `except`, giving an error reply. -/
def calcAction (lhs rhs : Int) (op : CalcOp) : CalcReply :=
  match op with
  | CalcOp.add => CalcReply.answer (encodeAnswer (lhs + rhs))
  | CalcOp.sub => CalcReply.answer (encodeAnswer (lhs - rhs))
  | CalcOp.mul => CalcReply.answer (encodeAnswer (lhs * rhs))
  | CalcOp.div =>
    if rhs = 0 then CalcReply.error
    else CalcReply.answer (encodeAnswer (divide_trunc_toward_zero lhs rhs))

/-! ### Batch GCD from `rsa_factor.py` -/

/-- One pairing pass of `build_product_tree`: adjacent products, lone last element kept. -/
def pairLevel : List Int → List Int
  | [] => []
  | [x] => [x]
  | x :: y :: rest => (x * y) :: pairLevel rest

/-- The level list of the product tree, leaves first (fuel-indexed while loop). -/
def buildLevelsF : Nat → List Int → List (List Int)
  | 0, level => [level]
  | fuel + 1, level =>
    if level.length ≤ 1 then [level] else level :: buildLevelsF fuel (pairLevel level)

/-- `build_product_tree(leaves)`. -/
def build_product_tree (leaves : List Int) : List (List Int) :=
  if leaves = [] then [] else buildLevelsF leaves.length leaves

/-- One top-down step: each node receives its parent value modulo `node^2`. -/
def remStep (parents nodes : List Int) : List Int :=
  (List.range nodes.length).map (fun idx =>
    Int.fmod (parents.getD (idx / 2) 0) ((nodes.getD idx 0) ^ 2))

/-- `compute_leaf_remainders_mod_n_sq(levels)`: fold `remStep` from the root level down. -/
def compute_leaf_remainders_mod_n_sq (levels : List (List Int)) : List Int :=
  match levels with
  | [] => []
  | lv0 :: _ =>
    if lv0 = [] then [] else (levels.dropLast.reverse).foldl remStep (levels.getLastD [])

/-- Order the factor pair `(g, n // g)` so that the smaller comes first. -/
def orderPair (g n : Int) : Int × Int :=
  let p := g
  let q := Int.fdiv n g
  if p > q then (q, p) else (p, q)

/-- First pass of `batch_gcd_shared_factors`: factor pairs found via `z_i`, and the
indices left unresolved (`g = n_i`). -/
def batchPassAux : Nat → List Int → List Int → List (Int × Int) × List Nat
  | _, [], _ => ([], [])
  | _, _ :: _, [] => ([], [])
  | i, n :: ns, z :: zs =>
    let rest := batchPassAux (i + 1) ns zs
    let g : Int := (Int.gcd (Int.fdiv z n) n : Nat)
    if 1 < g ∧ g < n then (orderPair g n :: rest.1, rest.2)
    else if g = n then (rest.1, i :: rest.2)
    else rest

/-- Scan the moduli for the first `j ≠ i` with `1 < gcd(n_i, n_j) < n_i`. -/
def findPairAux (nI : Int) (i : Nat) : Nat → List Int → Option (Int × Int)
  | _, [] => none
  | j, nJ :: rest =>
    if j = i then findPairAux nI i (j + 1) rest
    else
      let g : Int := (Int.gcd nI nJ : Nat)
      if 1 < g ∧ g < nI then some (orderPair g nI) else findPairAux nI i (j + 1) rest

/-- Pairwise-GCD fallback for the unresolved indices. -/
def fallbackPairs (mods : List Int) (idxs : List Nat) : List (Int × Int) :=
  idxs.foldr (fun i acc =>
    match findPairAux (mods.getD i 0) i 0 mods with
    | some pr => pr :: acc
    | none => acc) []

/-- Keep one copy of every pair (Python `set`). -/
def dedupPairs : List (Int × Int) → List (Int × Int)
  | [] => []
  | x :: xs => if x ∈ xs then dedupPairs xs else x :: dedupPairs xs

/-- Lexicographic order on pairs, the `key=lambda t: (t[0], t[1])` of the source. -/
def pairLeB (x y : Int × Int) : Bool :=
  decide (x.1 < y.1) || (decide (x.1 = y.1) && decide (x.2 ≤ y.2))

/-- Insert into a sorted pair list. -/
def insertPair (x : Int × Int) : List (Int × Int) → List (Int × Int)
  | [] => [x]
  | y :: ys => if pairLeB x y then x :: y :: ys else y :: insertPair x ys

/-- Insertion sort by `pairLeB`. -/
def sortPairs : List (Int × Int) → List (Int × Int)
  | [] => []
  | x :: xs => insertPair x (sortPairs xs)

/-- `batch_gcd_shared_factors(moduli)`. -/
def batch_gcd_shared_factors (moduli : List Int) : List (Int × Int) :=
  if moduli = [] then [] else
  let levels := build_product_tree moduli
  let zs := compute_leaf_remainders_mod_n_sq levels
  let firstPass := batchPassAux 0 moduli zs
  sortPairs (dedupPairs (firstPass.1 ++ fallbackPairs moduli firstPass.2))

/-! ### Polynomials over GF(2^128) from `gfpoly.py`
A polynomial is its list of coefficient values, constant term first; the reduction
modulus `p` of the coefficient field is an explicit parameter. -/

/-- `normalize(coeffs)`: drop high zero coefficients but keep at least one entry. -/
def normalize (l : List Nat) : List Nat :=
  match l.reverse.dropWhile (fun c => c == 0) with
  | [] => l.take 1
  | r => r.reverse

/-- Coefficient-wise XOR, the shorter list padded with zeros. -/
def addRaw : List Nat → List Nat → List Nat
  | [], [] => []
  | [], b :: l2 => b :: addRaw [] l2
  | a :: l1, [] => a :: addRaw l1 []
  | a :: l1, b :: l2 => (a ^^^ b) :: addRaw l1 l2

/-- `GFPoly.add`: XOR then the constructor's normalization. -/
def polyAdd (l1 l2 : List Nat) : List Nat := normalize (addRaw l1 l2)

/-- Coefficient `k` of the schoolbook convolution. -/
def convAt (p : Nat) (a b : List Nat) (k : Nat) : Nat :=
  (List.range (k + 1)).foldl (fun acc i => acc ^^^ gfmul p (a.getD i 0) (b.getD (k - i) 0)) 0

/-- The full convolution, of length `deg a + deg b + 1`. -/
def mulRaw (p : Nat) (a b : List Nat) : List Nat :=
  (List.range (a.length + b.length - 1)).map (convAt p a b)

/-- `GFPoly.mul`: convolution then the constructor's normalization. -/
def polyMul (p : Nat) (l1 l2 : List Nat) : List Nat := normalize (mulRaw p l1 l2)

/-- The long-division loop of `GFPoly.divmod` on state `(Q, R)`, fuel-indexed. -/
def divmodLoopF (p : Nat) (B : List Nat) (invLead : Nat) :
    Nat → List Nat → List Nat → List Nat × List Nat
  | 0, Q, R => (Q, R)
  | fuel + 1, Q, R =>
    if B.length - 1 ≤ R.length - 1 ∧ R.any (fun c => c != 0) then
      let shift := (R.length - 1) - (B.length - 1)
      let scale := gfmul p (R.getLastD 0) invLead
      let Qn := Q.set shift (Q.getD shift 0 ^^^ scale)
      let scaledShifted := List.replicate shift 0 ++ B.map (fun c => gfmul p c scale)
      divmodLoopF p B invLead fuel Qn (normalize (addRaw R scaledShifted))
    else (Q, R)

/-- `GFPoly.divmod(A, B)`; `none` models the `ValueError` from inverting the zero
leading coefficient of a zero divisor. -/
def gfpolyDivmod (p : Nat) (A B : List Nat) : Option (List Nat × List Nat) :=
  (poly_inv (B.getLastD 0) p).map (fun invLead =>
    let qlen := (A.length - 1) - (B.length - 1) + 1
    let res := divmodLoopF p B invLead (A.length + 1) (List.replicate qlen 0) (normalize A)
    (normalize res.1, normalize res.2))

/-! ### `gfpoly_sort` from `gfpoly.py` -/

/-- The two reduction-polynomial tags accepted by the actions. -/
inductive PolyTag
  | p1
  | p2

/-- Compare equal-length coefficient lists given highest coefficient first. -/
def cmpCoeffsDesc : List Nat → List Nat → Bool
  | a :: l1, b :: l2 => if a ≠ b then decide (a < b) else cmpCoeffsDesc l1 l2
  | _, _ => false

/-- `GFPoly.__lt__`: by degree, ties broken by coefficient values from the top down. -/
def polyLt (A B : List Nat) : Bool :=
  if A.length - 1 ≠ B.length - 1 then decide (A.length - 1 < B.length - 1)
  else cmpCoeffsDesc A.reverse B.reverse

/-- Insert into a list sorted by `polyLt`. -/
def insertPoly (x : List Nat) : List (List Nat) → List (List Nat)
  | [] => [x]
  | y :: ys => if polyLt x y then x :: y :: ys else y :: insertPoly x ys

/-- Insertion sort by `polyLt`. -/
def sortPolysByLt : List (List Nat) → List (List Nat)
  | [] => []
  | x :: xs => insertPoly x (sortPolysByLt xs)

/-- `gfpoly_sort(arguments)`: the decoded coefficient lists are normalized by the
`GFPoly` constructor (under the placeholder tag `p1`, whatever `arguments["poly"]`
says) and sorted with `__lt__`. -/
def gfpoly_sort (polys : List (List Nat)) (_polyArg : PolyTag) : List (List Nat) :=
  sortPolysByLt (polys.map normalize)


/-! ### `GFPoly.square_free_factorization` and its helpers from `gfpoly.py` -/

/-- `GFPoly.monic`: the zero polynomial stays zero, a polynomial with leading
coefficient 1 is returned unchanged, otherwise all coefficients are scaled by the
inverse of the leading coefficient (which may raise, hence `Option`). -/
def polyMonic (p : Nat) (l : List Nat) : Option (List Nat) :=
  if l.length = 1 ∧ l.getD 0 0 = 0 then some [0]
  else if l.getLastD 0 = 1 then some l
  else (poly_inv (l.getLastD 0) p).map (fun inv => normalize (l.map (fun c => gfmul p c inv)))

/-- `GFPoly.diff`: in characteristic 2 only the odd-degree coefficients survive,
shifted down one position. -/
def polyDiff (l : List Nat) : List Nat :=
  if l.length ≤ 1 then [0]
  else normalize ((List.range (l.length - 1)).map
    (fun j => if (j + 1) % 2 = 1 then l.getD (j + 1) 0 else 0))

/-- `GFPoly.sqrt`: field square roots of the even-degree coefficients. -/
def polySqrt (p : Nat) (l : List Nat) : List Nat :=
  normalize ((List.range ((l.length - 1) / 2 + 1)).map (fun i => gfsqrt p (l.getD (2 * i) 0)))

/-- `GFPoly.gcd`: Euclid's algorithm on `divmod`; the result is the zero polynomial
or made monic. Fuel-indexed so the kernel can evaluate it. -/
def polyGcdF (p : Nat) : Nat → List Nat → List Nat → Option (List Nat)
  | 0, _, _ => none
  | fuel + 1, A, B =>
    if B.any (fun c => c != 0) then
      (gfpolyDivmod p A B).bind (fun qr => polyGcdF p fuel B qr.2)
    else if A.length = 1 ∧ A.getD 0 0 = 0 then some [0]
    else polyMonic p A

/-- The square-and-multiply loop of `GFPoly.pow`, fuel-indexed on the exponent. -/
def polyPowF (p : Nat) : Nat → List Nat → List Nat → Nat → List Nat
  | 0, Z, _, _ => Z
  | fuel + 1, Z, base, e =>
    if 0 < e then
      polyPowF p fuel (if e % 2 = 1 then polyMul p Z base else Z)
        (if e / 2 ≠ 0 then polyMul p base base else base) (e / 2)
    else Z

/-- `GFPoly.pow`: accumulator 1, the base re-normalized by the `GFPoly` constructor. -/
def polyPow (p : Nat) (l : List Nat) (e : Nat) : List Nat :=
  polyPowF p (e + 1) [1] (normalize l) e

/-- The refinement loop inside `sff` on state `(z, e, f_current, c_current)`:
take `y = gcd(f_current, c_current)`, emit `(f_current/y).monic()` at exponent `e`
whenever `f_current ≠ y`, and continue with `(y, c_current/y)` until `f_current = 1`.
Fuel-indexed; the gcd gets fuel adequate for its Euclid loop. -/
def sffLoopF (p : Nat) : Nat → List (List Nat × Nat) → Nat → List Nat → List Nat →
    Option (List (List Nat × Nat) × List Nat)
  | 0, _, _, _, _ => none
  | fuel + 1, z, e, f, c =>
    if f.length = 1 ∧ f.getD 0 0 = 1 then some (z, c)
    else
      (polyGcdF p (f.length + c.length + 2) f c).bind (fun y =>
        (if f ≠ y then
            (gfpolyDivmod p f y).bind (fun qr =>
              (polyMonic p qr.1).map (fun qm => z ++ [(qm, e)]))
          else some z).bind (fun z2 =>
          (gfpolyDivmod p c y).bind (fun cr =>
            sffLoopF p fuel z2 (e + 1) y cr.1)))

/-- The recursive `sff`: split off `c = gcd(f, f')`, run the refinement loop on
`(f/c, c)`, and recurse on `sqrt` of the final `c` with doubled exponents. -/
def sffF (p : Nat) : Nat → List Nat → Option (List (List Nat × Nat))
  | 0, _ => none
  | fuel + 1, f =>
    (polyGcdF p (f.length + (polyDiff f).length + 2) f (polyDiff f)).bind (fun c =>
      (gfpolyDivmod p f c).bind (fun fr =>
        (sffLoopF p (c.length + 2) [] 1 fr.1 c).bind (fun zc =>
          if zc.2.length = 1 ∧ zc.2.getD 0 0 = 1 then some zc.1
          else (sffF p fuel (polySqrt p zc.2)).map (fun rf =>
            zc.1 ++ rf.map (fun fe => (fe.1, 2 * fe.2))))))

/-- The final `sorted(factors, key=FE[0])` compares the polynomial components. -/
def pairPolyLt (x y : List Nat × Nat) : Bool := polyLt x.1 y.1

/-- Insert into a list sorted by `pairPolyLt`. -/
def insertPairPoly (x : List Nat × Nat) : List (List Nat × Nat) → List (List Nat × Nat)
  | [] => [x]
  | y :: ys => if pairPolyLt x y then x :: y :: ys else y :: insertPairPoly x ys

/-- Insertion sort by `pairPolyLt`. -/
def sortPairsPoly : List (List Nat × Nat) → List (List Nat × Nat)
  | [] => []
  | x :: xs => insertPairPoly x (sortPairsPoly xs)

/-- `GFPoly.square_free_factorization`: make the input monic, run `sff`, sort. -/
def square_free_factorization (p : Nat) (l : List Nat) : Option (List (List Nat × Nat)) :=
  (polyMonic p l).bind (fun F =>
    (sffF p (l.length + 1) F).map (fun factors => sortPairsPoly factors))

/-- The product of `factor ^ exponent` over a factor list, as `GFPoly` operations. -/
def polyProd (p : Nat) (z : List (List Nat × Nat)) : List Nat :=
  z.foldl (fun acc fe => polyMul p acc (polyPow p fe.1 fe.2)) [1]

/-! ### The `gf_inv` action surface and the dispatcher from `kauma.py` -/

/-- A reply of the `gf_inv` action: a value, or the `{"error": ...}` object produced
by the `except` block of `dispatch_action`. -/
inductive GfReply
  | ok (bytes : List Nat)
  | error

/-- `gf_inv` as dispatched: the `ValueError` of `poly_inv` on 0 becomes an error reply. -/
def dispatch_gf_inv (x p : Nat) : GfReply :=
  match poly_inv x p with
  | none => GfReply.error
  | some y => GfReply.ok (int_to_bytes_gcm y)

/-- The batch loop of `kauma.py`: every test case yields exactly one reply. -/
def run_batch_gf_inv (inputs : List (Nat × Nat)) : List GfReply :=
  inputs.map (fun t => dispatch_gf_inv t.1 t.2)

/-! ### Proof infrastructure: GF(2)[x] semantics of the bit-level code -/

/-- The polynomial over GF(2) whose coefficient of `X^i` is bit `i` of `n`. -/
noncomputable def toP (n : Nat) : Polynomial (ZMod 2) :=
  if n = 0 then 0 else Polynomial.C (n : ZMod 2) + toP (n / 2) * Polynomial.X
termination_by n
decreasing_by exact Nat.div_lt_self (Nat.pos_of_ne_zero (by assumption)) one_lt_two

/-- The image of a 128-bit value in the quotient ring `GF(2)[x]/(toP p)`. -/
noncomputable def phi (p n : Nat) : AdjoinRoot (toP p) := AdjoinRoot.mk (toP p) (toP n)

/-- A coefficient list read as a polynomial over the quotient ring. -/
noncomputable def toPK (p : Nat) : List Nat → Polynomial (AdjoinRoot (toP p))
  | [] => 0
  | c :: cs => Polynomial.C (phi p c) + toPK p cs * Polynomial.X



/-- The value in `K[x]` of a factor list: the product of `toPK` of each factor raised
to its exponent. -/
noncomputable def listProdK (p : Nat) (z : List (List Nat × Nat)) :
    Polynomial (AdjoinRoot (toP p)) :=
  (z.map (fun fe => toPK p fe.1 ^ fe.2)).prod

/-- `q ^ n` divides `x` exactly: the cofactor is not divisible by `q` again. -/
@[reducible] def ExactPow (p : Nat) (q x : Polynomial (AdjoinRoot (toP p))) (n : Nat) : Prop :=
  ∃ y, x = q ^ n * y ∧ ¬ q ∣ y

/-- Every irreducible divides `c` to an even power. -/
@[reducible] def EvenMults (p : Nat) (c : Polynomial (AdjoinRoot (toP p))) : Prop :=
  ∀ q : Polynomial (AdjoinRoot (toP p)), Irreducible q → ∀ n, ExactPow p q c n → n % 2 = 0

/-- The `GFPoly` representation invariant: a nonempty coefficient list whose last
entry is nonzero unless the list is a singleton. -/
def normalized (l : List Nat) : Prop :=
  l ≠ [] ∧ (l.length = 1 ∨ l.getLastD 0 ≠ 0)

/-- All coefficient values fit in 128 bits (the `GF128` constructor masks them). -/
def wfList (l : List Nat) : Prop := ∀ c ∈ l, c < 2 ^ 128

-- ===================================================================
-- THEOREMS
-- ===================================================================

set_option maxRecDepth 40000

/-! ## Bit-length lemmas -/

theorem bitLenF_eq_size : ∀ fuel n, n ≤ fuel → bitLenF fuel n = Nat.size n := by
  intro fuel
  induction fuel with
  | zero =>
    intro n hn
    interval_cases n
    simp [bitLenF, Nat.size_zero]
  | succ fuel ih =>
    intro n hn
    by_cases h : n = 0
    · simp [bitLenF, h, Nat.size_zero]
    · have hstep : Nat.size n = Nat.size (n / 2) + 1 := by
        conv_lhs => rw [← Nat.bit_decomp n]
        rw [Nat.size_bit, Nat.div2_val]
        rw [Nat.bit_decomp]; exact h
      have hhalf : n / 2 ≤ fuel := by
        have := Nat.div_lt_self (Nat.pos_of_ne_zero h) one_lt_two
        omega
      simp only [bitLenF, h, if_false, ih (n / 2) hhalf, hstep]

theorem bitLen_eq_size (n : Nat) : bitLen n = Nat.size n :=
  bitLenF_eq_size n n le_rfl

theorem bitLen_le {n k : Nat} : bitLen n ≤ k ↔ n < 2 ^ k := by
  rw [bitLen_eq_size]; exact Nat.size_le

theorem lt_two_pow_bitLen (n : Nat) : n < 2 ^ bitLen n := by
  rw [bitLen_eq_size]; exact Nat.lt_size_self n

theorem lt_bitLen {m n : Nat} : m < bitLen n ↔ 2 ^ m ≤ n := by
  rw [bitLen_eq_size]; exact Nat.lt_size

theorem bitLen_zero : bitLen 0 = 0 := rfl

theorem bitLen_eq_zero {n : Nat} : bitLen n = 0 ↔ n = 0 := by
  rw [bitLen_eq_size, Nat.size_eq_zero]

theorem bitLen_pos {n : Nat} (h : n ≠ 0) : 0 < bitLen n := by
  rw [bitLen_eq_size, Nat.size_pos]; exact Nat.pos_of_ne_zero h

theorem two_pow_bitLen_pred_le {n : Nat} (h : n ≠ 0) : 2 ^ (bitLen n - 1) ≤ n := by
  rw [← lt_bitLen]
  have := bitLen_pos h
  omega

theorem bitLen_shiftLeft {m : Nat} (h : m ≠ 0) (k : Nat) :
    bitLen (m <<< k) = bitLen m + k := by
  rw [bitLen_eq_size, bitLen_eq_size]; exact Nat.size_shiftLeft h k

theorem testBit_bitLen_pred {n : Nat} (h : n ≠ 0) : n.testBit (bitLen n - 1) = true := by
  have h1 : 2 ^ (bitLen n - 1) ≤ n := two_pow_bitLen_pred_le h
  have h2 : n < 2 ^ (bitLen n - 1) * 2 := by
    have h3 : n < 2 ^ bitLen n := lt_two_pow_bitLen n
    have h4 : 0 < bitLen n := bitLen_pos h
    calc n < 2 ^ bitLen n := h3
    _ = 2 ^ (bitLen n - 1) * 2 := by
        rw [← pow_succ]
        congr 1
        omega
  have hdiv : n / 2 ^ (bitLen n - 1) = 1 := by
    have hlo : 1 ≤ n / 2 ^ (bitLen n - 1) := (Nat.one_le_div_iff (Nat.pos_pow_of_pos _ two_pos)).2 h1
    have hhi : n / 2 ^ (bitLen n - 1) < 2 := Nat.div_lt_of_lt_mul h2
    omega
  rw [Nat.testBit_to_div_mod, hdiv]
  decide

theorem lt_two_pow_of_testBit_false {n k : Nat}
    (h : ∀ i, k ≤ i → n.testBit i = false) : n < 2 ^ k := by
  by_contra h2
  push_neg at h2
  have hne : n ≠ 0 := by
    intro h0
    rw [h0] at h2
    exact absurd h2 (by simp [Nat.pos_pow_of_pos])
  have hk : k ≤ bitLen n - 1 := by
    have : k < bitLen n := lt_bitLen.2 h2
    omega
  have := h (bitLen n - 1) hk
  rw [testBit_bitLen_pred hne] at this
  simp at this

theorem ge_two_pow_of_testBit {n i : Nat} (h : n.testBit i = true) : 2 ^ i ≤ n := by
  by_contra h2
  push_neg at h2
  rw [Nat.testBit_eq_false_of_lt h2] at h
  simp at h

theorem xor_lt_two_pow {a b k : Nat} (ha : a < 2 ^ k) (hb : b < 2 ^ k) :
    a ^^^ b < 2 ^ k := by
  refine lt_two_pow_of_testBit_false fun i hi => ?_
  rw [Nat.testBit_xor,
    Nat.testBit_eq_false_of_lt (lt_of_lt_of_le ha (Nat.pow_le_pow_right two_pos hi)),
    Nat.testBit_eq_false_of_lt (lt_of_lt_of_le hb (Nat.pow_le_pow_right two_pos hi))]
  rfl

theorem bitLen_xor_lt {a b : Nat} (ha : a ≠ 0) (h : bitLen a = bitLen b) :
    bitLen (a ^^^ b) < bitLen a := by
  have hb : b ≠ 0 := by
    intro h0
    rw [h0, bitLen_zero] at h
    exact ha (bitLen_eq_zero.1 h)
  have hpos := bitLen_pos ha
  have hxor : a ^^^ b < 2 ^ (bitLen a - 1) := by
    refine lt_two_pow_of_testBit_false fun i hi => ?_
    rcases Nat.lt_or_ge i (bitLen a) with hlt | hge
    · have hia : i = bitLen a - 1 := by omega
      rw [Nat.testBit_xor, hia, testBit_bitLen_pred ha]
      have : bitLen a - 1 = bitLen b - 1 := by omega
      rw [this, testBit_bitLen_pred hb]
      rfl
    · rw [Nat.testBit_xor,
        Nat.testBit_eq_false_of_lt
          (lt_of_lt_of_le (lt_two_pow_bitLen a) (Nat.pow_le_pow_right two_pos hge)),
        Nat.testBit_eq_false_of_lt
          (lt_of_lt_of_le (lt_two_pow_bitLen b) (Nat.pow_le_pow_right two_pos (h ▸ hge)))]
      rfl
  have := bitLen_le.2 hxor
  omega

theorem bitLen_xor_of_lt {a b : Nat} (h : bitLen a < bitLen b) :
    bitLen (a ^^^ b) = bitLen b := by
  have hb : b ≠ 0 := by
    intro h0
    rw [h0, bitLen_zero] at h
    omega
  have hub : a ^^^ b < 2 ^ bitLen b :=
    xor_lt_two_pow
      (lt_of_lt_of_le (lt_two_pow_bitLen a) (Nat.pow_le_pow_right two_pos h.le))
      (lt_two_pow_bitLen b)
  have hlb : 2 ^ (bitLen b - 1) ≤ a ^^^ b := by
    refine ge_two_pow_of_testBit ?_
    rw [Nat.testBit_xor, testBit_bitLen_pred hb,
      Nat.testBit_eq_false_of_lt
        (lt_of_lt_of_le (lt_two_pow_bitLen a) (Nat.pow_le_pow_right two_pos (by omega)))]
    rfl
  have h1 := bitLen_le.2 hub
  have h2 := lt_bitLen.2 hlb
  omega

/-! ## `toP`: GF(2)[x] reading of bit strings -/

theorem natCast_zmod_two (n : Nat) : (n : ZMod 2) = if n % 2 = 1 then 1 else 0 := by
  conv_lhs => rw [← Nat.mod_add_div n 2]
  push_cast
  have h2 : (2 : ZMod 2) = 0 := by decide
  rcases Nat.mod_two_eq_zero_or_one n with h | h <;> simp [h, h2]

theorem toP_zero : toP 0 = 0 := by rw [toP]; simp

theorem toP_of_ne_zero {n : Nat} (h : n ≠ 0) :
    toP n = Polynomial.C (n : ZMod 2) + toP (n / 2) * Polynomial.X := by
  rw [toP]; simp [h]

theorem toP_coeff (n : Nat) : ∀ i, (toP n).coeff i = if n.testBit i then 1 else 0 := by
  induction n using Nat.strong_induction_on with
  | _ n ih =>
    intro i
    by_cases h : n = 0
    · subst h; simp [toP_zero, Nat.zero_testBit]
    · rw [toP_of_ne_zero h]
      cases i with
      | zero =>
        rw [Nat.testBit_zero]
        simp [coeff_add, coeff_C, mul_comm, coeff_X_mul]
        exact natCast_zmod_two n
      | succ i =>
        have hdiv : n / 2 < n := Nat.div_lt_self (Nat.pos_of_ne_zero h) one_lt_two
        rw [Nat.testBit_succ]
        simp [coeff_add, coeff_C, mul_comm, coeff_X_mul, ih (n / 2) hdiv i]

theorem toP_one : toP 1 = 1 := by
  rw [toP_of_ne_zero one_ne_zero]
  have h1 : ((1 : Nat) : ZMod 2) = 1 := by decide
  simp [toP_zero, h1]

theorem toP_two : toP 2 = Polynomial.X := by
  rw [toP_of_ne_zero two_ne_zero]
  have h2 : ((2 : Nat) : ZMod 2) = 0 := by decide
  norm_num [toP_one, h2]
  decide

theorem toP_injective : Function.Injective toP := by
  intro a b hab
  refine Nat.eq_of_testBit_eq fun i => ?_
  have h1 := toP_coeff a i
  have h2 := toP_coeff b i
  rw [hab, h2] at h1
  by_cases ha : a.testBit i <;> by_cases hb : b.testBit i
  · simp [ha, hb]
  · simp [ha, hb] at h1
  · simp [ha, hb] at h1
  · simp [ha, hb]

theorem toP_eq_zero {n : Nat} : toP n = 0 ↔ n = 0 := by
  constructor
  · intro h
    exact toP_injective (h.trans toP_zero.symm)
  · intro h
    subst h
    exact toP_zero

theorem toP_xor (a b : Nat) : toP (a ^^^ b) = toP a + toP b := by
  ext i
  rw [coeff_add, toP_coeff, toP_coeff, toP_coeff, Nat.testBit_xor]
  by_cases ha : a.testBit i <;> by_cases hb : b.testBit i <;> simp [ha, hb] <;> decide

theorem toP_two_mul (a : Nat) : toP (2 * a) = toP a * Polynomial.X := by
  by_cases h : a = 0
  · simp [h, toP_zero]
  · rw [toP_of_ne_zero (by omega : 2 * a ≠ 0)]
    have h2 : ((2 * a : Nat) : ZMod 2) = 0 := by
      rw [natCast_zmod_two]
      simp [Nat.mul_mod_right]
    rw [h2]
    simp [Nat.mul_div_cancel_left a two_pos]

theorem toP_shiftLeft (a : Nat) : ∀ k, toP (a <<< k) = toP a * Polynomial.X ^ k := by
  intro k
  induction k with
  | zero => simp [Nat.shiftLeft_eq]
  | succ k ih =>
    have hstep : a <<< (k + 1) = 2 * (a <<< k) := by
      rw [Nat.shiftLeft_eq, Nat.shiftLeft_eq, pow_succ]
      ring
    rw [hstep, toP_two_mul, ih, pow_succ]
    ring

theorem toP_clmulF : ∀ fuel a b, b ≤ fuel → toP (clmulF fuel a b) = toP a * toP b := by
  intro fuel
  induction fuel with
  | zero =>
    intro a b hb
    interval_cases b
    simp [clmulF, toP_zero]
  | succ fuel ih =>
    intro a b hb
    by_cases h : b = 0
    · simp [clmulF, h, toP_zero]
    · have hhalf : b / 2 ≤ fuel := by
        have := Nat.div_lt_self (Nat.pos_of_ne_zero h) one_lt_two
        omega
      simp only [clmulF, h, if_false]
      rw [toP_xor, ih (2 * a) (b / 2) hhalf, toP_two_mul]
      conv_rhs => rw [toP_of_ne_zero h]
      rw [natCast_zmod_two]
      rcases Nat.mod_two_eq_zero_or_one b with hm | hm
      · simp only [hm]
        norm_num [toP_zero]
        ring
      · simp only [hm]
        norm_num [toP_one]
        ring

theorem toP_clmul (a b : Nat) : toP (carryless_mul a b) = toP a * toP b :=
  toP_clmulF b a b le_rfl

theorem toP_natDegree {n : Nat} (h : n ≠ 0) : (toP n).natDegree = bitLen n - 1 := by
  have hub : (toP n).natDegree ≤ bitLen n - 1 := by
    refine natDegree_le_iff_coeff_eq_zero.2 fun i hi => ?_
    rw [toP_coeff]
    have hlt : n < 2 ^ i := by
      have h1 := lt_two_pow_bitLen n
      have h2 : bitLen n ≤ i := by
        have := bitLen_pos h
        omega
      exact lt_of_lt_of_le h1 (Nat.pow_le_pow_right two_pos h2)
    simp [Nat.testBit_eq_false_of_lt hlt]
  have hlb : bitLen n - 1 ≤ (toP n).natDegree := by
    refine le_natDegree_of_ne_zero ?_
    rw [toP_coeff, testBit_bitLen_pred h]
    simp
  omega

theorem toP_monic {n : Nat} (h : n ≠ 0) : (toP n).Monic := by
  unfold Polynomial.Monic Polynomial.leadingCoeff
  rw [toP_natDegree h, toP_coeff, testBit_bitLen_pred h]
  simp

theorem toP_ne_zero {n : Nat} (h : n ≠ 0) : toP n ≠ 0 := fun h0 => h (toP_eq_zero.1 h0)

theorem toP_degree_lt {n k : Nat} (h : n < 2 ^ k) : (toP n).degree < (k : ℕ) := by
  by_cases h0 : n = 0
  · subst h0
    rw [toP_zero, degree_zero]
    exact WithBot.bot_lt_coe _
  · rw [degree_eq_natDegree (toP_ne_zero h0), Nat.cast_lt, toP_natDegree h0]
    have h1 : bitLen n ≤ k := bitLen_le.2 h
    have h2 := bitLen_pos h0
    have h3 : k ≠ 0 := by omega
    omega

theorem bitLen_eq_natDegree_add_one {n : Nat} (h : n ≠ 0) :
    bitLen n = (toP n).natDegree + 1 := by
  rw [toP_natDegree h]
  have := bitLen_pos h
  omega

theorem clmul_ne_zero {a b : Nat} (ha : a ≠ 0) (hb : b ≠ 0) : carryless_mul a b ≠ 0 := by
  intro h
  have := toP_clmul a b
  rw [h, toP_zero] at this
  exact (mul_ne_zero (toP_ne_zero ha) (toP_ne_zero hb)) this.symm

theorem bitLen_clmul {a b : Nat} (ha : a ≠ 0) (hb : b ≠ 0) :
    bitLen (carryless_mul a b) = bitLen a + bitLen b - 1 := by
  have hnz := clmul_ne_zero ha hb
  have hdeg : (toP (carryless_mul a b)).natDegree = (toP a).natDegree + (toP b).natDegree := by
    rw [toP_clmul]
    exact natDegree_mul (toP_ne_zero ha) (toP_ne_zero hb)
  rw [bitLen_eq_natDegree_add_one hnz, hdeg, toP_natDegree ha, toP_natDegree hb]
  have h1 := bitLen_pos ha
  have h2 := bitLen_pos hb
  omega

/-! ## Specification of the bit-level division, reduction and inversion loops -/

theorem add_self_poly (x : Polynomial (ZMod 2)) : x + x = 0 := CharTwo.add_self_eq_zero x

theorem polyDivmodF_spec (b : Nat) (hb : b ≠ 0) :
    ∀ fuel q r, r ≤ fuel →
      toP (polyDivmodF b fuel q r).1 * toP b + toP (polyDivmodF b fuel q r).2
          = toP q * toP b + toP r ∧
        ((polyDivmodF b fuel q r).2 = 0 ∨
          bitLen (polyDivmodF b fuel q r).2 < bitLen b) := by
  intro fuel
  induction fuel with
  | zero =>
    intro q r hr
    interval_cases r
    exact ⟨rfl, Or.inl rfl⟩
  | succ fuel ih =>
    intro q r hr
    by_cases hguard : r ≠ 0 ∧ bitLen b ≤ bitLen r
    · have hrne : r ≠ 0 := hguard.1
      have hble : bitLen b ≤ bitLen r := hguard.2
      set s := bitLen r - bitLen b with hs
      have hshift : bitLen (b <<< s) = bitLen r := by
        rw [bitLen_shiftLeft hb]
        omega
      have hdrop : bitLen (r ^^^ b <<< s) < bitLen r := by
        have := bitLen_xor_lt hrne hshift.symm
        omega
      have hlt : r ^^^ b <<< s < r :=
        lt_of_lt_of_le
          (lt_of_lt_of_le (lt_two_pow_bitLen _)
            (Nat.pow_le_pow_right two_pos (by omega : bitLen (r ^^^ b <<< s) ≤ bitLen r - 1)))
          (two_pow_bitLen_pred_le hrne)
      have hfuel : r ^^^ b <<< s ≤ fuel := by omega
      have hrec := ih (q ^^^ 1 <<< s) (r ^^^ b <<< s) hfuel
      have hunfold : polyDivmodF b (fuel + 1) q r
          = polyDivmodF b fuel (q ^^^ 1 <<< s) (r ^^^ b <<< s) := by
        rw [polyDivmodF, if_pos hguard]
      rw [hunfold]
      refine ⟨?_, hrec.2⟩
      rw [hrec.1, toP_xor, toP_xor, toP_shiftLeft, toP_shiftLeft, toP_one]
      have hz : Polynomial.X ^ s * toP b + Polynomial.X ^ s * toP b = 0 := add_self_poly _
      linear_combination hz
    · have hunfold : polyDivmodF b (fuel + 1) q r = (q, r) := by
        rw [polyDivmodF, if_neg hguard]
      rw [hunfold]
      refine ⟨rfl, ?_⟩
      rcases Decidable.not_and_iff_or_not.1 hguard with h | h
      · refine Or.inl ?_
        show r = 0
        simpa using h
      · refine Or.inr ?_
        show bitLen r < bitLen b
        omega

theorem polyDivmodAux_spec {a b : Nat} (hb : b ≠ 0) :
    toP (polyDivmodAux a b).1 * toP b + toP (polyDivmodAux a b).2 = toP a ∧
      ((polyDivmodAux a b).2 = 0 ∨ bitLen (polyDivmodAux a b).2 < bitLen b) := by
  have h := polyDivmodF_spec b hb a 0 a le_rfl
  unfold polyDivmodAux
  refine ⟨?_, h.2⟩
  rw [h.1, toP_zero, zero_mul, zero_add]

theorem polyDivmodF_upper (b : Nat) (hb : b ≠ 0) :
    ∀ fuel q r j, r ≤ fuel → q < 2 ^ j → bitLen r < bitLen b + j →
      (polyDivmodF b fuel q r).1 < 2 ^ j := by
  intro fuel
  induction fuel with
  | zero =>
    intro q r j hr hq hrb
    exact hq
  | succ fuel ih =>
    intro q r j hr hq hrb
    by_cases hguard : r ≠ 0 ∧ bitLen b ≤ bitLen r
    · have hrne : r ≠ 0 := hguard.1
      have hble : bitLen b ≤ bitLen r := hguard.2
      set s := bitLen r - bitLen b with hs
      have hshift : bitLen (b <<< s) = bitLen r := by
        rw [bitLen_shiftLeft hb]
        omega
      have hdrop : bitLen (r ^^^ b <<< s) < bitLen r := by
        have := bitLen_xor_lt hrne hshift.symm
        omega
      have hlt : r ^^^ b <<< s < r :=
        lt_of_lt_of_le
          (lt_of_lt_of_le (lt_two_pow_bitLen _)
            (Nat.pow_le_pow_right two_pos (by omega : bitLen (r ^^^ b <<< s) ≤ bitLen r - 1)))
          (two_pow_bitLen_pred_le hrne)
      have hq2 : q ^^^ 1 <<< s < 2 ^ j := by
        refine xor_lt_two_pow hq ?_
        have h1 : (1 : Nat) <<< s = 2 ^ s := by
          rw [Nat.shiftLeft_eq, one_mul]
        rw [h1]
        exact Nat.pow_lt_pow_right one_lt_two (by omega)
      have hunfold : polyDivmodF b (fuel + 1) q r
          = polyDivmodF b fuel (q ^^^ 1 <<< s) (r ^^^ b <<< s) := by
        rw [polyDivmodF, if_pos hguard]
      rw [hunfold]
      exact ih _ _ j (by omega) hq2 (by omega)
    · rw [polyDivmodF, if_neg hguard]
      exact hq

theorem polyDivmodF_persist (b : Nat) (hb : b ≠ 0) :
    ∀ fuel q r i, r ≤ fuel → bitLen r < bitLen b + i → q.testBit i = true →
      (polyDivmodF b fuel q r).1.testBit i = true := by
  intro fuel
  induction fuel with
  | zero =>
    intro q r i hr hrb hq
    exact hq
  | succ fuel ih =>
    intro q r i hr hrb hq
    by_cases hguard : r ≠ 0 ∧ bitLen b ≤ bitLen r
    · have hrne : r ≠ 0 := hguard.1
      have hble : bitLen b ≤ bitLen r := hguard.2
      set s := bitLen r - bitLen b with hs
      have hshift : bitLen (b <<< s) = bitLen r := by
        rw [bitLen_shiftLeft hb]
        omega
      have hdrop : bitLen (r ^^^ b <<< s) < bitLen r := by
        have := bitLen_xor_lt hrne hshift.symm
        omega
      have hlt : r ^^^ b <<< s < r :=
        lt_of_lt_of_le
          (lt_of_lt_of_le (lt_two_pow_bitLen _)
            (Nat.pow_le_pow_right two_pos (by omega : bitLen (r ^^^ b <<< s) ≤ bitLen r - 1)))
          (two_pow_bitLen_pred_le hrne)
      have hqbit : (q ^^^ 1 <<< s).testBit i = true := by
        rw [Nat.testBit_xor, hq, Nat.testBit_shiftLeft]
        have hsi : s < i := by omega
        have h1 : Nat.testBit 1 (i - s) = false := by
          have : i - s ≠ 0 := by omega
          rcases Nat.exists_eq_succ_of_ne_zero this with ⟨k, hk⟩
          rw [hk, Nat.testBit_succ]
          simp
        rw [h1]
        simp
      have hunfold : polyDivmodF b (fuel + 1) q r
          = polyDivmodF b fuel (q ^^^ 1 <<< s) (r ^^^ b <<< s) := by
        rw [polyDivmodF, if_pos hguard]
      rw [hunfold]
      exact ih _ _ i (by omega) (by omega) hqbit
    · rw [polyDivmodF, if_neg hguard]
      exact hq

theorem polyDivmodAux_q_bitLen {a b : Nat} (ha : a ≠ 0) (hb : b ≠ 0)
    (hba : bitLen b ≤ bitLen a) :
    (polyDivmodAux a b).1 ≠ 0 ∧
      bitLen (polyDivmodAux a b).1 = bitLen a - bitLen b + 1 := by
  obtain ⟨a0, rfl⟩ := Nat.exists_eq_succ_of_ne_zero ha
  simp only [Nat.succ_eq_add_one] at ha hba ⊢
  set s := bitLen (a0 + 1) - bitLen b with hs
  have hshift : bitLen (b <<< s) = bitLen (a0 + 1) := by
    rw [bitLen_shiftLeft hb]
    omega
  have hdrop : bitLen ((a0 + 1) ^^^ b <<< s) < bitLen (a0 + 1) := by
    have := bitLen_xor_lt ha hshift.symm
    omega
  have hlt : (a0 + 1) ^^^ b <<< s < a0 + 1 :=
    lt_of_lt_of_le
      (lt_of_lt_of_le (lt_two_pow_bitLen _)
        (Nat.pow_le_pow_right two_pos
          (by omega : bitLen ((a0 + 1) ^^^ b <<< s) ≤ bitLen (a0 + 1) - 1)))
      (two_pow_bitLen_pred_le ha)
  have hstep : polyDivmodAux (a0 + 1) b
      = polyDivmodF b a0 (0 ^^^ 1 <<< s) ((a0 + 1) ^^^ b <<< s) := by
    unfold polyDivmodAux
    rw [polyDivmodF, if_pos ⟨ha, hba⟩]
  have hone : (0 : Nat) ^^^ 1 <<< s = 1 <<< s := Nat.zero_xor _
  have hsl : (1 : Nat) <<< s = 2 ^ s := by rw [Nat.shiftLeft_eq, one_mul]
  have hfuel : (a0 + 1) ^^^ b <<< s ≤ a0 := by omega
  have hupper : (polyDivmodAux (a0 + 1) b).1 < 2 ^ (s + 1) := by
    rw [hstep, hone]
    refine polyDivmodF_upper b hb _ _ _ (s + 1) hfuel ?_ ?_
    · rw [hsl]
      exact Nat.pow_lt_pow_right one_lt_two (Nat.lt_succ_self s)
    · omega
  have hpersist : (polyDivmodAux (a0 + 1) b).1.testBit s = true := by
    rw [hstep, hone]
    refine polyDivmodF_persist b hb _ _ _ s hfuel (by omega) ?_
    rw [Nat.testBit_shiftLeft]
    simp
  have hge : 2 ^ s ≤ (polyDivmodAux (a0 + 1) b).1 := ge_two_pow_of_testBit hpersist
  have hne : (polyDivmodAux (a0 + 1) b).1 ≠ 0 := by
    intro h0
    rw [h0] at hge
    exact absurd hge (by simp [Nat.pos_pow_of_pos])
  refine ⟨hne, ?_⟩
  have h1 := bitLen_le.2 hupper
  have h2 := lt_bitLen.2 hge
  omega

/-! ## Specification of `gf_reduce_poly` and the quotient-ring map `phi` -/

theorem bitLen_of_bounds {r k : Nat} (h1 : 2 ^ k ≤ r) (h2 : r < 2 ^ (k + 1)) :
    bitLen r = k + 1 := by
  have ha := lt_bitLen.2 h1
  have hb := bitLen_le.2 h2
  omega

theorem testBit_of_bounds {r k : Nat} (h1 : 2 ^ k ≤ r) (h2 : r < 2 ^ (k + 1)) :
    r.testBit k = true := by
  have hdiv : r / 2 ^ k = 1 := by
    have hlo : 1 ≤ r / 2 ^ k := (Nat.one_le_div_iff (Nat.pos_pow_of_pos _ two_pos)).2 h1
    have hhi : r / 2 ^ k < 2 := Nat.div_lt_of_lt_mul (by rw [pow_succ] at h2; omega)
    omega
  rw [Nat.testBit_to_div_mod, hdiv]
  decide

theorem or_shl_collapse {r h : Nat} (hr1 : 2 ^ 128 ≤ r) (hr2 : r < 2 ^ 129) (hh : 128 ≤ h) :
    (1 <<< h) ||| (r <<< (h - 128)) = r <<< (h - 128) := by
  refine Nat.eq_of_testBit_eq fun i => ?_
  rw [Nat.testBit_or, Nat.testBit_shiftLeft, Nat.testBit_shiftLeft]
  by_cases hih : i = h
  · subst hih
    have h128 : r.testBit 128 = true := testBit_of_bounds hr1 hr2
    have hsub : i - (i - 128) = 128 := by omega
    rw [hsub, h128]
    simp
  · have h1 : Nat.testBit 1 (i - h) = false ∨ ¬(h ≤ i) := by
      by_cases hle : h ≤ i
      · have : i - h ≠ 0 := by omega
        rcases Nat.exists_eq_succ_of_ne_zero this with ⟨k, hk⟩
        rw [hk, Nat.testBit_succ]
        simp
      · exact Or.inr hle
    rcases h1 with h1 | h1
    · rw [h1]
      simp
    · rw [decide_eq_false h1]
      simp

theorem gfReduceF_spec {r : Nat} (hr1 : 2 ^ 128 ≤ r) (hr2 : r < 2 ^ 129) :
    ∀ fuel x, x ≤ fuel →
      gfReduceF r fuel x < 2 ^ 128 ∧ toP r ∣ toP x - toP (gfReduceF r fuel x) := by
  have hbr : bitLen r = 129 := bitLen_of_bounds hr1 hr2
  have hrne : r ≠ 0 := by
    intro h0
    rw [h0] at hr1
    exact absurd hr1 (by simp [Nat.pos_pow_of_pos])
  intro fuel
  induction fuel with
  | zero =>
    intro x hx
    interval_cases x
    refine ⟨?_, ?_⟩
    · show (0 : Nat) &&& ((1 <<< 128) - 1) < 2 ^ 128
      rw [Nat.zero_and]
      exact Nat.pos_pow_of_pos _ two_pos
    · show toP r ∣ toP 0 - toP ((0 : Nat) &&& ((1 <<< 128) - 1))
      rw [Nat.zero_and, sub_self]
      exact dvd_zero _
  | succ fuel ih =>
    intro x hx
    by_cases hguard : 128 < bitLen x
    · have hxne : x ≠ 0 := by
        intro h0
        rw [h0, bitLen_zero] at hguard
        omega
      set h := bitLen x - 1 with hh
      have hh128 : 128 ≤ h := by omega
      have hcol : (1 <<< h) ||| (r <<< (h - 128)) = r <<< (h - 128) :=
        or_shl_collapse hr1 hr2 hh128
      have hshift : bitLen (r <<< (h - 128)) = bitLen x := by
        rw [bitLen_shiftLeft hrne, hbr]
        omega
      set y := x ^^^ ((1 <<< h) ||| (r <<< (h - 128))) with hy
      have hyx : y = x ^^^ (r <<< (h - 128)) := by rw [hy, hcol]
      have hdrop : bitLen y < bitLen x := by
        rw [hyx]
        exact bitLen_xor_lt hxne hshift.symm
      have hlt : y < x :=
        lt_of_lt_of_le
          (lt_of_lt_of_le (lt_two_pow_bitLen _)
            (Nat.pow_le_pow_right two_pos (by omega : bitLen y ≤ bitLen x - 1)))
          (two_pow_bitLen_pred_le hxne)
      have hunfold : gfReduceF r (fuel + 1) x = gfReduceF r fuel y := by
        rw [gfReduceF, if_pos hguard]
      rw [hunfold]
      have hrec := ih y (by omega)
      refine ⟨hrec.1, ?_⟩
      have hstep : toP r ∣ toP x - toP y := by
        rw [hyx, toP_xor, toP_shiftLeft]
        have : toP x - (toP x + toP r * Polynomial.X ^ (h - 128))
            = -(toP r * Polynomial.X ^ (h - 128)) := by ring
        rw [this]
        exact (dvd_mul_right _ _).neg_right
      have := dvd_add hstep hrec.2
      have heq : toP x - toP y + (toP y - toP (gfReduceF r fuel y))
          = toP x - toP (gfReduceF r fuel y) := by ring
      rwa [heq] at this
    · have hunfold : gfReduceF r (fuel + 1) x = x &&& ((1 <<< 128) - 1) := by
        rw [gfReduceF, if_neg hguard]
      have hxlt : x < 2 ^ 128 := bitLen_le.1 (by omega)
      have hand : x &&& ((1 <<< 128) - 1) = x := by
        have h1 : (1 : Nat) <<< 128 = 2 ^ 128 := by rw [Nat.shiftLeft_eq, one_mul]
        rw [h1, Nat.and_pow_two_sub_one_eq_mod, Nat.mod_eq_of_lt hxlt]
      rw [hunfold, hand]
      exact ⟨hxlt, by rw [sub_self]; exact dvd_zero _⟩

theorem gf_reduce_spec {r : Nat} (hr1 : 2 ^ 128 ≤ r) (hr2 : r < 2 ^ 129) (x : Nat) :
    gf_reduce_poly x r < 2 ^ 128 ∧ toP r ∣ toP x - toP (gf_reduce_poly x r) :=
  gfReduceF_spec hr1 hr2 x x le_rfl

theorem gf_reduce_of_lt {r x : Nat} (hx : x < 2 ^ 128) : gf_reduce_poly x r = x := by
  have hand : x &&& ((1 <<< 128) - 1) = x := by
    have h1 : (1 : Nat) <<< 128 = 2 ^ 128 := by rw [Nat.shiftLeft_eq, one_mul]
    rw [h1, Nat.and_pow_two_sub_one_eq_mod, Nat.mod_eq_of_lt hx]
  have hguard : ¬128 < bitLen x := by
    have := bitLen_le.2 hx
    omega
  unfold gf_reduce_poly
  cases x with
  | zero => exact hand
  | succ x0 => rw [gfReduceF, if_neg hguard, hand]

theorem phi_xor (p a b : Nat) : phi p (a ^^^ b) = phi p a + phi p b := by
  unfold phi
  rw [toP_xor, map_add]

theorem phi_one (p : Nat) : phi p 1 = 1 := by
  unfold phi
  rw [toP_one, map_one]

theorem phi_zero (p : Nat) : phi p 0 = 0 := by
  unfold phi
  rw [toP_zero, map_zero]

theorem phi_reduce {p : Nat} (hp1 : 2 ^ 128 ≤ p) (hp2 : p < 2 ^ 129) (x : Nat) :
    phi p (gf_reduce_poly x p) = phi p x := by
  unfold phi
  rw [AdjoinRoot.mk_eq_mk]
  have := (gf_reduce_spec hp1 hp2 x).2
  exact (dvd_sub_comm).1 this

theorem phi_clmul (p a b : Nat) : phi p (carryless_mul a b) = phi p a * phi p b := by
  unfold phi
  rw [toP_clmul, map_mul]

theorem phi_gfmul {p : Nat} (hp1 : 2 ^ 128 ≤ p) (hp2 : p < 2 ^ 129) (a b : Nat) :
    phi p (gfmul p a b) = phi p a * phi p b := by
  unfold gfmul
  rw [phi_reduce hp1 hp2, phi_clmul]

theorem toP_p_natDegree {p : Nat} (hp1 : 2 ^ 128 ≤ p) (hp2 : p < 2 ^ 129) :
    (toP p).natDegree = 128 := by
  have hpne : p ≠ 0 := by
    intro h0
    rw [h0] at hp1
    exact absurd hp1 (by simp [Nat.pos_pow_of_pos])
  rw [toP_natDegree hpne, bitLen_of_bounds hp1 hp2]

theorem phi_inj {p a b : Nat} (hp1 : 2 ^ 128 ≤ p) (hp2 : p < 2 ^ 129)
    (ha : a < 2 ^ 128) (hb : b < 2 ^ 128) (h : phi p a = phi p b) : a = b := by
  have hpne : p ≠ 0 := by
    intro h0
    rw [h0] at hp1
    exact absurd hp1 (by simp [Nat.pos_pow_of_pos])
  unfold phi at h
  have hdvd : toP p ∣ toP a - toP b := AdjoinRoot.mk_eq_mk.1 h
  have hsub : toP a - toP b = toP (a ^^^ b) := by
    rw [toP_xor, CharTwo.sub_eq_add]
  rw [hsub] at hdvd
  have hdeg : (toP (a ^^^ b)).degree < (toP p).degree := by
    have h1 : (toP (a ^^^ b)).degree < (128 : Nat) := toP_degree_lt (xor_lt_two_pow ha hb)
    have h2 : (toP p).degree = (128 : Nat) := by
      rw [degree_eq_natDegree (toP_ne_zero hpne), toP_p_natDegree hp1 hp2]
    rw [h2]
    exact h1
  have hz := Polynomial.eq_zero_of_dvd_of_degree_lt hdvd hdeg
  have hxz : a ^^^ b = 0 := toP_eq_zero.1 hz
  exact Nat.xor_eq_zero.1 hxz

theorem P1_bounds : 2 ^ 128 ≤ P1 ∧ P1 < 2 ^ 129 := by decide

theorem P2_bounds : 2 ^ 128 ≤ P2 ∧ P2 < 2 ^ 129 := by decide

/-! ## Transfer of the squaring and Euclid certificates -/

theorem clmul_lt {a b j k : Nat} (ha : a < 2 ^ j) (hb : b < 2 ^ k) :
    carryless_mul a b < 2 ^ (j + k) := by
  by_cases haz : a = 0
  · have h0 : carryless_mul a b = 0 := by
      refine toP_eq_zero.1 ?_
      rw [toP_clmul, haz, toP_zero, zero_mul]
    rw [h0]
    exact Nat.pos_pow_of_pos _ two_pos
  by_cases hbz : b = 0
  · have h0 : carryless_mul a b = 0 := by
      refine toP_eq_zero.1 ?_
      rw [toP_clmul, hbz, toP_zero, mul_zero]
    rw [h0]
    exact Nat.pos_pow_of_pos _ two_pos
  · have h := bitLen_clmul haz hbz
    have h1 := bitLen_le.2 ha
    have h2 := bitLen_le.2 hb
    have h3 := bitLen_pos haz
    refine bitLen_le.1 ?_
    omega

theorem redStep_spec {m k t : Nat} (hm1 : 2 ^ 128 ≤ m) (hm2 : m < 2 ^ 129)
    (ht : t < 2 ^ (129 + k)) :
    redStep m k t < 2 ^ (128 + k) ∧ toP m ∣ toP t - toP (redStep m k t) := by
  unfold redStep
  by_cases hbit : t.testBit (128 + k)
  · rw [if_pos hbit]
    constructor
    · refine lt_two_pow_of_testBit_false fun i hi => ?_
      rw [Nat.testBit_xor]
      by_cases hik : i = 128 + k
      · subst hik
        rw [hbit, Nat.testBit_shiftLeft]
        have hsub : 128 + k - k = 128 := by omega
        rw [hsub, testBit_of_bounds hm1 hm2, decide_eq_true (by omega : k ≤ 128 + k)]
        rfl
      · have hti : t.testBit i = false :=
          Nat.testBit_eq_false_of_lt
            (lt_of_lt_of_le ht (Nat.pow_le_pow_right two_pos (by omega)))
        have hmi : (m <<< k).testBit i = false := by
          refine Nat.testBit_eq_false_of_lt ?_
          calc m <<< k = m * 2 ^ k := Nat.shiftLeft_eq m k
          _ < 2 ^ 129 * 2 ^ k := by
              exact (Nat.mul_lt_mul_right (Nat.pos_pow_of_pos _ two_pos)).2 hm2
          _ = 2 ^ (129 + k) := by rw [← pow_add]
          _ ≤ 2 ^ i := Nat.pow_le_pow_right two_pos (by omega)
        rw [hti, hmi]
        rfl
    · rw [toP_xor, toP_shiftLeft]
      have : toP t - (toP t + toP m * Polynomial.X ^ k) = -(toP m * Polynomial.X ^ k) := by
        ring
      rw [this]
      exact (dvd_mul_right _ _).neg_right
  · rw [if_neg hbit]
    refine ⟨?_, by rw [sub_self]; exact dvd_zero _⟩
    refine lt_two_pow_of_testBit_false fun i hi => ?_
    by_cases hik : i = 128 + k
    · subst hik
      exact Bool.not_eq_true _ ▸ (by simpa using hbit)
    · exact Nat.testBit_eq_false_of_lt
        (lt_of_lt_of_le ht (Nat.pow_le_pow_right two_pos (by omega)))

theorem redAll_spec {m : Nat} (hm1 : 2 ^ 128 ≤ m) (hm2 : m < 2 ^ 129) :
    ∀ K t, t < 2 ^ (128 + K) →
      redAll m K t < 2 ^ 128 ∧ toP m ∣ toP t - toP (redAll m K t) := by
  intro K
  induction K with
  | zero =>
    intro t ht
    refine ⟨by simpa using ht, ?_⟩
    show toP m ∣ toP t - toP t
    rw [sub_self]
    exact dvd_zero _
  | succ K ih =>
    intro t ht
    have hstep := redStep_spec hm1 hm2 (k := K) (t := t) (by
      have : 129 + K = 128 + (K + 1) := by omega
      rw [this]
      exact ht)
    have hrec := ih (redStep m K t) hstep.1
    have hunfold : redAll m (K + 1) t = redAll m K (redStep m K t) := rfl
    rw [hunfold]
    refine ⟨hrec.1, ?_⟩
    have := dvd_add hstep.2 hrec.2
    have heq : toP t - toP (redStep m K t)
        + (toP (redStep m K t) - toP (redAll m K (redStep m K t)))
        = toP t - toP (redAll m K (redStep m K t)) := by ring
    rwa [heq] at this

theorem sqStep_spec {m x : Nat} (hm1 : 2 ^ 128 ≤ m) (hm2 : m < 2 ^ 129)
    (hx : x < 2 ^ 128) :
    sqStep m x < 2 ^ 128 ∧ phi m (sqStep m x) = phi m x ^ 2 := by
  have hprod : carryless_mul x x < 2 ^ (128 + 127) := by
    by_cases hxz : x = 0
    · have h0 : carryless_mul x x = 0 := by
        refine toP_eq_zero.1 ?_
        rw [toP_clmul, hxz, toP_zero, zero_mul]
      rw [h0]
      exact Nat.pos_pow_of_pos _ two_pos
    · have h := bitLen_clmul hxz hxz
      have h1 := bitLen_le.2 hx
      have h2 := bitLen_pos hxz
      refine bitLen_le.1 ?_
      omega
  have h := redAll_spec hm1 hm2 127 (carryless_mul x x) hprod
  refine ⟨h.1, ?_⟩
  have hmk : phi m (sqStep m x) = phi m (carryless_mul x x) := by
    unfold phi sqStep
    rw [AdjoinRoot.mk_eq_mk]
    exact dvd_sub_comm.1 h.2
  rw [hmk, phi_clmul, sq]

theorem sqList_spec {m : Nat} (hm1 : 2 ^ 128 ≤ m) (hm2 : m < 2 ^ 129) :
    ∀ l x, x < 2 ^ 128 → sqList m x l = true →
      phi m (l.getLastD x) = phi m x ^ 2 ^ l.length ∧ l.getLastD x < 2 ^ 128 := by
  intro l
  induction l with
  | nil =>
    intro x hx _
    refine ⟨by simp, by simpa using hx⟩
  | cons y ys ih =>
    intro x hx hchk
    have hparts : sqStep m x = y ∧ y < 2 ^ 128 ∧ sqList m y ys = true := by
      have h1 := hchk
      unfold sqList at h1
      simp only [Bool.and_eq_true, beq_iff_eq, decide_eq_true_eq] at h1
      exact ⟨h1.1.1, h1.1.2, h1.2⟩
    have hrec := ih y hparts.2.1 hparts.2.2
    have hy : phi m y = phi m x ^ 2 := by
      rw [← hparts.1]
      exact (sqStep_spec hm1 hm2 hx).2
    have hlast : (y :: ys).getLastD x = ys.getLastD y := List.getLastD_cons x y ys
    rw [hlast, hrec.1, hy, ← pow_mul]
    refine ⟨?_, hrec.2⟩
    congr 1
    rw [List.length_cons, pow_succ]
    ring

theorem eucRun_dvd (D : Polynomial (ZMod 2)) :
    ∀ qs a b, D ∣ toP a → D ∣ toP b → D ∣ toP (eucRun a b qs).1 := by
  intro qs
  induction qs with
  | nil =>
    intro a b ha _
    exact ha
  | cons q qs ih =>
    intro a b ha hb
    refine ih b (a ^^^ carryless_mul q b) hb ?_
    rw [toP_xor, toP_clmul]
    exact dvd_add ha (Dvd.dvd.mul_left hb (toP q))

/-! ## The computational certificates for P1 and P2 -/

theorem sq_cert_P1A : sqList P1 2 sqAP1 = true := by decide

theorem sq_cert_P1B : sqList P1 s64vP1 sqBP1 = true := by decide

theorem euc_cert_P1 : (eucRun P1 (s64vP1 ^^^ 2) eucP1).1 = 1 := by decide

theorem sq_cert_P2A : sqList P2 2 sqAP2 = true := by decide

theorem sq_cert_P2B : sqList P2 s64vP2 sqBP2 = true := by decide

theorem euc_cert_P2 : (eucRun P2 (s64vP2 ^^^ 2) eucP2).1 = 1 := by decide

theorem cert_shape_P1 : sqAP1.length = 64 ∧ sqBP1.length = 64 ∧
    sqAP1.getLastD 2 = s64vP1 ∧ sqBP1.getLastD s64vP1 = 2 ∧ s64vP1 < 2 ^ 128 := by decide

theorem cert_shape_P2 : sqAP2.length = 64 ∧ sqBP2.length = 64 ∧
    sqAP2.getLastD 2 = s64vP2 ∧ sqBP2.getLastD s64vP2 = 2 ∧ s64vP2 < 2 ^ 128 := by decide

theorem cert_to_dvd {p s64 : Nat} {sqA sqB euc : List Nat}
    (hp1 : 2 ^ 128 ≤ p) (hp2 : p < 2 ^ 129)
    (hA : sqList p 2 sqA = true) (hB : sqList p s64 sqB = true)
    (hlenA : sqA.length = 64) (hlenB : sqB.length = 64)
    (hlastA : sqA.getLastD 2 = s64) (hlastB : sqB.getLastD s64 = 2)
    (heuc : (eucRun p (s64 ^^^ 2) euc).1 = 1) (hs64lt : s64 < 2 ^ 128) :
    (toP p ∣ Polynomial.X ^ 2 ^ 128 - Polynomial.X) ∧
      ∀ D : Polynomial (ZMod 2),
        D ∣ toP p → D ∣ Polynomial.X ^ 2 ^ 64 - Polynomial.X → IsUnit D := by
  have h2lt : (2 : Nat) < 2 ^ 128 := by
    calc (2 : Nat) = 2 ^ 1 := (pow_one 2).symm
    _ < 2 ^ 128 := Nat.pow_lt_pow_right one_lt_two (by omega)
  have hspecA := sqList_spec hp1 hp2 sqA 2 h2lt hA
  rw [hlastA, hlenA] at hspecA
  have hspecB := sqList_spec hp1 hp2 sqB s64 hs64lt hB
  rw [hlastB, hlenB] at hspecB
  have hfix : phi p 2 ^ 2 ^ 128 = phi p 2 := by
    have h1 : phi p 2 = (phi p 2 ^ 2 ^ 64) ^ 2 ^ 64 := by
      rw [← hspecA.1]
      exact hspecB.1
    rw [← pow_mul] at h1
    have h2 : 2 ^ 64 * 2 ^ 64 = 2 ^ 128 := by
      rw [← pow_add]
    rw [h2] at h1
    exact h1.symm
  have hphi2 : phi p 2 = AdjoinRoot.mk (toP p) Polynomial.X := by
    unfold phi
    rw [toP_two]
  have hs64X : toP p ∣ toP s64 - Polynomial.X ^ 2 ^ 64 := by
    have h1 : phi p s64 = AdjoinRoot.mk (toP p) (Polynomial.X ^ 2 ^ 64) := by
      rw [hspecA.1, hphi2, map_pow]
    exact AdjoinRoot.mk_eq_mk.1 h1
  constructor
  · rw [← AdjoinRoot.mk_eq_zero (f := toP p)]
    rw [map_sub, map_pow, ← hphi2, hfix, sub_self]
  · intro D hDp hDX
    have hDh : D ∣ toP (s64 ^^^ 2) := by
      rw [toP_xor, toP_two]
      have heq : toP s64 + Polynomial.X
          = (toP s64 - Polynomial.X ^ 2 ^ 64) + (Polynomial.X ^ 2 ^ 64 - Polynomial.X)
            + (Polynomial.X + Polynomial.X) := by ring
      rw [heq, add_self_poly, add_zero]
      exact dvd_add (dvd_trans hDp hs64X) hDX
    have hrun := eucRun_dvd D euc p (s64 ^^^ 2) hDp hDh
    rw [heuc, toP_one] at hrun
    exact isUnit_of_dvd_one hrun

theorem dvd_facts_P1 :
    (toP P1 ∣ Polynomial.X ^ 2 ^ 128 - Polynomial.X) ∧
      ∀ D : Polynomial (ZMod 2),
        D ∣ toP P1 → D ∣ Polynomial.X ^ 2 ^ 64 - Polynomial.X → IsUnit D :=
  cert_to_dvd P1_bounds.1 P1_bounds.2 sq_cert_P1A sq_cert_P1B
    cert_shape_P1.1 cert_shape_P1.2.1 cert_shape_P1.2.2.1 cert_shape_P1.2.2.2.1
    euc_cert_P1 cert_shape_P1.2.2.2.2

theorem dvd_facts_P2 :
    (toP P2 ∣ Polynomial.X ^ 2 ^ 128 - Polynomial.X) ∧
      ∀ D : Polynomial (ZMod 2),
        D ∣ toP P2 → D ∣ Polynomial.X ^ 2 ^ 64 - Polynomial.X → IsUnit D :=
  cert_to_dvd P2_bounds.1 P2_bounds.2 sq_cert_P2A sq_cert_P2B
    cert_shape_P2.1 cert_shape_P2.2.1 cert_shape_P2.2.2.1 cert_shape_P2.2.2.2.1
    euc_cert_P2 cert_shape_P2.2.2.2.2

/-! ## Irreducibility of the two reduction polynomials (Rabin test) -/

theorem nat_two_pow_sub_one_dvd {d : Nat} (hd : 1 ≤ d) :
    ∀ n, (2 ^ d - 1 ∣ 2 ^ n - 1) → d ∣ n := by
  intro n
  induction n using Nat.strong_induction_on with
  | _ n ih =>
    intro hdvd
    by_cases hn : n < d
    · have hlt : 2 ^ n < 2 ^ d := Nat.pow_lt_pow_right one_lt_two hn
      have hp : 0 < 2 ^ n := Nat.pos_pow_of_pos _ two_pos
      have h0 : 2 ^ n - 1 = 0 := Nat.eq_zero_of_dvd_of_lt hdvd (by omega)
      have hn0 : n = 0 := by
        by_contra hne
        have h2 : 2 ^ 1 ≤ 2 ^ n := Nat.pow_le_pow_right two_pos (by omega)
        omega
      subst hn0
      exact Dvd.intro 0 rfl
    · push_neg at hn
      have hsplit : 2 ^ (n - d) * (2 ^ d - 1) = 2 ^ n - 2 ^ (n - d) := by
        have h1 : 2 ^ (n - d) * 2 ^ d = 2 ^ n := by
          rw [← pow_add]
          congr 1
          omega
        calc 2 ^ (n - d) * (2 ^ d - 1)
            = (2 ^ d - 1) * 2 ^ (n - d) := by ring
        _ = 2 ^ d * 2 ^ (n - d) - 1 * 2 ^ (n - d) := Nat.mul_sub_right_distrib _ _ _
        _ = 2 ^ n - 2 ^ (n - d) := by rw [one_mul, mul_comm, h1]
      have hle : 2 ^ (n - d) ≤ 2 ^ n := Nat.pow_le_pow_right two_pos (by omega)
      have hp1 : 0 < 2 ^ (n - d) := Nat.pos_pow_of_pos _ two_pos
      have hsub : 2 ^ (n - d) - 1 = (2 ^ n - 1) - 2 ^ (n - d) * (2 ^ d - 1) := by
        rw [hsplit]
        omega
      have hd2 : 2 ^ d - 1 ∣ 2 ^ (n - d) - 1 := by
        rw [hsub]
        exact Nat.dvd_sub' hdvd (dvd_mul_left _ _)
      by_cases hn0 : n = 0
      · subst hn0
        exact Dvd.intro 0 rfl
      · obtain ⟨k, hk⟩ := ih (n - d) (by omega) hd2
        refine ⟨k + 1, ?_⟩
        have hdk : d * (k + 1) = d * k + d := by ring
        omega

theorem all_pow_fixed {q : Polynomial (ZMod 2)} (hq : Irreducible q) {n : Nat}
    (hroot : (AdjoinRoot.root q) ^ 2 ^ n = AdjoinRoot.root q) :
    ∀ x : AdjoinRoot q, x ^ 2 ^ n = x := by
  haveI : Fact (Irreducible q) := ⟨hq⟩
  haveI hchar : CharP (AdjoinRoot q) 2 :=
    charP_of_injective_algebraMap (algebraMap (ZMod 2) (AdjoinRoot q)).injective 2
  let S : Subring (AdjoinRoot q) :=
    { carrier := {x | x ^ 2 ^ n = x}
      zero_mem' := by
        simp only [Set.mem_setOf_eq]
        exact zero_pow (by positivity)
      one_mem' := one_pow _
      add_mem' := by
        intro x y hx hy
        simp only [Set.mem_setOf_eq] at *
        rw [add_pow_char_pow, hx, hy]
      mul_mem' := by
        intro x y hx hy
        simp only [Set.mem_setOf_eq] at *
        rw [mul_pow, hx, hy]
      neg_mem' := by
        intro x hx
        simp only [Set.mem_setOf_eq] at *
        rw [CharTwo.neg_eq]
        exact hx }
  have hS : ∀ x, x ∈ S → x ^ 2 ^ n = x := fun x hx => hx
  intro x
  refine hS x ?_
  refine AdjoinRoot.induction_on q x fun g => ?_
  induction g using Polynomial.induction_on with
  | h_C a =>
    have ha : ∀ b : ZMod 2, b = 0 ∨ b = 1 := by decide
    rcases ha a with rfl | rfl
    · rw [Polynomial.C_0, map_zero]
      exact S.zero_mem
    · rw [Polynomial.C_1, map_one]
      exact S.one_mem
  | h_add p1 p2 h1 h2 =>
    rw [map_add]
    exact S.add_mem h1 h2
  | h_monomial k a hk =>
    have hsplit : Polynomial.C a * Polynomial.X ^ (k + 1)
        = Polynomial.C a * Polynomial.X ^ k * Polynomial.X := by
      rw [pow_succ, mul_assoc]
    rw [hsplit, map_mul, AdjoinRoot.mk_X]
    refine S.mul_mem hk ?_
    exact hroot

theorem card_adjoinRoot {q : Polynomial (ZMod 2)} (hq : Irreducible q) :
    Nat.card (AdjoinRoot q) = 2 ^ q.natDegree := by
  haveI : Fact (Irreducible q) := ⟨hq⟩
  letI fin : Fintype (AdjoinRoot q) :=
    Module.fintypeOfFintype (AdjoinRoot.powerBasis hq.ne_zero).basis
  rw [Nat.card_eq_fintype_card]
  have h := Module.card_fintype (AdjoinRoot.powerBasis hq.ne_zero).basis
  simpa using h

theorem natDegree_dvd_of_dvd_X_pow {q : Polynomial (ZMod 2)} (hq : Irreducible q)
    {n : Nat} (hdvd : q ∣ Polynomial.X ^ 2 ^ n - Polynomial.X) : q.natDegree ∣ n := by
  haveI : Fact (Irreducible q) := ⟨hq⟩
  letI fin : Fintype (AdjoinRoot q) :=
    Module.fintypeOfFintype (AdjoinRoot.powerBasis hq.ne_zero).basis
  have hroot : (AdjoinRoot.root q) ^ 2 ^ n = AdjoinRoot.root q := by
    have h0 : AdjoinRoot.mk q (Polynomial.X ^ 2 ^ n - Polynomial.X) = 0 :=
      AdjoinRoot.mk_eq_zero.2 hdvd
    rw [map_sub, map_pow, AdjoinRoot.mk_X] at h0
    exact sub_eq_zero.1 h0
  have hall := all_pow_fixed hq hroot
  obtain ⟨g, hg⟩ := IsCyclic.exists_generator (α := (AdjoinRoot q)ˣ)
  have hord : orderOf g = 2 ^ q.natDegree - 1 := by
    rw [orderOf_eq_card_of_forall_mem_zpowers hg, Nat.card_units, card_adjoinRoot hq]
  have hgfix : (g : AdjoinRoot q) ^ 2 ^ n = (g : AdjoinRoot q) := hall _
  have hgpow : g ^ (2 ^ n - 1) = 1 := by
    have hsucc : 2 ^ n - 1 + 1 = 2 ^ n := by
      have := Nat.pos_pow_of_pos n two_pos
      omega
    have h1 : g ^ (2 ^ n - 1) * g = g ^ (2 ^ n) := by
      rw [← pow_succ, hsucc]
    have h2 : g ^ (2 ^ n) = g := by
      ext
      push_cast
      exact hgfix
    rw [h2] at h1
    exact mul_right_cancel (h1.trans (one_mul g).symm)
  have hdvd2 : 2 ^ q.natDegree - 1 ∣ 2 ^ n - 1 := hord ▸ orderOf_dvd_of_pow_eq_one hgpow
  exact nat_two_pow_sub_one_dvd hq.natDegree_pos n hdvd2

theorem dvd_X_pow_of_natDegree_dvd {q : Polynomial (ZMod 2)} (hq : Irreducible q)
    {n : Nat} (hd : q.natDegree ∣ n) : q ∣ Polynomial.X ^ 2 ^ n - Polynomial.X := by
  haveI : Fact (Irreducible q) := ⟨hq⟩
  letI fin : Fintype (AdjoinRoot q) :=
    Module.fintypeOfFintype (AdjoinRoot.powerBasis hq.ne_zero).basis
  have hcard : Fintype.card (AdjoinRoot q) = 2 ^ q.natDegree := by
    rw [← Nat.card_eq_fintype_card]
    exact card_adjoinRoot hq
  have hfix : ∀ x : AdjoinRoot q, x ^ 2 ^ q.natDegree = x := by
    intro x
    rw [← hcard]
    exact FiniteField.pow_card x
  obtain ⟨k, rfl⟩ := hd
  have hroot : (AdjoinRoot.root q) ^ 2 ^ (q.natDegree * k) = AdjoinRoot.root q := by
    induction k with
    | zero => simp
    | succ k ihk =>
      have h1 : q.natDegree * (k + 1) = q.natDegree * k + q.natDegree := by ring
      rw [h1, pow_add, pow_mul, ihk]
      exact hfix _
  rw [← AdjoinRoot.mk_eq_zero, map_sub, map_pow, AdjoinRoot.mk_X, hroot, sub_self]

theorem irreducible_of_certs {M : Polynomial (ZMod 2)} (hM : M.Monic)
    (hdeg : M.natDegree = 128) (h128 : M ∣ Polynomial.X ^ 2 ^ 128 - Polynomial.X)
    (hcop : ∀ D : Polynomial (ZMod 2),
      D ∣ M → D ∣ Polynomial.X ^ 2 ^ 64 - Polynomial.X → IsUnit D) :
    Irreducible M := by
  have hM0 : M ≠ 0 := hM.ne_zero
  have hMnu : ¬IsUnit M := by
    intro hu
    have := Polynomial.natDegree_eq_zero_of_isUnit hu
    omega
  obtain ⟨q, hqirr, hqdvd⟩ := WfDvdMonoid.exists_irreducible_factor hMnu hM0
  have hqd : q.natDegree ∣ 128 := natDegree_dvd_of_dvd_X_pow hqirr (hqdvd.trans h128)
  have hqpos : 0 < q.natDegree := hqirr.natDegree_pos
  have h64 : q.natDegree = 128 ∨ q.natDegree ∣ 64 := by
    have h7 : q.natDegree ∣ 2 ^ 7 := by
      have h128e : (128 : Nat) = 2 ^ 7 := by norm_num
      rw [← h128e]
      exact hqd
    obtain ⟨i, hi, hqe⟩ := (Nat.dvd_prime_pow Nat.prime_two).1 h7
    by_cases hi7 : i = 7
    · subst hi7
      left
      rw [hqe]
      norm_num
    · right
      rw [hqe]
      have h64e : (64 : Nat) = 2 ^ 6 := by norm_num
      rw [h64e]
      exact pow_dvd_pow 2 (by omega)
  rcases h64 with hd128 | hd64
  · obtain ⟨c, hc⟩ := hqdvd
    have hq0 : q ≠ 0 := hqirr.ne_zero
    have hc0 : c ≠ 0 := by
      rintro rfl
      rw [mul_zero] at hc
      exact hM0 hc
    have hdegsum : M.natDegree = q.natDegree + c.natDegree := by
      rw [hc]
      exact Polynomial.natDegree_mul hq0 hc0
    have hdegc : c.natDegree = 0 := by omega
    have hcunit : IsUnit c := by
      rw [Polynomial.isUnit_iff_degree_eq_zero, Polynomial.degree_eq_natDegree hc0, hdegc]
      rfl
    have hassoc : Associated q M := by
      refine ⟨hcunit.unit, ?_⟩
      rw [IsUnit.unit_spec]
      exact hc.symm
    exact hassoc.irreducible hqirr
  · have hqdvd64 : q ∣ Polynomial.X ^ 2 ^ 64 - Polynomial.X :=
      dvd_X_pow_of_natDegree_dvd hqirr hd64
    exact absurd (hcop q hqdvd hqdvd64) hqirr.not_unit

theorem P1_ne_zero : P1 ≠ 0 := by decide

theorem P2_ne_zero : P2 ≠ 0 := by decide

theorem irreducible_toP_P1 : Irreducible (toP P1) :=
  irreducible_of_certs (toP_monic P1_ne_zero) (toP_p_natDegree P1_bounds.1 P1_bounds.2)
    dvd_facts_P1.1 dvd_facts_P1.2

theorem irreducible_toP_P2 : Irreducible (toP P2) :=
  irreducible_of_certs (toP_monic P2_ne_zero) (toP_p_natDegree P2_bounds.1 P2_bounds.2)
    dvd_facts_P2.1 dvd_facts_P2.2

theorem irreducible_toP {p : Nat} (hp : p = P1 ∨ p = P2) : Irreducible (toP p) := by
  rcases hp with rfl | rfl
  · exact irreducible_toP_P1
  · exact irreducible_toP_P2

theorem poly_bounds {p : Nat} (hp : p = P1 ∨ p = P2) : 2 ^ 128 ≤ p ∧ p < 2 ^ 129 := by
  rcases hp with rfl | rfl
  · exact P1_bounds
  · exact P2_bounds

/-! ## Correctness of `poly_inv` (extended Euclid) -/

theorem poly_unit_eq_one {D : Polynomial (ZMod 2)} (h : IsUnit D) : D = 1 := by
  obtain ⟨r, hru, hrc⟩ := Polynomial.isUnit_iff.1 h
  have hr1 : r = 1 := by
    have hne : r ≠ 0 := hru.ne_zero
    have : ∀ b : ZMod 2, b ≠ 0 → b = 1 := by decide
    exact this r hne
  rw [← hrc, hr1, Polynomial.C_1]

theorem zmod2_poly_unit {p aa : Nat} (hp : p = P1 ∨ p = P2) (haa : aa < 2 ^ 128)
    (h0 : aa ≠ 0) :
    ∀ D : Polynomial (ZMod 2), D ∣ toP p → D ∣ toP aa → IsUnit D := by
  intro D hDp hDa
  obtain ⟨c, hc⟩ := hDp
  rcases (irreducible_toP hp).isUnit_or_isUnit hc with hu | hu
  · exact hu
  · exfalso
    have hMD : toP p ∣ D := by
      obtain ⟨cu, hcu⟩ := hu
      refine ⟨↑cu⁻¹, ?_⟩
      rw [hc, ← hcu, mul_assoc]
      simp
    have hMa : toP p ∣ toP aa := hMD.trans hDa
    have hbounds := poly_bounds hp
    have hpne : p ≠ 0 := by
      have := hbounds.1
      intro hz
      rw [hz] at this
      exact absurd this (by simp [Nat.pos_pow_of_pos])
    have hdeg : (toP aa).degree < (toP p).degree := by
      have h1 : (toP aa).degree < (128 : Nat) := toP_degree_lt haa
      have h2 : (toP p).degree = (128 : Nat) := by
        rw [degree_eq_natDegree (toP_ne_zero hpne), toP_p_natDegree hbounds.1 hbounds.2]
      rw [h2]
      exact h1
    exact toP_ne_zero h0 (Polynomial.eq_zero_of_dvd_of_degree_lt hMa hdeg)

theorem polyInvF_spec {p : Nat} (hp : p = P1 ∨ p = P2) (alpha : AdjoinRoot (toP p)) :
    ∀ fuel u v s t,
      v < fuel → u ≠ 0 →
      (v = 0 ∨ bitLen v < bitLen u) →
      (s = 0 ∨ bitLen s + bitLen u ≤ bitLen p) →
      (t ≠ 0 ∧ bitLen t + bitLen u = bitLen p + 1) →
      phi p v = AdjoinRoot.mk (toP p) (toP t) * alpha →
      phi p u = AdjoinRoot.mk (toP p) (toP s) * alpha →
      (∀ D : Polynomial (ZMod 2), D ∣ toP u → D ∣ toP v → IsUnit D) →
      polyInvF fuel u v s t < 2 ^ 128 ∧ phi p (polyInvF fuel u v s t) * alpha = 1 := by
  have hbounds := poly_bounds hp
  have hblp : bitLen p = 129 := bitLen_of_bounds hbounds.1 hbounds.2
  haveI : Fact (Irreducible (toP p)) := ⟨irreducible_toP hp⟩
  haveI hchar : CharP (AdjoinRoot (toP p)) 2 :=
    charP_of_injective_algebraMap (algebraMap (ZMod 2) (AdjoinRoot (toP p))).injective 2
  intro fuel
  induction fuel with
  | zero =>
    intro u v s t hv
    omega
  | succ fuel ih =>
    intro u v s t hfuel hu hI1 hI3 hI4 hphiV hphiU hunit
    by_cases hv : v = 0
    · -- loop exit: u is a unit polynomial hence 1, the result is s
      have huu : IsUnit (toP u) := by
        refine hunit (toP u) dvd_rfl ?_
        rw [hv, toP_zero]
        exact dvd_zero _
      have hu1 : u = 1 := by
        have := poly_unit_eq_one huu
        rw [← toP_one] at this
        exact toP_injective this
      have hphi1 : AdjoinRoot.mk (toP p) (toP s) * alpha = 1 := by
        rw [← hphiU, hu1]
        unfold phi
        rw [toP_one, map_one]
      have hsne : s ≠ 0 := by
        rintro rfl
        rw [toP_zero, map_zero, zero_mul] at hphi1
        exact zero_ne_one hphi1
      have hslt : s < 2 ^ 128 := by
        rcases hI3 with h | h
        · exact absurd h hsne
        · have hbu : bitLen u = 1 := by
            rw [hu1]
            decide
          refine bitLen_le.1 ?_
          omega
      have hmask : s &&& ((1 <<< 128) - 1) = s := by
        have h1 : (1 : Nat) <<< 128 = 2 ^ 128 := by rw [Nat.shiftLeft_eq, one_mul]
        rw [h1, Nat.and_pow_two_sub_one_eq_mod, Nat.mod_eq_of_lt hslt]
      have hres : polyInvF (fuel + 1) u v s t = s := by
        rw [polyInvF, if_pos hv, hmask]
      rw [hres]
      exact ⟨hslt, hphi1⟩
    · -- loop step
      have hI1v : bitLen v < bitLen u := by
        rcases hI1 with h | h
        · exact absurd h hv
        · exact h
      have hvb := bitLen_pos hv
      have hub := bitLen_pos hu
      have hdm := polyDivmodAux_spec (a := u) hv
      have hq := polyDivmodAux_q_bitLen hu hv (by omega)
      set q := (polyDivmodAux u v).1 with hqdef
      set r := (polyDivmodAux u v).2 with hrdef
      have hrv : r < v := by
        rcases hdm.2 with h | h
        · rw [h]
          omega
        · calc r < 2 ^ bitLen r := lt_two_pow_bitLen r
          _ ≤ 2 ^ (bitLen v - 1) := Nat.pow_le_pow_right two_pos (by omega)
          _ ≤ v := two_pow_bitLen_pred_le hv
      have hclT : bitLen (carryless_mul q t) = bitLen p + 1 - bitLen v := by
        rw [bitLen_clmul hq.1 hI4.1, hq.2]
        omega
      have hclTne : carryless_mul q t ≠ 0 := clmul_ne_zero hq.1 hI4.1
      have htnew : s ^^^ carryless_mul q t ≠ 0 ∧
          bitLen (s ^^^ carryless_mul q t) = bitLen p + 1 - bitLen v := by
        rcases hI3 with hs0 | hsb
        · subst hs0
          rw [Nat.zero_xor]
          exact ⟨hclTne, hclT⟩
        · have hlt : bitLen s < bitLen (carryless_mul q t) := by
            rw [hclT]
            omega
          have h1 := bitLen_xor_of_lt hlt
          rw [hclT] at h1
          refine ⟨?_, h1⟩
          intro h0
          rw [h0, bitLen_zero] at h1
          omega
      -- quotient relation in the quotient ring
      have hmkrel : AdjoinRoot.mk (toP p) (toP q) * phi p v + phi p r = phi p u := by
        unfold phi
        rw [← map_mul, ← map_add]
        congr 1
        exact hdm.1
      have hphiVnew : phi p r
          = AdjoinRoot.mk (toP p) (toP (s ^^^ carryless_mul q t)) * alpha := by
        rw [toP_xor, toP_clmul, map_add, map_mul]
        have h1 : phi p r = phi p u - AdjoinRoot.mk (toP p) (toP q) * phi p v := by
          rw [← hmkrel]
          ring
        rw [h1, hphiU, hphiV]
        have h2 : ∀ x y : AdjoinRoot (toP p), x - y = x + y := fun x y => CharTwo.sub_eq_add x y
        rw [h2]
        ring
      have hunitnew : ∀ D : Polynomial (ZMod 2), D ∣ toP v → D ∣ toP r → IsUnit D := by
        intro D hDv hDr
        refine hunit D ?_ hDv
        rw [← hdm.1]
        exact dvd_add (hDv.mul_left (toP q)) hDr
      have hres : polyInvF (fuel + 1) u v s t
          = polyInvF fuel v r t (s ^^^ carryless_mul q t) := by
        rw [polyInvF, if_neg hv]
      rw [hres]
      refine ih v r t (s ^^^ carryless_mul q t) (by omega) hv ?_ ?_ ?_ hphiVnew hphiV hunitnew
      · rcases hdm.2 with h | h
        · exact Or.inl h
        · exact Or.inr h
      · refine Or.inr ?_
        omega
      · have htb := bitLen_pos hI4.1
        refine ⟨htnew.1, ?_⟩
        rw [htnew.2]
        omega

theorem or_128_self {p : Nat} (hp1 : 2 ^ 128 ≤ p) (hp2 : p < 2 ^ 129) :
    (1 <<< 128) ||| p = p := by
  have h := or_shl_collapse hp1 hp2 (le_refl 128)
  have h0 : p <<< (128 - 128) = p := by
    norm_num
  rw [h0] at h
  exact h

theorem gf_inv_correct {p a : Nat} (hp : p = P1 ∨ p = P2) (ha : a < 2 ^ 128) (h0 : a ≠ 0) :
    ∃ s, poly_inv a p = some s ∧ gfmul p a s = 1 := by
  have hbounds := poly_bounds hp
  have hblp : bitLen p = 129 := bitLen_of_bounds hbounds.1 hbounds.2
  have hpne : p ≠ 0 := by
    intro hz
    rw [hz, bitLen_zero] at hblp
    omega
  have hw := polyInvF_spec hp (phi p a) (a + 1) p a 0 1 (by omega) hpne
    (Or.inr (by
      have := bitLen_le.2 ha
      omega))
    (Or.inl rfl)
    (⟨one_ne_zero, by
      have hb1 : bitLen 1 = 1 := by decide
      omega⟩)
    (by
      rw [toP_one, map_one, one_mul])
    (by
      unfold phi
      rw [toP_zero, map_zero, zero_mul, AdjoinRoot.mk_self])
    (zmod2_poly_unit hp ha h0)
  set w := polyInvF (a + 1) p a 0 1 with hwdef
  refine ⟨w, ?_, ?_⟩
  · unfold poly_inv
    rw [if_neg h0, or_128_self hbounds.1 hbounds.2]
  · have hmul := phi_gfmul hbounds.1 hbounds.2 a w
    have hphi : phi p (gfmul p a w) = phi p 1 := by
      rw [hmul, phi_one]
      rw [mul_comm] at hw
      exact hw.2
    exact phi_inj hbounds.1 hbounds.2
      (gf_reduce_spec hbounds.1 hbounds.2 (carryless_mul a w)).1
      (Nat.one_lt_pow (by omega) one_lt_two)
      hphi

/-! ## Correctness of `gf_square_and_multiply` and `GF128.sqrt` -/

theorem gfPowF_spec {p : Nat} (hp1 : 2 ^ 128 ≤ p) (hp2 : p < 2 ^ 129) :
    ∀ fuel x base e, e < fuel → x < 2 ^ 128 →
      gfPowF p fuel x base e < 2 ^ 128 ∧
        phi p (gfPowF p fuel x base e) = phi p x * phi p base ^ e := by
  intro fuel
  induction fuel with
  | zero =>
    intro x base e he
    omega
  | succ fuel ih =>
    intro x base e he hx
    by_cases he0 : 0 < e
    · have hx' : (if e % 2 = 1 then gf_reduce_poly (carryless_mul x base) p else x) < 2 ^ 128 := by
        by_cases hodd : e % 2 = 1
        · rw [if_pos hodd]
          exact (gf_reduce_spec hp1 hp2 _).1
        · rw [if_neg hodd]
          exact hx
      have hrec := ih (if e % 2 = 1 then gf_reduce_poly (carryless_mul x base) p else x)
        (if e / 2 ≠ 0 then gf_reduce_poly (carryless_mul base base) p else base)
        (e / 2) (by omega) hx'
      have hres : gfPowF p (fuel + 1) x base e
          = gfPowF p fuel (if e % 2 = 1 then gf_reduce_poly (carryless_mul x base) p else x)
            (if e / 2 ≠ 0 then gf_reduce_poly (carryless_mul base base) p else base)
            (e / 2) := by
        rw [gfPowF, if_pos he0]
      rw [hres]
      refine ⟨hrec.1, ?_⟩
      rw [hrec.2]
      have hphix : phi p (if e % 2 = 1 then gf_reduce_poly (carryless_mul x base) p else x)
          = phi p x * phi p base ^ (e % 2) := by
        by_cases hodd : e % 2 = 1
        · rw [if_pos hodd, hodd, pow_one, phi_reduce hp1 hp2, phi_clmul]
        · have heven : e % 2 = 0 := by omega
          rw [if_neg hodd, heven, pow_zero, mul_one]
      have hphib : (phi p (if e / 2 ≠ 0 then gf_reduce_poly (carryless_mul base base) p
            else base)) ^ (e / 2) = (phi p base ^ 2) ^ (e / 2) := by
        by_cases hhalf : e / 2 ≠ 0
        · rw [if_pos hhalf, phi_reduce hp1 hp2, phi_clmul, sq]
        · push_neg at hhalf
          rw [if_neg (by omega), hhalf, pow_zero, pow_zero]
      rw [hphix, hphib, ← pow_mul, mul_assoc, ← pow_add]
      congr 2
      omega
    · have hres : gfPowF p (fuel + 1) x base e = x := by
        rw [gfPowF, if_neg he0]
      rw [hres]
      have he' : e = 0 := by omega
      rw [he', pow_zero, mul_one]
      exact ⟨hx, rfl⟩

theorem gfpow_spec {p a : Nat} (hp1 : 2 ^ 128 ≤ p) (hp2 : p < 2 ^ 129)
    (ha : a < 2 ^ 128) (e : Nat) :
    gfpow p a e < 2 ^ 128 ∧ phi p (gfpow p a e) = phi p a ^ e := by
  unfold gfpow gf_square_and_multiply
  rw [gf_reduce_of_lt ha]
  have h := gfPowF_spec hp1 hp2 (e + 1) 1 a e (by omega) (Nat.one_lt_pow (by omega) one_lt_two)
  refine ⟨h.1, ?_⟩
  rw [h.2, phi_one, one_mul]

theorem pow_card_fix {p : Nat} (hp : p = P1 ∨ p = P2) (z : AdjoinRoot (toP p)) :
    z ^ 2 ^ 128 = z := by
  haveI : Fact (Irreducible (toP p)) := ⟨irreducible_toP hp⟩
  letI fin : Fintype (AdjoinRoot (toP p)) :=
    Module.fintypeOfFintype (AdjoinRoot.powerBasis (irreducible_toP hp).ne_zero).basis
  have hcard : Fintype.card (AdjoinRoot (toP p)) = 2 ^ 128 := by
    rw [← Nat.card_eq_fintype_card, card_adjoinRoot (irreducible_toP hp),
      toP_p_natDegree (poly_bounds hp).1 (poly_bounds hp).2]
  rw [← hcard]
  exact FiniteField.pow_card z

theorem gfsqrt_correct {p a : Nat} (hp : p = P1 ∨ p = P2) (ha : a < 2 ^ 128) :
    gfsqrt p a < 2 ^ 128 ∧ gfmul p (gfsqrt p a) (gfsqrt p a) = a := by
  have hbounds := poly_bounds hp
  have hsl : (1 : Nat) <<< 127 = 2 ^ 127 := by rw [Nat.shiftLeft_eq, one_mul]
  have hpow := gfpow_spec hbounds.1 hbounds.2 ha (1 <<< 127)
  refine ⟨hpow.1, ?_⟩
  have hphi : phi p (gfmul p (gfsqrt p a) (gfsqrt p a)) = phi p a := by
    rw [phi_gfmul hbounds.1 hbounds.2]
    unfold gfsqrt
    rw [hpow.2, ← pow_add, hsl]
    have h2 : 2 ^ 127 + 2 ^ 127 = 2 ^ 128 := by
      rw [← two_mul, ← pow_succ']
    rw [h2]
    exact pow_card_fix hp (phi p a)
  exact phi_inj hbounds.1 hbounds.2
    (gf_reduce_spec hbounds.1 hbounds.2 _).1 ha hphi

/-! ## Claim C2 -/

/-- C2: for every field element `a ≠ 0`, under either reduction polynomial (p1 or p2),
`mul(a, inv(a))` equals the field element 1: `poly_inv` succeeds and the product of
`a` with the returned inverse is the unit element. -/
theorem claim_C2 {p a : Nat} (hp : p = P1 ∨ p = P2) (ha : a < 2 ^ 128) (h0 : a ≠ 0) :
    ∃ s, poly_inv a p = some s ∧ gfmul p a s = 1 :=
  gf_inv_correct hp ha h0

theorem claim_C2_witness :
    (P1 = P1 ∨ P1 = P2) ∧ (2 : Nat) < 2 ^ 128 ∧ (2 : Nat) ≠ 0 ∧
      ∃ s, poly_inv 2 P1 = some s ∧ gfmul P1 2 s = 1 :=
  ⟨Or.inl rfl, by decide, by decide, claim_C2 (Or.inl rfl) (by decide) (by decide)⟩

/-! ## Claim C5 -/

/-- C5: for every field element `a ≠ 0`, under either reduction polynomial, with
`s = sqrt(a) = pow(a, 2^127)` it holds that `mul(s, s) = a`. -/
theorem claim_C5 {p a : Nat} (hp : p = P1 ∨ p = P2) (ha : a < 2 ^ 128) (h0 : a ≠ 0) :
    gfmul p (gfsqrt p a) (gfsqrt p a) = a :=
  (gfsqrt_correct hp ha).2

theorem claim_C5_witness :
    (P2 = P1 ∨ P2 = P2) ∧ (3 : Nat) < 2 ^ 128 ∧ (3 : Nat) ≠ 0 ∧
      gfmul P2 (gfsqrt P2 3) (gfsqrt P2 3) = 3 :=
  ⟨Or.inr rfl, by decide, by decide, claim_C5 (Or.inr rfl) (by decide) (by decide)⟩

/-! ## Claim C8 -/

/-- C8: GF(2^128) inversion fails with a domain error iff the input is the zero
element: the dispatched `gf_inv` action yields the error reply exactly on 0,
succeeds with a value on every nonzero input, and the batch loop always produces
one reply per test case instead of aborting. -/
theorem claim_C8 (x p : Nat) :
    (dispatch_gf_inv x p = GfReply.error ↔ x = 0) ∧
      (x ≠ 0 → ∃ bs, dispatch_gf_inv x p = GfReply.ok bs) ∧
      ∀ inputs : List (Nat × Nat), (run_batch_gf_inv inputs).length = inputs.length := by
  refine ⟨?_, ?_, ?_⟩
  · unfold dispatch_gf_inv poly_inv
    by_cases hx : x = 0
    · simp [hx]
    · simp [hx]
  · intro hx
    unfold dispatch_gf_inv poly_inv
    simp [hx]
  · intro inputs
    unfold run_batch_gf_inv
    exact List.length_map inputs _

/-! ## The GCM byte codec (claim C4) -/

theorem reverse_byte_lt {b : Nat} (hb : b < 256) : reverse_byte b < 256 := by
  have h : ∀ x : Fin 256, reverse_byte x.val < 256 := by decide
  exact h ⟨b, hb⟩

theorem reverse_byte_involutive {b : Nat} (hb : b < 256) :
    reverse_byte (reverse_byte b) = b := by
  have h : ∀ x : Fin 256, reverse_byte (reverse_byte x.val) = x.val := by decide
  exact h ⟨b, hb⟩

theorem natToBytesBE_length : ∀ k x, (natToBytesBE k x).length = k := by
  intro k
  induction k with
  | zero => intro x; rfl
  | succ k ih =>
    intro x
    show (natToBytesBE k (x / 256) ++ [x % 256]).length = k + 1
    rw [List.length_append, ih]
    rfl

theorem natToBytesBE_lt : ∀ k x, ∀ b ∈ natToBytesBE k x, b < 256 := by
  intro k
  induction k with
  | zero => intro x b hb; exact absurd hb (List.not_mem_nil b)
  | succ k ih =>
    intro x b hb
    rcases List.mem_append.1 hb with h | h
    · exact ih _ b h
    · rcases List.mem_singleton.1 h with rfl
      exact Nat.mod_lt _ (by omega)

theorem bytesBEToNat_append_singleton (l : List Nat) (b : Nat) :
    bytesBEToNat (l ++ [b]) = 256 * bytesBEToNat l + b := by
  unfold bytesBEToNat
  rw [List.foldl_append]
  rfl

theorem bytesBEToNat_lt : ∀ B : List Nat, (∀ b ∈ B, b < 256) →
    bytesBEToNat B < 256 ^ B.length := by
  intro B
  induction B using List.reverseRecOn with
  | nil => intro _; decide
  | append_singleton l b ih =>
    intro hB
    rw [bytesBEToNat_append_singleton]
    have hb : b < 256 := hB b (by simp)
    have hl := ih fun c hc => hB c (by simp [hc])
    rw [List.length_append, List.length_singleton, pow_add, pow_one]
    calc 256 * bytesBEToNat l + b < 256 * bytesBEToNat l + 256 := by omega
    _ = 256 * (bytesBEToNat l + 1) := by ring
    _ ≤ 256 * 256 ^ l.length := by
        have : bytesBEToNat l + 1 ≤ 256 ^ l.length := hl
        omega
    _ = 256 ^ l.length * 256 := by ring

theorem natToBytesBE_bytesBEToNat : ∀ B : List Nat, (∀ b ∈ B, b < 256) →
    natToBytesBE B.length (bytesBEToNat B) = B := by
  intro B
  induction B using List.reverseRecOn with
  | nil => intro _; rfl
  | append_singleton l b ih =>
    intro hB
    have hb : b < 256 := hB b (by simp)
    have hl := ih fun c hc => hB c (by simp [hc])
    rw [bytesBEToNat_append_singleton, List.length_append, List.length_singleton]
    show natToBytesBE (l.length) ((256 * bytesBEToNat l + b) / 256)
        ++ [(256 * bytesBEToNat l + b) % 256] = l ++ [b]
    have hdiv : (256 * bytesBEToNat l + b) / 256 = bytesBEToNat l := by
      rw [Nat.mul_add_div (by omega), Nat.div_eq_of_lt hb, Nat.add_zero]
    have hmod : (256 * bytesBEToNat l + b) % 256 = b := by
      rw [Nat.mul_add_mod, Nat.mod_eq_of_lt hb]
    rw [hdiv, hmod, hl]

/-- C4: for every 16-byte block `B`, encoding the decoded value round-trips:
`int_to_bytes_gcm(bytes_to_int_gcm(B)) = B`. -/
theorem claim_C4 {B : List Nat} (hlen : B.length = 16) (hbytes : ∀ b ∈ B, b < 256) :
    int_to_bytes_gcm (bytes_to_int_gcm B) = B := by
  unfold int_to_bytes_gcm bytes_to_int_gcm reverse_bits_128
  set x := bytesBEToNat B with hx
  have hto : natToBytesBE 16 x = B := by
    rw [hx, ← hlen]
    exact natToBytesBE_bytesBEToNat B hbytes
  rw [hto]
  set B1 := (B.reverse).map reverse_byte with hB1
  have hB1len : B1.length = 16 := by
    rw [hB1, List.length_map, List.length_reverse, hlen]
  have hB1bytes : ∀ b ∈ B1, b < 256 := by
    intro b hb
    rw [hB1] at hb
    rcases List.mem_map.1 hb with ⟨c, hc, rfl⟩
    exact reverse_byte_lt (hbytes c (List.mem_reverse.1 hc))
  have hto1 : natToBytesBE 16 (bytesBEToNat B1) = B1 := by
    rw [← hB1len]
    exact natToBytesBE_bytesBEToNat B1 hB1bytes
  rw [hto1, hB1]
  have hsimp : (List.map reverse_byte B.reverse).reverse = List.map reverse_byte B := by
    rw [← List.map_reverse, List.reverse_reverse]
  rw [hsimp, List.map_map]
  have hid : List.map (reverse_byte ∘ reverse_byte) B = B := by
    have hcong : ∀ b ∈ B, (reverse_byte ∘ reverse_byte) b = b := fun b hb =>
      reverse_byte_involutive (hbytes b hb)
    calc List.map (reverse_byte ∘ reverse_byte) B = List.map id B := List.map_congr_left hcong
    _ = B := List.map_id B
  rw [hid, ← hlen]
  exact natToBytesBE_bytesBEToNat B hbytes

/-! ## `inc32` (claim C9) -/

/-- C9: `inc32` keeps the 12-byte nonce prefix and writes, big-endian, the old
32-bit counter plus one modulo `2^32` into the last 4 bytes. -/
theorem claim_C9 {B : List Nat} (hlen : B.length = 16) :
    (inc32 B).take 12 = B.take 12 ∧
      (inc32 B).drop 12 = natToBytesBE 4 ((bytesBEToNat (B.drop 12) + 1) % 2 ^ 32) := by
  have hmask : (bytesBEToNat (B.drop 12) + 1) &&& 0xFFFFFFFF
      = (bytesBEToNat (B.drop 12) + 1) % 2 ^ 32 := by
    have h : (0xFFFFFFFF : Nat) = 2 ^ 32 - 1 := by norm_num
    rw [h, Nat.and_pow_two_sub_one_eq_mod]
  have htlen : (B.take 12).length = 12 := by
    rw [List.length_take]
    omega
  constructor
  · show (B.take 12 ++ natToBytesBE 4 ((bytesBEToNat (B.drop 12) + 1) &&& 0xFFFFFFFF)).take 12
        = B.take 12
    rw [List.take_append_of_le_length (by omega), List.take_take]
    norm_num
  · show (B.take 12 ++ natToBytesBE 4 ((bytesBEToNat (B.drop 12) + 1) &&& 0xFFFFFFFF)).drop 12
        = natToBytesBE 4 ((bytesBEToNat (B.drop 12) + 1) % 2 ^ 32)
    rw [List.drop_append_of_le_length (by omega), hmask]
    rw [List.drop_of_length_le (by omega), List.nil_append]

theorem claim_C9_witness :
    ([0, 1, 2, 3, 4, 5, 6, 7, 8, 9, 10, 11, 255, 255, 255, 255] : List Nat).length = 16 ∧
      (inc32 [0, 1, 2, 3, 4, 5, 6, 7, 8, 9, 10, 11, 255, 255, 255, 255]).take 12
          = ([0, 1, 2, 3, 4, 5, 6, 7, 8, 9, 10, 11, 255, 255, 255, 255] : List Nat).take 12 ∧
      (inc32 [0, 1, 2, 3, 4, 5, 6, 7, 8, 9, 10, 11, 255, 255, 255, 255]).drop 12
          = natToBytesBE 4 ((bytesBEToNat
              (([0, 1, 2, 3, 4, 5, 6, 7, 8, 9, 10, 11, 255, 255, 255, 255] : List Nat).drop 12)
                + 1) % 2 ^ 32) :=
  ⟨by decide, claim_C9 (by decide)⟩

/-! ## `gfpoly_sort` ignores the poly tag (claim C10) -/

/-- C10: the output of the `gfpoly_sort` action does not depend on the `poly`
argument: the source constructs every polynomial under a placeholder tag and the
ordering compares only degrees and raw coefficient values. -/
theorem claim_C10 (polys : List (List Nat)) (t1 t2 : PolyTag) :
    gfpoly_sort polys t1 = gfpoly_sort polys t2 := rfl

theorem claim_C4_witness :
    ([1, 18, 0, 0, 0, 0, 0, 0, 0, 0, 0, 0, 0, 0, 0, 128] : List Nat).length = 16 ∧
      (∀ b ∈ ([1, 18, 0, 0, 0, 0, 0, 0, 0, 0, 0, 0, 0, 0, 0, 128] : List Nat), b < 256) ∧
      int_to_bytes_gcm
          (bytes_to_int_gcm [1, 18, 0, 0, 0, 0, 0, 0, 0, 0, 0, 0, 0, 0, 0, 128])
        = [1, 18, 0, 0, 0, 0, 0, 0, 0, 0, 0, 0, 0, 0, 0, 128] :=
  ⟨by decide, by decide, claim_C4 (by decide) (by decide)⟩

/-! ## The calc action (claim C7) -/

theorem answerValue_encode (z : Int) : answerValue (encodeAnswer z) = z := by
  unfold encodeAnswer
  by_cases h : -(2 ^ 31) ≤ z ∧ z < 2 ^ 31
  · rw [if_pos h]
    rfl
  · rw [if_neg h]
    rfl

theorem sign_ofNat (k : Nat) : decide ((Int.ofNat k) < 0) = false :=
  decide_eq_false (by rw [Int.ofNat_eq_natCast]; omega)

theorem sign_negSucc (k : Nat) : decide ((Int.negSucc k) < 0) = true :=
  decide_eq_true (Int.negSucc_lt_zero k)

theorem mod_pred_of_dvd {m n : Nat} (hdvd : (n + 1) ∣ (m + 1)) : m % (n + 1) = n := by
  obtain ⟨q, hq⟩ := hdvd
  have hq1 : 1 ≤ q := by
    by_contra hq0
    push_neg at hq0
    interval_cases q
    omega
  have hexp : (n + 1) * q = (n + 1) * (q - 1) + (n + 1) := by
    have hq2 : q = (q - 1) + 1 := by omega
    conv_lhs => rw [hq2]
    ring
  have hcomm : (n + 1) * (q - 1) = (q - 1) * (n + 1) := mul_comm _ _
  have hm : m = n + (q - 1) * (n + 1) := by omega
  rw [hm, Nat.add_mul_mod_self_right, Nat.mod_eq_of_lt (by omega)]

theorem dvd_of_mod_pred {m n : Nat} (h : m % (n + 1) = n) : (n + 1) ∣ (m + 1) := by
  have h2 : m % (n + 1) + (n + 1) * (m / (n + 1)) = m := Nat.mod_add_div m (n + 1)
  refine ⟨m / (n + 1) + 1, ?_⟩
  have hexp : (n + 1) * (m / (n + 1) + 1) = (n + 1) * (m / (n + 1)) + (n + 1) := by
    ring
  omega

theorem divide_trunc_eq_tdiv (a b : Int) (hb : b ≠ 0) :
    divide_trunc_toward_zero a b = a.tdiv b := by
  unfold divide_trunc_toward_zero
  cases a with
  | ofNat m =>
    cases b with
    | ofNat n =>
      rw [sign_ofNat, sign_ofNat]
      simp only [Bool.false_bne, Bool.false_and, Bool.false_eq_true, if_false]
      exact Int.fdiv_eq_tdiv (by rw [Int.ofNat_eq_natCast]; omega)
        (by rw [Int.ofNat_eq_natCast]; omega)
    | negSucc n =>
      cases m with
      | zero =>
        rw [sign_ofNat, sign_negSucc]
        show (if ((false != true) && ((0 : Int).fmod (Int.negSucc n) != 0)) = true
          then (0 : Int).fdiv (Int.negSucc n) + 1 else (0 : Int).fdiv (Int.negSucc n))
          = (0 : Int).tdiv (Int.negSucc n)
        rw [Int.zero_fmod, Int.zero_fdiv, Int.zero_tdiv]
        simp
      | succ m =>
        rw [sign_ofNat, sign_negSucc]
        simp only [Bool.false_bne, Bool.true_and]
        have hfd : (Int.ofNat (m + 1)).fdiv (Int.negSucc n) = Int.negSucc (m / (n + 1)) := rfl
        have hfm : (Int.ofNat (m + 1)).fmod (Int.negSucc n)
            = Int.subNatNat (m % (n + 1)) n := rfl
        have htd : (Int.ofNat (m + 1)).tdiv (Int.negSucc n)
            = -Int.ofNat ((m + 1) / (n + 1)) := rfl
        rw [hfd, hfm, htd]
        by_cases hdvd : (n + 1) ∣ (m + 1)
        · have hmod : m % (n + 1) = n := mod_pred_of_dvd hdvd
          have hrem : (Int.subNatNat (m % (n + 1)) n != 0) = false := by
            rw [hmod]
            simp [Int.subNatNat_eq_coe]
          rw [hrem]
          simp only [Bool.and_false, Bool.false_eq_true, if_false]
          have hdiv : (m + 1) / (n + 1) = m / (n + 1) + 1 := by
            rw [Nat.succ_div, if_pos hdvd]
          rw [hdiv]
          rfl
        · have hmod : m % (n + 1) ≠ n := fun h => hdvd (dvd_of_mod_pred h)
          have hrem : (Int.subNatNat (m % (n + 1)) n != 0) = true := by
            rw [Int.subNatNat_eq_coe]
            have hlt : m % (n + 1) < n + 1 := Nat.mod_lt _ (by omega)
            simp only [bne_iff_ne, ne_eq]
            intro h
            refine hmod ?_
            omega
          rw [hrem]
          simp only [Bool.and_true, if_true]
          have hdiv : (m + 1) / (n + 1) = m / (n + 1) := by
            rw [Nat.succ_div, if_neg hdvd]
            omega
          rw [hdiv]
          show Int.negSucc (m / (n + 1)) + 1 = -Int.ofNat (m / (n + 1))
          rw [Int.negSucc_eq, Int.ofNat_eq_natCast]
          ring
  | negSucc n =>
    cases b with
    | ofNat n2 =>
      rcases Nat.eq_zero_or_pos n2 with rfl | hpos
      · exact absurd rfl hb
      · obtain ⟨k, rfl⟩ := Nat.exists_eq_succ_of_ne_zero (by omega : n2 ≠ 0)
        rw [sign_negSucc, sign_ofNat]
        simp only [Bool.true_bne, Bool.not_false, Bool.true_and]
        have hfd : (Int.negSucc n).fdiv (Int.ofNat (k + 1)) = Int.negSucc (n / (k + 1)) := rfl
        have hfm : (Int.negSucc n).fmod (Int.ofNat (k + 1))
            = Int.subNatNat (k + 1) ((n % (k + 1)) + 1) := rfl
        have htd : (Int.negSucc n).tdiv (Int.ofNat (k + 1))
            = -Int.ofNat ((n + 1) / (k + 1)) := rfl
        rw [hfd, hfm, htd]
        by_cases hdvd : (k + 1) ∣ (n + 1)
        · have hmod : n % (k + 1) = k := mod_pred_of_dvd hdvd
          have hrem : (Int.subNatNat (k + 1) ((n % (k + 1)) + 1) != 0) = false := by
            rw [hmod]
            simp [Int.subNatNat_eq_coe]
          rw [hrem]
          simp only [Bool.and_false, Bool.false_eq_true, if_false]
          have hdiv : (n + 1) / (k + 1) = n / (k + 1) + 1 := by
            rw [Nat.succ_div, if_pos hdvd]
          rw [hdiv]
          rfl
        · have hmod : n % (k + 1) ≠ k := fun h => hdvd (dvd_of_mod_pred h)
          have hrem : (Int.subNatNat (k + 1) ((n % (k + 1)) + 1) != 0) = true := by
            rw [Int.subNatNat_eq_coe]
            have hlt : n % (k + 1) < k + 1 := Nat.mod_lt _ (by omega)
            simp only [bne_iff_ne, ne_eq]
            intro h
            refine hmod ?_
            omega
          rw [hrem]
          simp only [Bool.and_true, if_true]
          have hdiv : (n + 1) / (k + 1) = n / (k + 1) := by
            rw [Nat.succ_div, if_neg hdvd]
            omega
          rw [hdiv]
          show Int.negSucc (n / (k + 1)) + 1 = -Int.ofNat (n / (k + 1))
          rw [Int.negSucc_eq, Int.ofNat_eq_natCast]
          ring
    | negSucc n2 =>
      rw [sign_negSucc, sign_negSucc]
      have hbne : ((true : Bool) != true) = false := rfl
      rw [hbne]
      simp only [Bool.false_and, Bool.false_eq_true, if_false]
      rfl

/-- C7: for every pair of integers with `rhs ≠ 0`, the calc action with op `/`
answers the quotient truncated toward zero. -/
theorem claim_C7 (lhs rhs : Int) (h : rhs ≠ 0) :
    ∃ v, calcAction lhs rhs CalcOp.div = CalcReply.answer v ∧
      answerValue v = lhs.tdiv rhs := by
  refine ⟨encodeAnswer (divide_trunc_toward_zero lhs rhs), ?_, ?_⟩
  · unfold calcAction
    rw [if_neg h]
  · rw [answerValue_encode]
    exact divide_trunc_eq_tdiv lhs rhs h

theorem claim_C7_witness :
    (2 : Int) ≠ 0 ∧
      ∃ v, calcAction (-7) 2 CalcOp.div = CalcReply.answer v ∧
        answerValue v = (-3 : Int) :=
  ⟨by decide, by
    have h := claim_C7 (-7) 2 (by decide)
    have ht : (-7 : Int).tdiv 2 = -3 := by decide
    rwa [ht] at h⟩

/-! ## Batch GCD (claim C6) -/

theorem mem_insertPair {x y : Int × Int} {l : List (Int × Int)} :
    x ∈ insertPair y l → x = y ∨ x ∈ l := by
  induction l with
  | nil =>
    intro h
    rcases List.mem_singleton.1 h with rfl
    exact Or.inl rfl
  | cons z zs ih =>
    intro h
    unfold insertPair at h
    by_cases hc : pairLeB y z = true
    · rw [if_pos hc] at h
      rcases List.mem_cons.1 h with rfl | h2
      · exact Or.inl rfl
      · exact Or.inr h2
    · rw [if_neg hc] at h
      rcases List.mem_cons.1 h with rfl | h2
      · exact Or.inr (List.mem_cons_self _ _)
      · rcases ih h2 with h3 | h3
        · exact Or.inl h3
        · exact Or.inr (List.mem_cons_of_mem _ h3)

theorem mem_sortPairs {x : Int × Int} : ∀ {l : List (Int × Int)},
    x ∈ sortPairs l → x ∈ l := by
  intro l
  induction l with
  | nil => intro h; exact absurd h (List.not_mem_nil x)
  | cons y ys ih =>
    intro h
    rcases mem_insertPair h with rfl | h2
    · exact List.mem_cons_self _ _
    · exact List.mem_cons_of_mem _ (ih h2)

theorem mem_dedupPairs {x : Int × Int} : ∀ {l : List (Int × Int)},
    x ∈ dedupPairs l → x ∈ l := by
  intro l
  induction l with
  | nil => intro h; exact h
  | cons y ys ih =>
    intro h
    unfold dedupPairs at h
    by_cases hc : y ∈ ys
    · rw [if_pos hc] at h
      exact List.mem_cons_of_mem _ (ih h)
    · rw [if_neg hc] at h
      rcases List.mem_cons.1 h with rfl | h2
      · exact List.mem_cons_self _ _
      · exact List.mem_cons_of_mem _ (ih h2)

theorem orderPair_spec {g n : Int} (hdvd : g ∣ n) (h1 : 1 < g) (h2 : g < n) :
    1 < (orderPair g n).1 ∧ (orderPair g n).1 ≤ (orderPair g n).2 ∧
      (orderPair g n).1 * (orderPair g n).2 = n := by
  have hfd : n.fdiv g = n / g := Int.fdiv_eq_ediv_of_dvd hdvd
  have hmul : g * (n / g) = n := Int.mul_ediv_cancel' hdvd
  have hgpos : 0 < g := by omega
  have hq1 : 1 < n / g := by
    by_contra hq
    push_neg at hq
    rcases Int.lt_or_le (n / g) 1 with hq2 | hq2
    · have : n / g ≤ 0 := by omega
      have hn : n ≤ 0 := by
        have := mul_nonpos_of_nonneg_of_nonpos (by omega : (0:Int) ≤ g) this
        omega
      omega
    · have hq3 : n / g = 1 := by omega
      rw [hq3, mul_one] at hmul
      omega
  unfold orderPair
  rw [hfd]
  by_cases hc : g > n / g
  · rw [if_pos hc]
    refine ⟨by omega, by omega, ?_⟩
    show n / g * g = n
    rw [mul_comm]
    exact hmul
  · rw [if_neg hc]
    push_neg at hc
    exact ⟨by omega, by omega, hmul⟩

theorem batchPassAux_spec {pr : Int × Int} :
    ∀ i ns zs, pr ∈ (batchPassAux i ns zs).1 →
      ∃ n ∈ ns, ∃ g : Int, g ∣ n ∧ 1 < g ∧ g < n ∧ pr = orderPair g n := by
  intro i ns
  induction ns generalizing i with
  | nil =>
    intro zs h
    exact absurd h (List.not_mem_nil pr)
  | cons n ns2 ih =>
    intro zs h
    cases zs with
    | nil => exact absurd h (List.not_mem_nil pr)
    | cons z zs2 =>
      unfold batchPassAux at h
      by_cases hc : 1 < ((Int.gcd (Int.fdiv z n) n : Nat) : Int)
          ∧ ((Int.gcd (Int.fdiv z n) n : Nat) : Int) < n
      · rw [if_pos hc] at h
        rcases List.mem_cons.1 h with rfl | h2
        · refine ⟨n, List.mem_cons_self _ _,
            ((Int.gcd (Int.fdiv z n) n : Nat) : Int), ?_, hc.1, hc.2, rfl⟩
          exact Int.gcd_dvd_right
        · obtain ⟨n2, hn2, hrest⟩ := ih (i + 1) zs2 h2
          exact ⟨n2, List.mem_cons_of_mem _ hn2, hrest⟩
      · rw [if_neg hc] at h
        by_cases hc2 : ((Int.gcd (Int.fdiv z n) n : Nat) : Int) = n
        · rw [if_pos hc2] at h
          obtain ⟨n2, hn2, hrest⟩ := ih (i + 1) zs2 h
          exact ⟨n2, List.mem_cons_of_mem _ hn2, hrest⟩
        · rw [if_neg hc2] at h
          obtain ⟨n2, hn2, hrest⟩ := ih (i + 1) zs2 h
          exact ⟨n2, List.mem_cons_of_mem _ hn2, hrest⟩

theorem findPairAux_spec {nI : Int} {pr : Int × Int} {i : Nat} :
    ∀ j mods, findPairAux nI i j mods = some pr →
      ∃ g : Int, g ∣ nI ∧ 1 < g ∧ g < nI ∧ pr = orderPair g nI := by
  intro j mods
  induction mods generalizing j with
  | nil =>
    intro h
    exact absurd h (by simp [findPairAux])
  | cons nJ rest ih =>
    intro h
    unfold findPairAux at h
    by_cases hji : j = i
    · rw [if_pos hji] at h
      exact ih (j + 1) h
    · rw [if_neg hji] at h
      by_cases hc : 1 < ((Int.gcd nI nJ : Nat) : Int) ∧ ((Int.gcd nI nJ : Nat) : Int) < nI
      · rw [if_pos hc] at h
        refine ⟨((Int.gcd nI nJ : Nat) : Int), Int.gcd_dvd_left, hc.1, hc.2, ?_⟩
        exact (Option.some_inj.1 h).symm
      · rw [if_neg hc] at h
        exact ih (j + 1) h

theorem getD_mem_of_ne_zero {mods : List Int} {i : Nat} (h : mods.getD i 0 ≠ 0) :
    mods.getD i 0 ∈ mods := by
  by_cases hlen : i < mods.length
  · rw [List.getD_eq_getElem mods 0 hlen]
    exact List.getElem_mem hlen
  · exfalso
    refine h ?_
    push_neg at hlen
    exact List.getD_eq_default mods 0 hlen

theorem fallbackPairs_spec {mods : List Int} {pr : Int × Int} :
    ∀ idxs, pr ∈ fallbackPairs mods idxs →
      ∃ n ∈ mods, ∃ g : Int, g ∣ n ∧ 1 < g ∧ g < n ∧ pr = orderPair g n := by
  intro idxs
  induction idxs with
  | nil =>
    intro h
    exact absurd h (List.not_mem_nil pr)
  | cons i rest ih =>
    intro h
    unfold fallbackPairs at h
    simp only [List.foldr_cons] at h
    rcases hf : findPairAux (mods.getD i 0) i 0 mods with _ | pr2
    · rw [hf] at h
      exact ih h
    · rw [hf] at h
      rcases List.mem_cons.1 h with rfl | h2
      · obtain ⟨g, hg1, hg2, hg3, hg4⟩ := findPairAux_spec 0 mods hf
        have hne : mods.getD i 0 ≠ 0 := by
          intro h0
          rw [h0] at hg3
          omega
        exact ⟨mods.getD i 0, getD_mem_of_ne_zero hne, g, hg1, hg2, hg3, hg4⟩
      · exact ih h2

/-- C6: every pair `(p, q)` returned by `batch_gcd_shared_factors` satisfies
`1 < p`, `p ≤ q`, and `p * q` is one of the input moduli. -/
theorem claim_C6 {moduli : List Int} {pr : Int × Int}
    (h : pr ∈ batch_gcd_shared_factors moduli) :
    1 < pr.1 ∧ pr.1 ≤ pr.2 ∧ pr.1 * pr.2 ∈ moduli := by
  unfold batch_gcd_shared_factors at h
  by_cases hmod : moduli = []
  · rw [if_pos hmod] at h
    exact absurd h (List.not_mem_nil pr)
  · rw [if_neg hmod] at h
    have h2 := mem_dedupPairs (mem_sortPairs h)
    have h3 : (∃ n ∈ moduli, ∃ g : Int, g ∣ n ∧ 1 < g ∧ g < n ∧ pr = orderPair g n) := by
      rcases List.mem_append.1 h2 with h4 | h4
      · exact batchPassAux_spec 0 moduli _ h4
      · exact fallbackPairs_spec _ h4
    obtain ⟨n, hn, g, hg1, hg2, hg3, hg4⟩ := h3
    have hs := orderPair_spec hg1 hg2 hg3
    rw [hg4]
    exact ⟨hs.1, hs.2.1, by rw [hs.2.2]; exact hn⟩

theorem claim_C6_witness :
    ((3, 5) : Int × Int) ∈ batch_gcd_shared_factors [15, 21] ∧
      (1 : Int) < 3 ∧ (3 : Int) ≤ 5 ∧ ((3 : Int) * 5) ∈ ([15, 21] : List Int) := by
  have hmem : ((3, 5) : Int × Int) ∈ batch_gcd_shared_factors [15, 21] := by decide
  have h := claim_C6 hmem
  exact ⟨hmem, h.1, h.2.1, by
    have h3 : (3 : Int) * 5 = 15 := by decide
    rw [h3]
    exact List.mem_cons_self _ _⟩

/-! ## Normalization lemmas for `GFPoly` coefficient lists -/

theorem dropWhile_eq_cons_head (P : Nat → Bool) :
    ∀ {l : List Nat} {x xs}, l.dropWhile P = x :: xs → P x = false := by
  intro l
  induction l with
  | nil =>
    intro x xs h
    exact absurd h (by simp)
  | cons y ys ih =>
    intro x xs h
    rw [List.dropWhile_cons] at h
    by_cases hy : P y = true
    · rw [if_pos hy] at h
      exact ih h
    · rw [if_neg hy] at h
      rcases List.cons.injEq y ys x xs ▸ h with ⟨rfl, rfl⟩
      exact Bool.not_eq_true _ ▸ hy

theorem normalize_decomp (l : List Nat) :
    ∃ rest, l = normalize l ++ rest ∧ ∀ c ∈ rest, c = 0 := by
  unfold normalize
  rcases hd : l.reverse.dropWhile (fun c => c == 0) with _ | ⟨x, xs⟩
  · refine ⟨l.drop 1, ?_, ?_⟩
    · exact (List.take_append_drop 1 l).symm
    · intro c hc
      have hzero : ∀ c ∈ l.reverse, c = 0 := by
        intro c2 hc2
        have htk : l.reverse.takeWhile (fun c => c == 0) = l.reverse := by
          conv_rhs => rw [← List.takeWhile_append_dropWhile (p := fun c => c == 0)
            (l := l.reverse)]
          rw [hd, List.append_nil]
        rw [← htk] at hc2
        have := List.mem_takeWhile_imp hc2
        simpa using this
      exact hzero c (List.mem_reverse.2 (List.mem_of_mem_drop hc))
  · refine ⟨(l.reverse.takeWhile (fun c => c == 0)).reverse, ?_, ?_⟩
    · have h1 : l.reverse = l.reverse.takeWhile (fun c => c == 0) ++ (x :: xs) := by
        conv_lhs => rw [← List.takeWhile_append_dropWhile (p := fun c => c == 0)
          (l := l.reverse)]
        rw [hd]
      calc l = l.reverse.reverse := (List.reverse_reverse l).symm
      _ = (l.reverse.takeWhile (fun c => c == 0) ++ (x :: xs)).reverse := by rw [← h1]
      _ = (x :: xs).reverse ++ (l.reverse.takeWhile (fun c => c == 0)).reverse := by
          rw [List.reverse_append]
    · intro c hc
      have := List.mem_takeWhile_imp (List.mem_reverse.1 hc)
      simpa using this

theorem normalize_ne_nil {l : List Nat} (h : l ≠ []) : normalize l ≠ [] := by
  unfold normalize
  rcases hd : l.reverse.dropWhile (fun c => c == 0) with _ | ⟨x, xs⟩
  · simp only []
    intro htake
    rcases l with _ | ⟨a, as⟩
    · exact h rfl
    · simp at htake
  · simp

theorem normalized_normalize {l : List Nat} (h : l ≠ []) : normalized (normalize l) := by
  refine ⟨normalize_ne_nil h, ?_⟩
  unfold normalize
  rcases hd : l.reverse.dropWhile (fun c => c == 0) with _ | ⟨x, xs⟩
  · left
    rcases l with _ | ⟨a, as⟩
    · exact absurd rfl h
    · rfl
  · right
    have hx : (x == 0) = false := dropWhile_eq_cons_head (fun c => c == 0) hd
    have hx0 : x ≠ 0 := by simpa using hx
    have hlast : ((x :: xs).reverse).getLastD 0 = x := by
      rw [List.reverse_cons, List.getLastD_concat]
    rw [hlast]
    exact hx0

theorem getD_append_zeros {l rest : List Nat} (hz : ∀ c ∈ rest, c = 0) (k : Nat) :
    (l ++ rest).getD k 0 = l.getD k 0 := by
  by_cases hk : k < l.length
  · rw [List.getD_append _ _ _ _ hk]
  · push_neg at hk
    rw [List.getD_eq_default l 0 hk]
    by_cases hk2 : k - l.length < rest.length
    · rw [List.getD_append_right _ _ _ _ hk, List.getD_eq_getElem rest 0 hk2]
      exact hz _ (List.getElem_mem hk2)
    · push_neg at hk2
      rw [List.getD_eq_default _ 0 (by rw [List.length_append]; omega)]

theorem normalize_getD (l : List Nat) (k : Nat) :
    (normalize l).getD k 0 = l.getD k 0 := by
  obtain ⟨rest, hdec, hz⟩ := normalize_decomp l
  conv_rhs => rw [hdec]
  rw [getD_append_zeros hz]

theorem wfList_normalize {l : List Nat} (h : wfList l) : wfList (normalize l) := by
  intro c hc
  obtain ⟨rest, hdec, _⟩ := normalize_decomp l
  refine h c ?_
  rw [hdec]
  exact List.mem_append.2 (Or.inl hc)

theorem getLastD_mem {l : List Nat} (h : l ≠ []) : l.getLastD 0 ∈ l := by
  rcases l.eq_nil_or_concat with h2 | ⟨ys, y, hy⟩
  · exact absurd h2 h
  · rw [List.concat_eq_append] at hy
    rw [hy, List.getLastD_concat]
    exact List.mem_append.2 (Or.inr (by simp))

theorem getLastD_append_ne_nil {l1 l2 : List Nat} (h : l2 ≠ []) :
    (l1 ++ l2).getLastD 0 = l2.getLastD 0 := by
  rcases l2.eq_nil_or_concat with h2 | ⟨ys, y, hy⟩
  · exact absurd h2 h
  · rw [List.concat_eq_append] at hy
    rw [hy, ← List.append_assoc, List.getLastD_concat, List.getLastD_concat]

theorem normalize_of_normalized {l : List Nat} (h : normalized l) : normalize l = l := by
  obtain ⟨hne, hlast⟩ := h
  obtain ⟨rest, hdec, hz⟩ := normalize_decomp l
  rcases hrest : rest with _ | ⟨r0, rs⟩
  · rw [hrest] at hdec
    rw [List.append_nil] at hdec
    exact hdec.symm
  · exfalso
    rw [hrest] at hdec hz
    rcases hlast with hlen | hlast
    · have h1 : (normalize l).length + (r0 :: rs).length = 1 := by
        rw [← List.length_append, ← hdec, hlen]
      have h2 : (normalize l).length ≥ 1 :=
        List.length_pos.2 (normalize_ne_nil hne)
      simp at h1
      omega
    · refine hlast ?_
      rw [hdec, getLastD_append_ne_nil (by simp)]
      exact hz _ (getLastD_mem (by simp))

theorem normalized_any_false {R : List Nat} (hn : normalized R)
    (h : R.any (fun c => c != 0) = false) : R = [0] := by
  have hall : ∀ c ∈ R, c = 0 := by
    intro c hc
    have h2 := (List.any_eq_false.1 h) c hc
    simpa using h2
  obtain ⟨hne, hlast⟩ := hn
  rcases R with _ | ⟨a, as⟩
  · exact absurd rfl hne
  · have ha : a = 0 := hall a (by simp)
    rcases hlast with hlen | hlast
    · have has : as = [] := by
        simp at hlen
        exact hlen
      rw [has, ha]
    · exact absurd (hall _ (getLastD_mem (by simp))) hlast

theorem toPK_cons (p c : Nat) (cs : List Nat) :
    toPK p (c :: cs) = Polynomial.C (phi p c) + toPK p cs * Polynomial.X := rfl

theorem addRaw_nil_cons (b : Nat) (l2 : List Nat) : addRaw [] (b :: l2) = b :: addRaw [] l2 := by
  simp [addRaw]

theorem addRaw_cons_nil (a : Nat) (l1 : List Nat) : addRaw (a :: l1) [] = a :: addRaw l1 [] := by
  simp [addRaw]

theorem addRaw_cons_cons (a b : Nat) (l1 l2 : List Nat) :
    addRaw (a :: l1) (b :: l2) = (a ^^^ b) :: addRaw l1 l2 := by
  simp [addRaw]

theorem toPK_coeff (p : Nat) (l : List Nat) : ∀ k, (toPK p l).coeff k = phi p (l.getD k 0) := by
  induction l with
  | nil => intro k; simp [toPK, phi_zero]
  | cons c cs ih =>
    intro k
    cases k with
    | zero => simp [toPK]
    | succ n =>
      simp only [toPK, Polynomial.coeff_add, Polynomial.coeff_C, Polynomial.coeff_mul_X, ih,
        List.getD_cons_succ]
      simp

theorem toPK_addRaw (p : Nat) : ∀ l1 l2, toPK p (addRaw l1 l2) = toPK p l1 + toPK p l2 := by
  intro l1
  induction l1 with
  | nil =>
    intro l2
    induction l2 with
    | nil => simp [addRaw, toPK]
    | cons b l2 ih => simp only [addRaw, toPK, ih]; ring
  | cons a l1 ih =>
    intro l2
    cases l2 with
    | nil => simp only [addRaw, toPK, ih []]; ring
    | cons b l2 => simp only [addRaw, toPK, ih l2, phi_xor, map_add]; ring

theorem toPK_append (p : Nat) : ∀ l1 l2 : List Nat,
    toPK p (l1 ++ l2) = toPK p l1 + toPK p l2 * Polynomial.X ^ l1.length := by
  intro l1
  induction l1 with
  | nil => intro l2; simp [toPK]
  | cons a l1 ih =>
    intro l2
    rw [List.cons_append, toPK_cons, toPK_cons, ih l2, List.length_cons, pow_succ]
    ring

theorem toPK_zeros (p : Nat) : ∀ l : List Nat, (∀ c ∈ l, c = 0) → toPK p l = 0 := by
  intro l
  induction l with
  | nil => intro _; rfl
  | cons a l ih =>
    intro h
    have ha : a = 0 := h a (List.mem_cons_self a l)
    have hl : toPK p l = 0 := ih (fun c hc => h c (by simp [hc]))
    simp [toPK, ha, hl, phi_zero]

theorem toPK_normalize (p : Nat) (l : List Nat) : toPK p (normalize l) = toPK p l := by
  obtain ⟨rest, hdec, hz⟩ := normalize_decomp l
  conv_rhs => rw [hdec]
  rw [toPK_append, toPK_zeros p rest hz]
  ring

theorem toPK_replicate_zero_append (p : Nat) (n : Nat) (l : List Nat) :
    toPK p (List.replicate n 0 ++ l) = toPK p l * Polynomial.X ^ n := by
  rw [toPK_append, toPK_zeros p _ (fun c hc => List.eq_of_mem_replicate hc),
    List.length_replicate]
  ring

theorem toPK_set (p : Nat) : ∀ (Q : List Nat) (i v : Nat), i < Q.length →
    toPK p (Q.set i (Q.getD i 0 ^^^ v)) =
      toPK p Q + Polynomial.C (phi p v) * Polynomial.X ^ i := by
  intro Q
  induction Q with
  | nil => intro i v h; simp at h
  | cons q qs ih =>
    intro i v h
    cases i with
    | zero =>
      simp only [List.getD_cons_zero, List.set_cons_zero, toPK, phi_xor, map_add, pow_zero]
      ring
    | succ n =>
      have hn : n < qs.length := by simpa using h
      simp only [List.getD_cons_succ, List.set_cons_succ, toPK, ih n v hn, pow_succ]
      ring

theorem toPK_map_gfmul {p : Nat} (hp1 : 2 ^ 128 ≤ p) (hp2 : p < 2 ^ 129) (s : Nat)
    (B : List Nat) :
    toPK p (B.map (fun c => gfmul p c s)) = Polynomial.C (phi p s) * toPK p B := by
  induction B with
  | nil => simp [toPK]
  | cons b bs ih =>
    simp only [List.map_cons, toPK, ih, phi_gfmul hp1 hp2, map_mul]
    ring

theorem phi_foldl_xor (p : Nat) (f : Nat → Nat) :
    ∀ (l : List Nat) (init : Nat),
      phi p (List.foldl (fun acc i => acc ^^^ f i) init l) =
        phi p init + (l.map (fun i => phi p (f i))).sum := by
  intro l
  induction l with
  | nil => intro init; simp
  | cons a l ih =>
    intro init
    simp only [List.foldl_cons, List.map_cons, List.sum_cons, ih, phi_xor]
    ring

theorem sum_map_range {M : Type} [AddCommMonoid M] (f : Nat → M) :
    ∀ n, ((List.range n).map f).sum = ∑ i in Finset.range n, f i := by
  intro n
  induction n with
  | zero => simp
  | succ n ih =>
    rw [List.range_succ, List.map_append, List.sum_append, Finset.sum_range_succ, ih]
    simp

theorem phi_convAt (p : Nat) (a b : List Nat) (k : Nat) :
    phi p (convAt p a b k) =
      ∑ i in Finset.range (k + 1), phi p (gfmul p (a.getD i 0) (b.getD (k - i) 0)) := by
  unfold convAt
  rw [phi_foldl_xor, phi_zero, sum_map_range]
  simp

theorem mulRaw_getD (p : Nat) (a b : List Nat) (k : Nat) :
    (mulRaw p a b).getD k 0 =
      if k < a.length + b.length - 1 then convAt p a b k else 0 := by
  unfold mulRaw
  by_cases hk : k < a.length + b.length - 1
  · rw [if_pos hk, List.getD_eq_getElem?_getD, List.getElem?_map, List.getElem?_range hk]
    rfl
  · rw [if_neg hk, List.getD_eq_getElem?_getD]
    have hlen : ((List.range (a.length + b.length - 1)).map (convAt p a b)).length ≤ k := by
      simp only [List.length_map, List.length_range]
      omega
    rw [List.getElem?_eq_none hlen]
    rfl

theorem coeff_toPK_mul (p : Nat) (a b : List Nat) (k : Nat) :
    (toPK p a * toPK p b).coeff k =
      ∑ i in Finset.range (k + 1), phi p (a.getD i 0) * phi p (b.getD (k - i) 0) := by
  rw [Polynomial.coeff_mul, Finset.Nat.sum_antidiagonal_eq_sum_range_succ_mk]
  simp only [toPK_coeff]

theorem toPK_mulRaw {p : Nat} (hp1 : 2 ^ 128 ≤ p) (hp2 : p < 2 ^ 129) (a b : List Nat) :
    toPK p (mulRaw p a b) = toPK p a * toPK p b := by
  apply Polynomial.ext
  intro k
  rw [toPK_coeff, mulRaw_getD, coeff_toPK_mul]
  by_cases hk : k < a.length + b.length - 1
  · rw [if_pos hk, phi_convAt]
    refine Finset.sum_congr rfl (fun i _ => ?_)
    rw [phi_gfmul hp1 hp2]
  · rw [if_neg hk, phi_zero]
    symm
    refine Finset.sum_eq_zero (fun i hi => ?_)
    have hik : i < k + 1 := Finset.mem_range.1 hi
    rcases Nat.lt_or_ge i a.length with hia | hia
    · have hb : b.length ≤ k - i := by omega
      rw [List.getD_eq_default b 0 hb, phi_zero, mul_zero]
    · rw [List.getD_eq_default a 0 hia, phi_zero, zero_mul]

theorem toPK_polyAdd (p : Nat) (l1 l2 : List Nat) :
    toPK p (polyAdd l1 l2) = toPK p l1 + toPK p l2 := by
  unfold polyAdd
  rw [toPK_normalize, toPK_addRaw]

theorem toPK_polyMul {p : Nat} (hp1 : 2 ^ 128 ≤ p) (hp2 : p < 2 ^ 129) (l1 l2 : List Nat) :
    toPK p (polyMul p l1 l2) = toPK p l1 * toPK p l2 := by
  unfold polyMul
  rw [toPK_normalize, toPK_mulRaw hp1 hp2]

/-! ## Claim C1: well-formedness bookkeeping for coefficient lists -/

theorem getD_lt_of_wf {l : List Nat} (hw : wfList l) (k : Nat) : l.getD k 0 < 2 ^ 128 := by
  rcases Nat.lt_or_ge k l.length with hk | hk
  · rw [List.getD_eq_getElem l 0 hk]
    exact hw _ (List.getElem_mem hk)
  · rw [List.getD_eq_default l 0 hk]
    decide

theorem gfmul_lt {p : Nat} (hp1 : 2 ^ 128 ≤ p) (hp2 : p < 2 ^ 129) (a b : Nat) :
    gfmul p a b < 2 ^ 128 :=
  (gf_reduce_spec hp1 hp2 _).1

theorem wfList_addRaw : ∀ (l1 l2 : List Nat), wfList l1 → wfList l2 → wfList (addRaw l1 l2) := by
  intro l1
  induction l1 with
  | nil =>
    intro l2
    induction l2 with
    | nil => intro _ _ c hc; exact absurd hc (by simp [addRaw])
    | cons b l2 ih =>
      intro h1 h2 c hc
      rw [addRaw_nil_cons] at hc
      rcases List.mem_cons.1 hc with rfl | hc
      · exact h2 _ (List.mem_cons_self _ l2)
      · exact ih h1 (fun x hx => h2 x (by simp [hx])) c hc
  | cons a l1 ih =>
    intro l2 h1 h2 c hc
    cases l2 with
    | nil =>
      rw [addRaw_cons_nil] at hc
      rcases List.mem_cons.1 hc with rfl | hc
      · exact h1 _ (List.mem_cons_self _ l1)
      · exact ih [] (fun x hx => h1 x (by simp [hx])) (fun x hx => absurd hx (by simp)) c hc
    | cons b l2 =>
      rw [addRaw_cons_cons] at hc
      rcases List.mem_cons.1 hc with rfl | hc
      · exact xor_lt_two_pow (h1 a (List.mem_cons_self a l1)) (h2 b (List.mem_cons_self b l2))
      · exact ih l2 (fun x hx => h1 x (by simp [hx])) (fun x hx => h2 x (by simp [hx])) c hc

theorem convAt_lt {p : Nat} (hp1 : 2 ^ 128 ≤ p) (hp2 : p < 2 ^ 129) (a b : List Nat) (k : Nat) :
    convAt p a b k < 2 ^ 128 := by
  unfold convAt
  have hgen : ∀ (l : List Nat) (acc : Nat), acc < 2 ^ 128 →
      List.foldl (fun acc i => acc ^^^ gfmul p (a.getD i 0) (b.getD (k - i) 0)) acc l <
        2 ^ 128 := by
    intro l
    induction l with
    | nil => intro acc h; exact h
    | cons x xs ih =>
      intro acc h
      exact ih _ (xor_lt_two_pow h (gfmul_lt hp1 hp2 _ _))
  exact hgen _ 0 (by decide)

theorem wfList_mulRaw {p : Nat} (hp1 : 2 ^ 128 ≤ p) (hp2 : p < 2 ^ 129) (a b : List Nat) :
    wfList (mulRaw p a b) := by
  intro c hc
  unfold mulRaw at hc
  obtain ⟨k, -, rfl⟩ := List.mem_map.1 hc
  exact convAt_lt hp1 hp2 a b k

theorem wfList_set {l : List Nat} (hw : wfList l) {v : Nat} (hv : v < 2 ^ 128) (i : Nat) :
    wfList (l.set i v) := by
  intro c hc
  rcases List.mem_or_eq_of_mem_set hc with h | rfl
  · exact hw c h
  · exact hv

theorem wfList_scaled {p : Nat} (hp1 : 2 ^ 128 ≤ p) (hp2 : p < 2 ^ 129) (n : Nat)
    (B : List Nat) (s : Nat) :
    wfList (List.replicate n 0 ++ B.map (fun c => gfmul p c s)) := by
  intro c hc
  rcases List.mem_append.1 hc with h | h
  · rw [List.eq_of_mem_replicate h]
    decide
  · obtain ⟨x, -, rfl⟩ := List.mem_map.1 h
    exact gfmul_lt hp1 hp2 _ _

/-! ## Claim C1: list-shape lemmas for the division loop -/

theorem getLastD_eq_getD (l : List Nat) : l.getLastD 0 = l.getD (l.length - 1) 0 := by
  rw [List.getLastD_eq_getLast?, List.getLast?_eq_getElem?, List.getD_eq_getElem?_getD]

theorem getLastD_map {f : Nat → Nat} {B : List Nat} (hB : B ≠ []) :
    (B.map f).getLastD 0 = f (B.getLastD 0) := by
  rcases B.eq_nil_or_concat with h | ⟨ys, y, hy⟩
  · exact absurd h hB
  · rw [List.concat_eq_append] at hy
    subst hy
    rw [List.map_append]
    simp only [List.map_cons, List.map_nil]
    rw [List.getLastD_concat, List.getLastD_concat]

theorem addRaw_length : ∀ l1 l2 : List Nat, (addRaw l1 l2).length = max l1.length l2.length := by
  intro l1
  induction l1 with
  | nil =>
    intro l2
    induction l2 with
    | nil => simp [addRaw]
    | cons b l2 ih =>
      rw [addRaw_nil_cons]
      simp only [List.length_cons, ih, List.length_nil]
      omega
  | cons a l1 ih =>
    intro l2
    cases l2 with
    | nil =>
      rw [addRaw_cons_nil]
      simp only [List.length_cons, ih [], List.length_nil]
      omega
    | cons b l2 =>
      rw [addRaw_cons_cons]
      simp only [List.length_cons, ih l2]
      omega

theorem addRaw_getD : ∀ (l1 l2 : List Nat) (k : Nat),
    (addRaw l1 l2).getD k 0 = l1.getD k 0 ^^^ l2.getD k 0 := by
  intro l1
  induction l1 with
  | nil =>
    intro l2
    induction l2 with
    | nil => intro k; simp [addRaw]
    | cons b l2 ih =>
      intro k
      rw [addRaw_nil_cons]
      cases k with
      | zero => simp
      | succ n =>
        simp only [List.getD_cons_succ, ih]
        simp
  | cons a l1 ih =>
    intro l2 k
    cases l2 with
    | nil =>
      rw [addRaw_cons_nil]
      cases k with
      | zero => simp
      | succ n => simp only [List.getD_cons_succ, ih []]; simp
    | cons b l2 =>
      rw [addRaw_cons_cons]
      cases k with
      | zero => simp
      | succ n => simp only [List.getD_cons_succ, ih l2]

theorem addRaw_getLastD (l1 l2 : List Nat) (h : l2.length = l1.length) :
    (addRaw l1 l2).getLastD 0 = l1.getLastD 0 ^^^ l2.getLastD 0 := by
  rw [getLastD_eq_getD, getLastD_eq_getD, getLastD_eq_getD, addRaw_getD, addRaw_length, h,
    Nat.max_self]

theorem normalize_length_le (l : List Nat) : (normalize l).length ≤ l.length := by
  obtain ⟨rest, hdec, _⟩ := normalize_decomp l
  have hlen := congrArg List.length hdec
  rw [List.length_append] at hlen
  omega

theorem normalize_length_lt {l : List Nat} (h2 : 2 ≤ l.length) (hl : l.getLastD 0 = 0) :
    (normalize l).length < l.length := by
  obtain ⟨rest, hdec, hz⟩ := normalize_decomp l
  have hlen := congrArg List.length hdec
  rw [List.length_append] at hlen
  rcases Nat.lt_or_ge (normalize l).length l.length with h | h
  · exact h
  · exfalso
    have hrest : rest = [] := by
      have : rest.length = 0 := by omega
      exact List.length_eq_zero.1 this
    rw [hrest, List.append_nil] at hdec
    have hne : l ≠ [] := by
      intro h0
      rw [h0] at h2
      simp at h2
    have hn := normalized_normalize hne
    rw [← hdec] at hn
    rcases hn.2 with h1 | h1
    · omega
    · exact h1 hl

theorem toPK_inj {p : Nat} (hp1 : 2 ^ 128 ≤ p) (hp2 : p < 2 ^ 129)
    {l1 l2 : List Nat} (h1 : normalized l1) (h2 : normalized l2)
    (hw1 : wfList l1) (hw2 : wfList l2) (h : toPK p l1 = toPK p l2) : l1 = l2 := by
  have hgetD : ∀ k, l1.getD k 0 = l2.getD k 0 := by
    intro k
    have hc : (toPK p l1).coeff k = (toPK p l2).coeff k := by rw [h]
    rw [toPK_coeff, toPK_coeff] at hc
    exact phi_inj hp1 hp2 (getD_lt_of_wf hw1 k) (getD_lt_of_wf hw2 k) hc
  have hlen : l1.length = l2.length := by
    by_contra hne
    rcases Nat.lt_or_ge l1.length l2.length with hlt | hge
    · rcases h2.2 with hl2 | hl2
      · have h0 : l1.length = 0 := by omega
        exact h1.1 (List.length_eq_zero.1 h0)
      · have hk := hgetD (l2.length - 1)
        rw [List.getD_eq_default l1 0 (by omega)] at hk
        rw [← getLastD_eq_getD l2] at hk
        exact hl2 hk.symm
    · have hlt2 : l2.length < l1.length := by omega
      rcases h1.2 with hl1 | hl1
      · have h0 : l2.length = 0 := by omega
        exact h2.1 (List.length_eq_zero.1 h0)
      · have hk := hgetD (l1.length - 1)
        rw [List.getD_eq_default l2 0 (by omega)] at hk
        rw [← getLastD_eq_getD l1] at hk
        exact hl1 hk
  refine List.ext_get hlen (fun n hn1 hn2 => ?_)
  have hk := hgetD n
  rw [List.getD_eq_getElem l1 0 hn1, List.getD_eq_getElem l2 0 hn2] at hk
  exact hk

/-! ## Claim C1: the long-division loop -/

theorem divmodLoopF_zeroR (p : Nat) (B : List Nat) (invLead : Nat) :
    ∀ (fuel : Nat) (Q : List Nat), divmodLoopF p B invLead fuel Q [0] = (Q, [0]) := by
  intro fuel Q
  cases fuel with
  | zero => rfl
  | succ fuel =>
    simp only [divmodLoopF]
    rw [if_neg (fun hc => absurd hc.2 (by decide))]

theorem divmodLoopF_succ_true {p invLead fuel : Nat} {B Q R : List Nat}
    (hg : B.length - 1 ≤ R.length - 1 ∧ R.any (fun c => c != 0) = true) :
    divmodLoopF p B invLead (fuel + 1) Q R =
      divmodLoopF p B invLead fuel
        (Q.set ((R.length - 1) - (B.length - 1))
          (Q.getD ((R.length - 1) - (B.length - 1)) 0 ^^^ gfmul p (R.getLastD 0) invLead))
        (normalize (addRaw R (List.replicate ((R.length - 1) - (B.length - 1)) 0 ++
          B.map (fun c => gfmul p c (gfmul p (R.getLastD 0) invLead))))) := by
  simp only [divmodLoopF]
  rw [if_pos hg]

theorem divmodLoopF_succ_false {p invLead fuel : Nat} {B Q R : List Nat}
    (hg : ¬(B.length - 1 ≤ R.length - 1 ∧ R.any (fun c => c != 0) = true)) :
    divmodLoopF p B invLead (fuel + 1) Q R = (Q, R) := by
  simp only [divmodLoopF]
  rw [if_neg hg]

theorem divmodLoopF_spec {p : Nat} (hp : p = P1 ∨ p = P2) {B : List Nat}
    (hB : normalized B) (hwB : wfList B) (hBnz : B.getLastD 0 ≠ 0)
    {invLead : Nat} (hinv : gfmul p (B.getLastD 0) invLead = 1) :
    ∀ (fuel : Nat) (Q R : List Nat), normalized R → wfList R → wfList Q →
      R.length ≤ fuel → (R.length - 1) - (B.length - 1) < Q.length →
      toPK p (divmodLoopF p B invLead fuel Q R).1 * toPK p B +
          toPK p (divmodLoopF p B invLead fuel Q R).2 =
        toPK p Q * toPK p B + toPK p R ∧
      normalized (divmodLoopF p B invLead fuel Q R).2 ∧
      wfList (divmodLoopF p B invLead fuel Q R).2 ∧
      wfList (divmodLoopF p B invLead fuel Q R).1 ∧
      (divmodLoopF p B invLead fuel Q R).1.length = Q.length ∧
      ((divmodLoopF p B invLead fuel Q R).2 = [0] ∨
        (divmodLoopF p B invLead fuel Q R).2.length - 1 < B.length - 1) := by
  obtain ⟨hp1, hp2⟩ := poly_bounds hp
  haveI hFact : Fact (Irreducible (toP p)) := ⟨irreducible_toP hp⟩
  haveI hchar2 : CharP (AdjoinRoot (toP p)) 2 :=
    charP_of_injective_algebraMap (algebraMap (ZMod 2) (AdjoinRoot (toP p))).injective 2
  have hchar : ∀ x : Polynomial (AdjoinRoot (toP p)), x + x = 0 := fun x =>
    CharTwo.add_self_eq_zero x
  have hBne : B ≠ [] := hB.1
  have hBpos : 1 ≤ B.length := List.length_pos.2 hBne
  intro fuel
  induction fuel with
  | zero =>
    intro Q R hR hwR hwQ hlen hidx
    have hRpos : 1 ≤ R.length := List.length_pos.2 hR.1
    omega
  | succ fuel ih =>
    intro Q R hR hwR hwQ hlen hidx
    have hRne : R ≠ [] := hR.1
    have hRpos : 1 ≤ R.length := List.length_pos.2 hRne
    by_cases hg : (B.length - 1 ≤ R.length - 1 ∧ R.any (fun c => c != 0) = true)
    · obtain ⟨hg1, hg2⟩ := hg
      rw [divmodLoopF_succ_true ⟨hg1, hg2⟩]
      set rL := R.getLastD 0 with hrL
      set shift := (R.length - 1) - (B.length - 1) with hshift
      set scale := gfmul p rL invLead with hscale
      set SS := List.replicate shift 0 ++ B.map (fun c => gfmul p c scale) with hSS
      set R' := normalize (addRaw R SS) with hR'
      set Qn := Q.set shift (Q.getD shift 0 ^^^ scale) with hQn
      have hBR : B.length ≤ R.length := by omega
      have hSSlen : SS.length = R.length := by
        rw [hSS]
        simp only [List.length_append, List.length_replicate, List.length_map]
        omega
      have haddlen : (addRaw R SS).length = R.length := by
        rw [addRaw_length, hSSlen, Nat.max_self]
      have hscale_cancel : gfmul p (B.getLastD 0) scale = rL := by
        apply phi_inj hp1 hp2 (gfmul_lt hp1 hp2 _ _) (hwR _ (getLastD_mem hRne))
        rw [hscale, phi_gfmul hp1 hp2, phi_gfmul hp1 hp2]
        have h1 : phi p (B.getLastD 0) * phi p invLead = 1 := by
          rw [← phi_gfmul hp1 hp2, hinv, phi_one]
        calc phi p (B.getLastD 0) * (phi p rL * phi p invLead)
            = phi p (B.getLastD 0) * phi p invLead * phi p rL := by ring
          _ = phi p rL := by rw [h1, one_mul]
      have hlast0 : (addRaw R SS).getLastD 0 = 0 := by
        rw [addRaw_getLastD R SS hSSlen]
        have hmapne : B.map (fun c => gfmul p c scale) ≠ [] := by simp [hBne]
        have hSSlast : SS.getLastD 0 = gfmul p (B.getLastD 0) scale := by
          rw [hSS, getLastD_append_ne_nil hmapne, getLastD_map hBne]
        rw [hSSlast, hscale_cancel, ← hrL, Nat.xor_self]
      have hTQn : toPK p Qn = toPK p Q + Polynomial.C (phi p scale) * Polynomial.X ^ shift := by
        rw [hQn]
        exact toPK_set p Q shift scale hidx
      have hTSS : toPK p SS = Polynomial.C (phi p scale) * toPK p B * Polynomial.X ^ shift := by
        rw [hSS, toPK_replicate_zero_append, toPK_map_gfmul hp1 hp2]
      have hTR' : toPK p R' = toPK p R + toPK p SS := by
        rw [hR', toPK_normalize, toPK_addRaw]
      have hinvariant : toPK p Qn * toPK p B + toPK p R' = toPK p Q * toPK p B + toPK p R := by
        rw [hTQn, hTR', hTSS]
        have hcc := hchar (Polynomial.C (phi p scale) * toPK p B * Polynomial.X ^ shift)
        calc (toPK p Q + Polynomial.C (phi p scale) * Polynomial.X ^ shift) * toPK p B +
              (toPK p R + Polynomial.C (phi p scale) * toPK p B * Polynomial.X ^ shift)
            = toPK p Q * toPK p B + toPK p R +
              (Polynomial.C (phi p scale) * toPK p B * Polynomial.X ^ shift +
                Polynomial.C (phi p scale) * toPK p B * Polynomial.X ^ shift) := by ring
          _ = toPK p Q * toPK p B + toPK p R := by rw [hcc, add_zero]
      have hwSS : wfList SS := by
        rw [hSS]
        exact wfList_scaled hp1 hp2 _ _ _
      have hwR' : wfList R' := by
        rw [hR']
        exact wfList_normalize (wfList_addRaw _ _ hwR hwSS)
      have haddne : addRaw R SS ≠ [] := by
        intro h0
        rw [h0] at haddlen
        simp at haddlen
        omega
      have hnR' : normalized R' := by
        rw [hR']
        exact normalized_normalize haddne
      have hscale_lt : scale < 2 ^ 128 := by
        rw [hscale]
        exact gfmul_lt hp1 hp2 _ _
      have hwQn : wfList Qn := by
        rw [hQn]
        exact wfList_set hwQ (xor_lt_two_pow (getD_lt_of_wf hwQ shift) hscale_lt) shift
      have hQnlen : Qn.length = Q.length := by
        rw [hQn, List.length_set]
      by_cases hR'0 : R' = [0]
      · rw [hR'0, divmodLoopF_zeroR]
        rw [hR'0] at hinvariant
        have h0 : toPK p [0] = 0 := by simp [toPK, phi_zero]
        refine ⟨?_, ⟨by simp, Or.inl rfl⟩, fun c hc => by simp at hc; simp [hc], hwQn, hQnlen,
          Or.inl rfl⟩
        rw [h0] at hinvariant ⊢
        exact hinvariant
      · have hlt : R'.length < R.length := by
          rcases Nat.lt_or_ge 1 (addRaw R SS).length with h2a | h2a
          · rw [hR', ← haddlen]
            exact normalize_length_lt h2a hlast0
          · exfalso
            have h1 : (addRaw R SS).length = 1 := by omega
            obtain ⟨x, hx⟩ := List.length_eq_one.1 h1
            have hx0 : x = 0 := by
              have hh := hlast0
              rw [hx] at hh
              simpa using hh
            have : R' = [0] := by
              rw [hR', hx, hx0]
              rfl
            exact absurd this hR'0
        have hidx' : (R'.length - 1) - (B.length - 1) < Qn.length := by
          rw [hQn, List.length_set]
          omega
        have hlen' : R'.length ≤ fuel := by omega
        obtain ⟨ihEq, ihNorm, ihWf, ihWfQ, ihLen, ihExit⟩ := ih Qn R' hnR' hwR' hwQn hlen' hidx'
        refine ⟨?_, ihNorm, ihWf, ihWfQ, ihLen.trans hQnlen, ?_⟩
        · rw [ihEq]
          exact hinvariant
        · exact ihExit
    · rw [divmodLoopF_succ_false hg]
      refine ⟨rfl, hR, hwR, hwQ, rfl, ?_⟩
      rcases not_and_or.1 hg with hna | hnb
      · right
        show R.length - 1 < B.length - 1
        omega
      · left
        apply normalized_any_false hR
        simpa using hnb

/-- Full specification of `GFPoly.divmod`: defined output, both parts normalized and
well-formed, the Euclidean identity both in `K[x]` and at the list level, and the
remainder bound. -/
theorem gfpolyDivmod_spec {p : Nat} (hp : p = P1 ∨ p = P2) {A B : List Nat}
    (hA : normalized A) (hwA : wfList A) (hB : normalized B) (hwB : wfList B)
    (hBnz : B.getLastD 0 ≠ 0) :
    ∃ Q R, gfpolyDivmod p A B = some (Q, R) ∧
      normalized Q ∧ wfList Q ∧ normalized R ∧ wfList R ∧
      toPK p Q * toPK p B + toPK p R = toPK p A ∧
      polyAdd (polyMul p Q B) R = A ∧ (R = [0] ∨ R.length - 1 < B.length - 1) := by
  obtain ⟨hp1, hp2⟩ := poly_bounds hp
  have hBlt : B.getLastD 0 < 2 ^ 128 := hwB _ (getLastD_mem hB.1)
  obtain ⟨inv, hinv_eq, hinv_mul⟩ := gf_inv_correct hp hBlt hBnz
  have hR0n : normalized (normalize A) := normalized_normalize hA.1
  have hR0w : wfList (normalize A) := wfList_normalize hwA
  have hR0len : (normalize A).length ≤ A.length := normalize_length_le A
  have hApos : 1 ≤ A.length := List.length_pos.2 hA.1
  have hBpos : 1 ≤ B.length := List.length_pos.2 hB.1
  have hR0pos : 1 ≤ (normalize A).length := List.length_pos.2 hR0n.1
  obtain ⟨hEq, hNorm, hWf, hWfQ, hLen, hExit⟩ := divmodLoopF_spec hp hB hwB hBnz hinv_mul
    (A.length + 1) (List.replicate ((A.length - 1) - (B.length - 1) + 1) 0) (normalize A)
    hR0n hR0w (fun c hc => by rw [List.eq_of_mem_replicate hc]; decide)
    (by omega) (by rw [List.length_replicate]; omega)
  set res := divmodLoopF p B inv (A.length + 1)
    (List.replicate ((A.length - 1) - (B.length - 1) + 1) 0) (normalize A) with hres
  have hres1len : res.1.length = (A.length - 1) - (B.length - 1) + 1 := by
    rw [hLen, List.length_replicate]
  have hres1ne : res.1 ≠ [] := by
    intro h0
    rw [h0] at hres1len
    simp at hres1len
  refine ⟨normalize res.1, res.2, ?_, normalized_normalize hres1ne, wfList_normalize hWfQ,
    hNorm, hWf, ?_, ?_, hExit⟩
  · unfold gfpolyDivmod
    rw [hinv_eq, Option.map_some']
    show some (normalize res.1, normalize res.2) = some (normalize res.1, res.2)
    rw [normalize_of_normalized hNorm]
  · rw [toPK_normalize, hEq, toPK_zeros p _ (fun c hc => List.eq_of_mem_replicate hc),
      toPK_normalize]
    ring
  · have h1 : 1 ≤ res.2.length := List.length_pos.2 hNorm.1
    have h2 : 1 ≤ (addRaw (polyMul p (normalize res.1) B) res.2).length := by
      rw [addRaw_length]
      omega
    refine toPK_inj hp1 hp2 ?_ hA ?_ hwA ?_
    · exact normalized_normalize (by intro h0; rw [h0] at h2; simp at h2)
    · exact wfList_normalize (wfList_addRaw _ _
        (wfList_normalize (wfList_mulRaw hp1 hp2 _ _)) hWf)
    · rw [toPK_polyAdd, toPK_polyMul hp1 hp2, toPK_normalize, hEq,
        toPK_zeros p _ (fun c hc => List.eq_of_mem_replicate hc), toPK_normalize]
      ring

/-- C1: for every polynomial `A` over GF(2^128) and every nonzero `B` over the same
reduction polynomial, `divmod(A, B)` returns a pair `(Q, R)` with `Q*B + R = A` and
either `R` the zero polynomial or `deg R < deg B`. -/
theorem claim_C1 {p : Nat} (hp : p = P1 ∨ p = P2) {A B : List Nat}
    (hA : normalized A) (hwA : wfList A) (hB : normalized B) (hwB : wfList B)
    (hBnz : B.getLastD 0 ≠ 0) :
    ∃ Q R, gfpolyDivmod p A B = some (Q, R) ∧
      polyAdd (polyMul p Q B) R = A ∧ (R = [0] ∨ R.length - 1 < B.length - 1) := by
  obtain ⟨Q, R, h1, -, -, -, -, -, h2, h3⟩ := gfpolyDivmod_spec hp hA hwA hB hwB hBnz
  exact ⟨Q, R, h1, h2, h3⟩

theorem claim_C1_witness :
    (P1 = P1 ∨ P1 = P2) ∧ normalized [0, 0, 1] ∧ wfList [0, 0, 1] ∧ normalized [0, 1] ∧
      wfList [0, 1] ∧ ([0, 1] : List Nat).getLastD 0 ≠ 0 ∧
      ∃ Q R, gfpolyDivmod P1 [0, 0, 1] [0, 1] = some (Q, R) ∧
        polyAdd (polyMul P1 Q [0, 1]) R = [0, 0, 1] ∧
        (R = [0] ∨ R.length - 1 < ([0, 1] : List Nat).length - 1) :=
  ⟨Or.inl rfl, ⟨by decide, Or.inr (by decide)⟩, fun c hc => by fin_cases hc <;> decide,
    ⟨by decide, Or.inr (by decide)⟩, fun c hc => by fin_cases hc <;> decide, by decide,
    claim_C1 (Or.inl rfl) ⟨by decide, Or.inr (by decide)⟩
      (fun c hc => by fin_cases hc <;> decide) ⟨by decide, Or.inr (by decide)⟩
      (fun c hc => by fin_cases hc <;> decide) (by decide)⟩

/-! ## Claim C3: degrees and monicity under `toPK` -/

theorem toPK_zero_list (p : Nat) : toPK p [0] = 0 := by
  simp [toPK, phi_zero]

theorem toPK_one_list (p : Nat) : toPK p [1] = 1 := by
  simp [toPK, phi_one]

theorem toPK_eq_zero_iff {p : Nat} (hp1 : 2 ^ 128 ≤ p) (hp2 : p < 2 ^ 129) {l : List Nat}
    (hl : normalized l) (hw : wfList l) : toPK p l = 0 ↔ l = [0] := by
  constructor
  · intro h
    exact toPK_inj hp1 hp2 hl ⟨by simp, Or.inl rfl⟩ hw
      (fun c hc => by simp at hc; simp [hc]) (by rw [h, toPK_zero_list])
  · intro h
    rw [h, toPK_zero_list]

theorem getLastD_ne_zero_of_normalized {l : List Nat} (hl : normalized l) (h0 : l ≠ [0]) :
    l.getLastD 0 ≠ 0 := by
  rcases hl.2 with h1 | h1
  · obtain ⟨a, rfl⟩ := List.length_eq_one.1 h1
    have ha : [a].getLastD 0 = a := by
      rw [getLastD_eq_getD]
      rfl
    rw [ha]
    intro h2
    exact h0 (by rw [h2])
  · exact h1

theorem toPK_ne_zero_natDegree {p : Nat} (hp1 : 2 ^ 128 ≤ p) (hp2 : p < 2 ^ 129) {l : List Nat}
    (hl : normalized l) (hw : wfList l) (hnz : l.getLastD 0 ≠ 0) :
    toPK p l ≠ 0 ∧ (toPK p l).natDegree = l.length - 1 := by
  have hmem : l.getLastD 0 ∈ l := getLastD_mem hl.1
  have hlast : phi p (l.getLastD 0) ≠ 0 := by
    intro h0
    exact hnz (phi_inj hp1 hp2 (hw _ hmem) (by decide) (by rw [h0, phi_zero]))
  have hcoeff : (toPK p l).coeff (l.length - 1) ≠ 0 := by
    rw [toPK_coeff, ← getLastD_eq_getD]
    exact hlast
  have hne : toPK p l ≠ 0 := by
    intro h0
    rw [h0] at hcoeff
    simp at hcoeff
  refine ⟨hne, le_antisymm ?_ (Polynomial.le_natDegree_of_ne_zero hcoeff)⟩
  refine Polynomial.natDegree_le_iff_coeff_eq_zero.2 (fun m hm => ?_)
  have hpos : 1 ≤ l.length := List.length_pos.2 hl.1
  rw [toPK_coeff, List.getD_eq_default l 0 (by omega), phi_zero]

theorem toPK_monic {p : Nat} (hp1 : 2 ^ 128 ≤ p) (hp2 : p < 2 ^ 129) {l : List Nat}
    (hl : normalized l) (hw : wfList l) (h1 : l.getLastD 0 = 1) : (toPK p l).Monic := by
  have h := toPK_ne_zero_natDegree hp1 hp2 hl hw (by rw [h1]; exact one_ne_zero)
  show (toPK p l).leadingCoeff = 1
  rw [Polynomial.leadingCoeff, h.2, toPK_coeff, ← getLastD_eq_getD, h1, phi_one]

theorem getLastD_eq_one_of_monic {p : Nat} (hp : p = P1 ∨ p = P2)
    {l : List Nat} (hl : normalized l) (hw : wfList l) (hm : (toPK p l).Monic) :
    l.getLastD 0 = 1 := by
  obtain ⟨hp1, hp2⟩ := poly_bounds hp
  haveI : Fact (Irreducible (toP p)) := ⟨irreducible_toP hp⟩
  have hne : toPK p l ≠ 0 := hm.ne_zero
  have hl0 : l ≠ [0] := by
    intro h
    exact hne ((toPK_eq_zero_iff hp1 hp2 hl hw).2 h)
  have hnz := getLastD_ne_zero_of_normalized hl hl0
  have hdeg := toPK_ne_zero_natDegree hp1 hp2 hl hw hnz
  have hlead : phi p (l.getLastD 0) = 1 := by
    have h2 : (toPK p l).leadingCoeff = 1 := hm
    rw [Polynomial.leadingCoeff, hdeg.2, toPK_coeff, ← getLastD_eq_getD] at h2
    exact h2
  exact phi_inj hp1 hp2 (hw _ (getLastD_mem hl.1)) (by decide) (by rw [hlead, phi_one])

theorem gfpolyDivmod_exact {p : Nat} (hp : p = P1 ∨ p = P2) {A B : List Nat}
    (hA : normalized A) (hwA : wfList A) (hB : normalized B) (hwB : wfList B)
    (hBnz : B.getLastD 0 ≠ 0) (hdvd : toPK p B ∣ toPK p A) :
    ∃ Q, gfpolyDivmod p A B = some (Q, [0]) ∧ normalized Q ∧ wfList Q ∧
      toPK p Q * toPK p B = toPK p A := by
  obtain ⟨hp1, hp2⟩ := poly_bounds hp
  haveI : Fact (Irreducible (toP p)) := ⟨irreducible_toP hp⟩
  obtain ⟨Q, R, hsome, hQn, hQw, hRn, hRw, hEq, -, hExit⟩ :=
    gfpolyDivmod_spec hp hA hwA hB hwB hBnz
  have hR0 : R = [0] := by
    rcases hExit with h | h
    · exact h
    · by_contra hR0
      have hRnz : R.getLastD 0 ≠ 0 := getLastD_ne_zero_of_normalized hRn hR0
      obtain ⟨hRne, hRdeg⟩ := toPK_ne_zero_natDegree hp1 hp2 hRn hRw hRnz
      obtain ⟨hBne2, hBdeg⟩ := toPK_ne_zero_natDegree hp1 hp2 hB hwB hBnz
      have hBdvdR : toPK p B ∣ toPK p R := by
        have hR : toPK p R = toPK p A - toPK p Q * toPK p B := by
          rw [← hEq]
          ring
        rw [hR]
        exact dvd_sub hdvd (dvd_mul_left _ _)
      have hdeg : (toPK p R).degree < (toPK p B).degree := by
        rw [Polynomial.degree_eq_natDegree hRne, Polynomial.degree_eq_natDegree hBne2,
          hRdeg, hBdeg]
        exact_mod_cast h
      exact hRne (Polynomial.eq_zero_of_dvd_of_degree_lt hBdvdR hdeg)
  subst hR0
  rw [toPK_zero_list, add_zero] at hEq
  exact ⟨Q, hsome, hQn, hQw, hEq⟩

theorem polyMonic_spec {p : Nat} (hp : p = P1 ∨ p = P2) {l : List Nat}
    (hl : normalized l) (hw : wfList l) (hnz : l.getLastD 0 ≠ 0) :
    ∃ M, polyMonic p l = some M ∧ normalized M ∧ wfList M ∧ M.getLastD 0 = 1 ∧
      M.length = l.length ∧
      ∃ u : AdjoinRoot (toP p), u ≠ 0 ∧ toPK p M = Polynomial.C u * toPK p l := by
  obtain ⟨hp1, hp2⟩ := poly_bounds hp
  haveI : Fact (Irreducible (toP p)) := ⟨irreducible_toP hp⟩
  unfold polyMonic
  have hz : ¬(l.length = 1 ∧ l.getD 0 0 = 0) := by
    rintro ⟨h1, h2⟩
    obtain ⟨a, rfl⟩ := List.length_eq_one.1 h1
    apply hnz
    rw [getLastD_eq_getD]
    simpa using h2
  rw [if_neg hz]
  by_cases h1 : l.getLastD 0 = 1
  · rw [if_pos h1]
    exact ⟨l, rfl, hl, hw, h1, rfl, 1, one_ne_zero, by rw [Polynomial.C_1, one_mul]⟩
  · rw [if_neg h1]
    have hlt : l.getLastD 0 < 2 ^ 128 := hw _ (getLastD_mem hl.1)
    obtain ⟨inv, hinv_eq, hinv_mul⟩ := gf_inv_correct hp hlt hnz
    rw [hinv_eq, Option.map_some']
    have hM0len : (l.map (fun c => gfmul p c inv)).length = l.length := List.length_map l _
    have hM0ne : l.map (fun c => gfmul p c inv) ≠ [] := by
      simp [hl.1]
    have hM0last : (l.map (fun c => gfmul p c inv)).getLastD 0 = 1 := by
      rw [getLastD_map hl.1]
      exact hinv_mul
    have hM0norm : normalized (l.map (fun c => gfmul p c inv)) := by
      refine ⟨hM0ne, Or.inr ?_⟩
      rw [hM0last]
      exact one_ne_zero
    rw [normalize_of_normalized hM0norm]
    have hM0wf : wfList (l.map (fun c => gfmul p c inv)) := by
      intro c hc
      obtain ⟨x, -, rfl⟩ := List.mem_map.1 hc
      exact gfmul_lt hp1 hp2 _ _
    refine ⟨_, rfl, hM0norm, hM0wf, hM0last, hM0len, phi p inv, ?_, ?_⟩
    · intro h0
      have hmul : phi p (l.getLastD 0) * phi p inv = 1 := by
        rw [← phi_gfmul hp1 hp2, hinv_mul, phi_one]
      rw [h0, mul_zero] at hmul
      exact zero_ne_one hmul
    · rw [toPK_map_gfmul hp1 hp2]

theorem natCast_char_two {R : Type} [NonAssocSemiring R] [CharP R 2] (n : Nat) :
    (n : R) = if n % 2 = 1 then 1 else 0 := by
  conv_lhs => rw [← Nat.div_add_mod n 2]
  push_cast
  have h2 : (2 : R) = 0 := by exact_mod_cast CharP.cast_eq_zero R 2
  rw [h2, zero_mul, zero_add]
  rcases Nat.mod_two_eq_zero_or_one n with h | h <;> simp [h]

theorem toPK_polyDiff {p : Nat} (hp : p = P1 ∨ p = P2) (l : List Nat) :
    toPK p (polyDiff l) = Polynomial.derivative (toPK p l) := by
  obtain ⟨hp1, hp2⟩ := poly_bounds hp
  haveI : Fact (Irreducible (toP p)) := ⟨irreducible_toP hp⟩
  haveI : CharP (AdjoinRoot (toP p)) 2 :=
    charP_of_injective_algebraMap (algebraMap (ZMod 2) (AdjoinRoot (toP p))).injective 2
  unfold polyDiff
  by_cases hlen : l.length ≤ 1
  · rw [if_pos hlen, toPK_zero_list]
    rcases l with _ | ⟨c, cs⟩
    · simp [toPK]
    · have hcs : cs = [] := by
        simpa using hlen
      subst hcs
      rw [toPK_cons]
      simp [toPK]
  · rw [if_neg hlen, toPK_normalize]
    apply Polynomial.ext
    intro k
    rw [toPK_coeff, Polynomial.coeff_derivative, toPK_coeff]
    have hmap : ((List.range (l.length - 1)).map
        (fun j => if (j + 1) % 2 = 1 then l.getD (j + 1) 0 else 0)).getD k 0 =
        if k < l.length - 1 then (if (k + 1) % 2 = 1 then l.getD (k + 1) 0 else 0) else 0 := by
      by_cases hk : k < l.length - 1
      · rw [if_pos hk, List.getD_eq_getElem?_getD, List.getElem?_map, List.getElem?_range hk]
        rfl
      · rw [if_neg hk, List.getD_eq_getElem?_getD, List.getElem?_eq_none
          (by simp only [List.length_map, List.length_range]; omega)]
        rfl
    rw [hmap]
    have hcast : ((k : AdjoinRoot (toP p)) + 1) = ((k + 1 : Nat) : AdjoinRoot (toP p)) := by
      push_cast
      ring
    rw [hcast, natCast_char_two]
    by_cases hk : k < l.length - 1
    · rw [if_pos hk]
      by_cases hodd : (k + 1) % 2 = 1
      · rw [if_pos hodd, if_pos hodd, mul_one]
      · rw [if_neg hodd, if_neg hodd, mul_zero, phi_zero]
    · rw [if_neg hk, List.getD_eq_default l 0 (by omega)]
      simp [phi_zero]

/-! ## Claim C3: polynomial square roots in characteristic two -/

theorem coeff_odd_eq_zero_of_derivative {K : Type} [Field K] [CharP K 2]
    {g : Polynomial K} (hg : Polynomial.derivative g = 0) {k : Nat} (hk : k % 2 = 1) :
    g.coeff k = 0 := by
  have hk1 : 1 ≤ k := by omega
  have h := congrArg (fun q => Polynomial.coeff q (k - 1)) hg
  simp only [Polynomial.coeff_derivative, Polynomial.coeff_zero] at h
  rw [show k - 1 + 1 = k from by omega] at h
  have hc2 : (((k - 1 : Nat) : K) + 1) = ((k : Nat) : K) := by
    have h1 : ((k - 1 : Nat) : K) + 1 = (((k - 1) + 1 : Nat) : K) := by
      push_cast
      ring
    rw [h1, show (k - 1) + 1 = k from by omega]
  rw [hc2, natCast_char_two, if_pos hk, mul_one] at h
  exact h

theorem coeff_sq {K : Type} [Field K] [CharP K 2] (h : Polynomial K) (n : Nat) :
    (h ^ 2).coeff n = if 2 ∣ n then (h.coeff (n / 2)) ^ 2 else 0 := by
  haveI : Fact (Nat.Prime 2) := ⟨Nat.prime_two⟩
  rw [← Polynomial.expand_char 2 h, Polynomial.coeff_map,
    Polynomial.coeff_expand (by norm_num)]
  by_cases hd : 2 ∣ n
  · rw [if_pos hd, if_pos hd, frobenius_def]
  · rw [if_neg hd, if_neg hd, map_zero]

theorem toPK_polySqrt {p : Nat} (hp : p = P1 ∨ p = P2) {l : List Nat} (hw : wfList l)
    (hd : Polynomial.derivative (toPK p l) = 0) :
    toPK p (polySqrt p l) ^ 2 = toPK p l := by
  obtain ⟨hp1, hp2⟩ := poly_bounds hp
  haveI : Fact (Irreducible (toP p)) := ⟨irreducible_toP hp⟩
  haveI : CharP (AdjoinRoot (toP p)) 2 :=
    charP_of_injective_algebraMap (algebraMap (ZMod 2) (AdjoinRoot (toP p))).injective 2
  unfold polySqrt
  rw [toPK_normalize]
  apply Polynomial.ext
  intro k
  rw [coeff_sq]
  by_cases h2 : 2 ∣ k
  · rw [if_pos h2, toPK_coeff]
    have hmap : ((List.range ((l.length - 1) / 2 + 1)).map
        (fun i => gfsqrt p (l.getD (2 * i) 0))).getD (k / 2) 0 =
        if k / 2 < (l.length - 1) / 2 + 1 then gfsqrt p (l.getD (2 * (k / 2)) 0) else 0 := by
      by_cases hk : k / 2 < (l.length - 1) / 2 + 1
      · rw [if_pos hk, List.getD_eq_getElem?_getD, List.getElem?_map, List.getElem?_range hk,
          Option.map_some', Option.getD_some]
      · rw [if_neg hk, List.getD_eq_getElem?_getD, List.getElem?_eq_none
          (by simp only [List.length_map, List.length_range]; omega), Option.getD_none]
    rw [hmap]
    by_cases hk : k / 2 < (l.length - 1) / 2 + 1
    · rw [if_pos hk]
      have hx : l.getD (2 * (k / 2)) 0 < 2 ^ 128 := getD_lt_of_wf hw _
      have hs := gfsqrt_correct hp hx
      have hsq : phi p (gfsqrt p (l.getD (2 * (k / 2)) 0)) ^ 2 =
          phi p (l.getD (2 * (k / 2)) 0) := by
        rw [sq, ← phi_gfmul hp1 hp2, hs.2]
      rw [hsq, Nat.mul_div_cancel' h2, toPK_coeff]
    · rw [if_neg hk]
      have hk2 : l.length ≤ k := by omega
      rw [phi_zero, toPK_coeff, List.getD_eq_default l 0 hk2, phi_zero]
      ring
  · rw [if_neg h2]
    have hk : k % 2 = 1 := by omega
    exact (coeff_odd_eq_zero_of_derivative hd hk).symm

theorem polySqrt_normalized (p : Nat) (l : List Nat) : normalized (polySqrt p l) := by
  unfold polySqrt
  apply normalized_normalize
  intro h0
  have := congrArg List.length h0
  simp at this

theorem polySqrt_wf {p : Nat} (hp : p = P1 ∨ p = P2) {l : List Nat} (hw : wfList l) :
    wfList (polySqrt p l) := by
  unfold polySqrt
  apply wfList_normalize
  intro c hc
  obtain ⟨i, -, rfl⟩ := List.mem_map.1 hc
  exact (gfsqrt_correct hp (getD_lt_of_wf hw _)).1

theorem polySqrt_length (p : Nat) (l : List Nat) :
    (polySqrt p l).length ≤ (l.length - 1) / 2 + 1 := by
  unfold polySqrt
  have h := normalize_length_le ((List.range ((l.length - 1) / 2 + 1)).map
    (fun i => gfsqrt p (l.getD (2 * i) 0)))
  simpa using h

/-! ## Claim C3: products of factor lists -/

theorem polyMul_spec {p : Nat} (hp1 : 2 ^ 128 ≤ p) (hp2 : p < 2 ^ 129) {a b : List Nat}
    (ha : normalized a) (hb : normalized b) :
    normalized (polyMul p a b) ∧ wfList (polyMul p a b) ∧
      toPK p (polyMul p a b) = toPK p a * toPK p b := by
  refine ⟨?_, wfList_normalize (wfList_mulRaw hp1 hp2 a b), toPK_polyMul hp1 hp2 a b⟩
  unfold polyMul
  apply normalized_normalize
  have ha1 : 1 ≤ a.length := List.length_pos.2 ha.1
  have hb1 : 1 ≤ b.length := List.length_pos.2 hb.1
  have hlen : (mulRaw p a b).length = a.length + b.length - 1 := by
    unfold mulRaw
    rw [List.length_map, List.length_range]
  intro h0
  rw [h0] at hlen
  simp at hlen
  omega

theorem polyPowF_spec {p : Nat} (hp1 : 2 ^ 128 ≤ p) (hp2 : p < 2 ^ 129) :
    ∀ (fuel : Nat) (Z base : List Nat) (e : Nat), normalized Z → wfList Z →
      normalized base → e < 2 ^ fuel →
      normalized (polyPowF p fuel Z base e) ∧ wfList (polyPowF p fuel Z base e) ∧
      toPK p (polyPowF p fuel Z base e) = toPK p Z * toPK p base ^ e := by
  intro fuel
  induction fuel with
  | zero =>
    intro Z base e hZn hZw hbn he
    have he0 : e = 0 := by
      have h1 := he
      simp at h1
      omega
    subst he0
    rw [show polyPowF p 0 Z base 0 = Z from rfl, pow_zero, mul_one]
    exact ⟨hZn, hZw, rfl⟩
  | succ fuel ih =>
    intro Z base e hZn hZw hbn he
    by_cases he0 : 0 < e
    · rw [show polyPowF p (fuel + 1) Z base e = polyPowF p fuel
          (if e % 2 = 1 then polyMul p Z base else Z)
          (if e / 2 ≠ 0 then polyMul p base base else base) (e / 2) from by
        simp only [polyPowF]
        rw [if_pos he0]]
      have hZ2 : normalized (if e % 2 = 1 then polyMul p Z base else Z) ∧
          wfList (if e % 2 = 1 then polyMul p Z base else Z) ∧
          toPK p (if e % 2 = 1 then polyMul p Z base else Z) =
            toPK p Z * toPK p base ^ (e % 2) := by
        by_cases h : e % 2 = 1
        · rw [if_pos h, h, pow_one]
          exact polyMul_spec hp1 hp2 hZn hbn
        · have h0 : e % 2 = 0 := by omega
          rw [if_neg h, h0, pow_zero, mul_one]
          exact ⟨hZn, hZw, rfl⟩
      have hb2 : normalized (if e / 2 ≠ 0 then polyMul p base base else base) ∧
          toPK p (if e / 2 ≠ 0 then polyMul p base base else base) ^ (e / 2) =
            toPK p base ^ (2 * (e / 2)) := by
        by_cases h : e / 2 ≠ 0
        · obtain ⟨hn, -, he⟩ := polyMul_spec hp1 hp2 hbn hbn
          rw [if_pos h]
          refine ⟨hn, ?_⟩
          rw [he, ← sq, ← pow_mul]
        · rw [if_neg h]
          have h0 : e / 2 = 0 := by omega
          rw [h0]
          exact ⟨hbn, rfl⟩
      obtain ⟨hZ'n, hZ'w, hZ'e⟩ := hZ2
      obtain ⟨hb'n, hb'e⟩ := hb2
      have hfuel : e / 2 < 2 ^ fuel := by
        rw [pow_succ] at he
        omega
      obtain ⟨hrn, hrw, hre⟩ := ih _ _ _ hZ'n hZ'w hb'n hfuel
      refine ⟨hrn, hrw, ?_⟩
      rw [hre, hZ'e, hb'e, mul_assoc, ← pow_add]
      rw [show e % 2 + 2 * (e / 2) = e from Nat.mod_add_div e 2]
    · simp only [polyPowF]
      rw [if_neg he0]
      have he1 : e = 0 := by omega
      subst he1
      rw [pow_zero, mul_one]
      exact ⟨hZn, hZw, rfl⟩

theorem polyPow_spec {p : Nat} (hp1 : 2 ^ 128 ≤ p) (hp2 : p < 2 ^ 129) {l : List Nat}
    (hl : normalized l) (e : Nat) :
    normalized (polyPow p l e) ∧ wfList (polyPow p l e) ∧
      toPK p (polyPow p l e) = toPK p l ^ e := by
  unfold polyPow
  rw [normalize_of_normalized hl]
  have h1 : normalized [1] := ⟨by simp, Or.inl rfl⟩
  have hfuel : e < 2 ^ (e + 1) :=
    lt_of_lt_of_le (Nat.lt_two_pow e) (Nat.pow_le_pow_right (by omega) (by omega))
  obtain ⟨ha, hb, hc⟩ := polyPowF_spec hp1 hp2 (e + 1) [1] l e h1
    (fun c hc => by simp at hc; simp [hc]) hl hfuel
  exact ⟨ha, hb, by rw [hc, toPK_one_list, one_mul]⟩

theorem listProdK_nil (p : Nat) : listProdK p [] = 1 := rfl

theorem listProdK_cons (p : Nat) (fe : List Nat × Nat) (z : List (List Nat × Nat)) :
    listProdK p (fe :: z) = toPK p fe.1 ^ fe.2 * listProdK p z := by
  unfold listProdK
  rw [List.map_cons, List.prod_cons]

theorem listProdK_append (p : Nat) (z1 z2 : List (List Nat × Nat)) :
    listProdK p (z1 ++ z2) = listProdK p z1 * listProdK p z2 := by
  unfold listProdK
  rw [List.map_append, List.prod_append]

theorem polyProd_aux {p : Nat} (hp1 : 2 ^ 128 ≤ p) (hp2 : p < 2 ^ 129) :
    ∀ (z : List (List Nat × Nat)) (acc : List Nat), normalized acc → wfList acc →
      (∀ fe ∈ z, normalized fe.1) →
      normalized (z.foldl (fun acc fe => polyMul p acc (polyPow p fe.1 fe.2)) acc) ∧
      wfList (z.foldl (fun acc fe => polyMul p acc (polyPow p fe.1 fe.2)) acc) ∧
      toPK p (z.foldl (fun acc fe => polyMul p acc (polyPow p fe.1 fe.2)) acc) =
        toPK p acc * listProdK p z := by
  intro z
  induction z with
  | nil =>
    intro acc hn hw _
    rw [List.foldl_nil, listProdK_nil, mul_one]
    exact ⟨hn, hw, rfl⟩
  | cons fe z ih =>
    intro acc hn hw hz
    rw [List.foldl_cons]
    obtain ⟨hpn, -, hpe⟩ := polyPow_spec hp1 hp2 (hz fe (List.mem_cons_self fe z)) fe.2
    obtain ⟨hmn, hmw, hme⟩ := polyMul_spec hp1 hp2 hn hpn
    obtain ⟨han, haw, hae⟩ := ih (polyMul p acc (polyPow p fe.1 fe.2)) hmn hmw
      (fun x hx => hz x (by simp [hx]))
    refine ⟨han, haw, ?_⟩
    rw [hae, hme, hpe, listProdK_cons]
    ring

theorem polyProd_spec {p : Nat} (hp1 : 2 ^ 128 ≤ p) (hp2 : p < 2 ^ 129)
    {z : List (List Nat × Nat)} (hz : ∀ fe ∈ z, normalized fe.1) :
    normalized (polyProd p z) ∧ wfList (polyProd p z) ∧
      toPK p (polyProd p z) = listProdK p z := by
  unfold polyProd
  obtain ⟨ha, hb, hc⟩ := polyProd_aux hp1 hp2 z [1] ⟨by simp, Or.inl rfl⟩
    (fun c hc => by simp at hc; simp [hc]) hz
  exact ⟨ha, hb, by rw [hc, toPK_one_list, one_mul]⟩

theorem insertPairPoly_perm (x : List Nat × Nat) :
    ∀ l, List.Perm (insertPairPoly x l) (x :: l) := by
  intro l
  induction l with
  | nil => exact List.Perm.refl _
  | cons y ys ih =>
    show List.Perm (if pairPolyLt x y then x :: y :: ys else y :: insertPairPoly x ys) _
    by_cases h : pairPolyLt x y = true
    · rw [if_pos h]
    · rw [if_neg h]
      exact (ih.cons y).trans (List.Perm.swap x y ys)

theorem sortPairsPoly_perm : ∀ z, List.Perm (sortPairsPoly z) z := by
  intro z
  induction z with
  | nil => exact List.Perm.refl _
  | cons x xs ih =>
    show List.Perm (insertPairPoly x (sortPairsPoly xs)) _
    exact (insertPairPoly_perm x (sortPairsPoly xs)).trans (ih.cons x)

theorem listProdK_perm (p : Nat) {z1 z2 : List (List Nat × Nat)} (h : List.Perm z1 z2) :
    listProdK p z1 = listProdK p z2 :=
  (h.map _).prod_eq

/-! ## Claim C3: exact prime powers in `K[x]` -/

theorem exactPow_exists {p : Nat} (hp : p = P1 ∨ p = P2)
    {q x : Polynomial (AdjoinRoot (toP p))} (hq : Irreducible q) (hx : x ≠ 0) :
    ∃ n, ExactPow p q x n := by
  haveI : Fact (Irreducible (toP p)) := ⟨irreducible_toP hp⟩
  have H : ∀ (d : Nat) (x : Polynomial (AdjoinRoot (toP p))), x ≠ 0 → x.natDegree = d →
      ∃ n, ExactPow p q x n := by
    intro d
    induction d using Nat.strong_induction_on with
    | _ d ih =>
      intro x hx hd
      by_cases hdvd : q ∣ x
      · obtain ⟨y, rfl⟩ := hdvd
        have hy : y ≠ 0 := by
          intro h0
          rw [h0, mul_zero] at hx
          exact hx rfl
        have hq0 : q ≠ 0 := hq.ne_zero
        have hdeg : y.natDegree < d := by
          rw [← hd, Polynomial.natDegree_mul hq0 hy]
          have := hq.natDegree_pos
          omega
        obtain ⟨n, z, hz, hnz⟩ := ih y.natDegree hdeg y hy rfl
        exact ⟨n + 1, z, by rw [hz]; ring, hnz⟩
      · exact ⟨0, x, by rw [pow_zero, one_mul], hdvd⟩
  exact H x.natDegree x hx rfl

theorem exactPow_unique {p : Nat} (hp : p = P1 ∨ p = P2)
    {q x : Polynomial (AdjoinRoot (toP p))} (hq : Irreducible q) {n m : Nat}
    (h1 : ExactPow p q x n) (h2 : ExactPow p q x m) : n = m := by
  haveI : Fact (Irreducible (toP p)) := ⟨irreducible_toP hp⟩
  obtain ⟨y, hy, hqy⟩ := h1
  obtain ⟨z, hz, hqz⟩ := h2
  have key : ∀ (a b : Nat) (u v : Polynomial (AdjoinRoot (toP p))), a < b →
      x = q ^ a * u → x = q ^ b * v → ¬ q ∣ u → False := by
    intro a b u v hab hu hv hqu
    apply hqu
    have hq0 : q ^ a ≠ 0 := pow_ne_zero a hq.ne_zero
    have heq : q ^ a * u = q ^ a * (q ^ (b - a) * v) := by
      rw [← hu, hv, ← mul_assoc, ← pow_add, Nat.add_sub_cancel' (le_of_lt hab)]
    rw [mul_left_cancel₀ hq0 heq]
    exact Dvd.dvd.mul_right (dvd_pow_self q (by omega)) v
  rcases Nat.lt_trichotomy n m with h | h | h
  · exact (key n m y z h hy hz hqy).elim
  · exact h
  · exact (key m n z y h hz hy hqz).elim

theorem exactPow_mul {p : Nat} (hp : p = P1 ∨ p = P2)
    {q a b : Polynomial (AdjoinRoot (toP p))} (hq : Irreducible q) {n m : Nat}
    (h1 : ExactPow p q a n) (h2 : ExactPow p q b m) : ExactPow p q (a * b) (n + m) := by
  haveI : Fact (Irreducible (toP p)) := ⟨irreducible_toP hp⟩
  have hprime : Prime q := UniqueFactorizationMonoid.irreducible_iff_prime.1 hq
  obtain ⟨y, hy, hqy⟩ := h1
  obtain ⟨z, hz, hqz⟩ := h2
  refine ⟨y * z, by rw [hy, hz, pow_add]; ring, ?_⟩
  intro hd
  rcases hprime.2.2 _ _ hd with h | h
  · exact hqy h
  · exact hqz h

theorem exactPow_C_mul {p : Nat} (hp : p = P1 ∨ p = P2)
    {q x : Polynomial (AdjoinRoot (toP p))} {u : AdjoinRoot (toP p)} (hu : u ≠ 0)
    {n : Nat} (h : ExactPow p q x n) : ExactPow p q (Polynomial.C u * x) n := by
  haveI : Fact (Irreducible (toP p)) := ⟨irreducible_toP hp⟩
  obtain ⟨y, hy, hqy⟩ := h
  refine ⟨Polynomial.C u * y, by rw [hy]; ring, ?_⟩
  intro hd
  apply hqy
  have hy2 : y = Polynomial.C u⁻¹ * (Polynomial.C u * y) := by
    rw [← mul_assoc, ← Polynomial.C_mul, inv_mul_cancel₀ hu, Polynomial.C_1, one_mul]
  rw [hy2]
  exact Dvd.dvd.mul_left hd _

theorem exactPow_pow_dvd {p : Nat} (hp : p = P1 ∨ p = P2)
    {q x : Polynomial (AdjoinRoot (toP p))} (hq : Irreducible q) {n : Nat}
    (h : ExactPow p q x n) (m : Nat) : q ^ m ∣ x ↔ m ≤ n := by
  haveI : Fact (Irreducible (toP p)) := ⟨irreducible_toP hp⟩
  obtain ⟨y, hy, hqy⟩ := h
  constructor
  · intro hd
    by_contra hm
    push_neg at hm
    have h1 : q ^ (n + 1) ∣ x := dvd_trans (pow_dvd_pow q (by omega)) hd
    obtain ⟨z, hz⟩ := h1
    have hq0 : q ^ n ≠ 0 := pow_ne_zero n hq.ne_zero
    have heq : q ^ n * y = q ^ n * (q * z) := by
      rw [← hy, hz, pow_succ]
      ring
    apply hqy
    rw [mul_left_cancel₀ hq0 heq]
    exact dvd_mul_right q z
  · intro hm
    rw [hy]
    exact Dvd.dvd.mul_right (pow_dvd_pow q hm) y

theorem exactPow_ne_zero {p : Nat} (hp : p = P1 ∨ p = P2)
    {q x : Polynomial (AdjoinRoot (toP p))} (hq : Irreducible q) {n : Nat}
    (h : ExactPow p q x n) : x ≠ 0 := by
  haveI : Fact (Irreducible (toP p)) := ⟨irreducible_toP hp⟩
  obtain ⟨y, hy, hqy⟩ := h
  have hy0 : y ≠ 0 := fun h1 => hqy (by rw [h1]; exact dvd_zero q)
  rw [hy]
  exact mul_ne_zero (pow_ne_zero n hq.ne_zero) hy0

theorem exactPow_div {p : Nat} (hp : p = P1 ∨ p = P2)
    {q c d y : Polynomial (AdjoinRoot (toP p))} (hq : Irreducible q) (hc : c = d * y)
    (hd0 : d ≠ 0) {n m : Nat} (hcn : ExactPow p q c n) (hym : ExactPow p q y m) :
    m ≤ n ∧ ExactPow p q d (n - m) := by
  obtain ⟨t, ht⟩ := exactPow_exists hp hq hd0
  have hmul := exactPow_mul hp hq ht hym
  rw [← hc] at hmul
  have h2 := exactPow_unique hp hq hcn hmul
  refine ⟨by omega, ?_⟩
  rw [show n - m = t from by omega]
  exact ht

/-! ## Claim C3: squares and derivatives in characteristic two -/

theorem exists_sq_of_derivative_eq_zero {p : Nat} (hp : p = P1 ∨ p = P2)
    {g : Polynomial (AdjoinRoot (toP p))} (hg : Polynomial.derivative g = 0) :
    ∃ h : Polynomial (AdjoinRoot (toP p)), g = h ^ 2 := by
  haveI : Fact (Irreducible (toP p)) := ⟨irreducible_toP hp⟩
  haveI : CharP (AdjoinRoot (toP p)) 2 :=
    charP_of_injective_algebraMap (algebraMap (ZMod 2) (AdjoinRoot (toP p))).injective 2
  have hsq : ∀ a : AdjoinRoot (toP p), ∃ s, s ^ 2 = a := by
    intro a
    refine ⟨a ^ 2 ^ 127, ?_⟩
    rw [← pow_mul, show 2 ^ 127 * 2 = 2 ^ 128 from (pow_succ 2 127).symm]
    exact pow_card_fix hp a
  choose s hs using hsq
  refine ⟨∑ i in Finset.range (g.natDegree + 1),
    Polynomial.C (s (g.coeff (2 * i))) * Polynomial.X ^ i, ?_⟩
  apply Polynomial.ext
  intro k
  rw [coeff_sq]
  have hcoeff : (∑ i in Finset.range (g.natDegree + 1),
      Polynomial.C (s (g.coeff (2 * i))) * Polynomial.X ^ i).coeff (k / 2) =
      if k / 2 < g.natDegree + 1 then s (g.coeff (2 * (k / 2))) else 0 := by
    rw [Polynomial.finset_sum_coeff]
    rw [Finset.sum_congr rfl (fun i _ => by
      rw [Polynomial.C_mul_X_pow_eq_monomial, Polynomial.coeff_monomial])]
    rw [Finset.sum_ite_eq' (Finset.range (g.natDegree + 1)) (k / 2)
      (fun i => s (g.coeff (2 * i)))]
    simp only [Finset.mem_range]
  rw [hcoeff]
  by_cases h2 : 2 ∣ k
  · rw [if_pos h2]
    by_cases hk : k / 2 < g.natDegree + 1
    · rw [if_pos hk, hs, Nat.mul_div_cancel' h2]
    · rw [if_neg hk]
      have hlt : g.natDegree < k := by omega
      rw [Polynomial.coeff_eq_zero_of_natDegree_lt hlt]
      ring
  · rw [if_neg h2]
    exact coeff_odd_eq_zero_of_derivative hg (by omega)

theorem derivative_ne_zero_of_irreducible {p : Nat} (hp : p = P1 ∨ p = P2)
    {q : Polynomial (AdjoinRoot (toP p))} (hq : Irreducible q) :
    Polynomial.derivative q ≠ 0 := by
  haveI : Fact (Irreducible (toP p)) := ⟨irreducible_toP hp⟩
  intro h0
  obtain ⟨h, hh⟩ := exists_sq_of_derivative_eq_zero hp h0
  rw [sq] at hh
  rcases hq.isUnit_or_isUnit hh with h1 | h1 <;>
    exact hq.not_unit (by rw [hh]; exact h1.mul h1)

theorem exactPow_derivative_odd {p : Nat} (hp : p = P1 ∨ p = P2)
    {q f : Polynomial (AdjoinRoot (toP p))} (hq : Irreducible q) {m : Nat}
    (hm : m % 2 = 1) (hf : ExactPow p q f m) :
    ExactPow p q (Polynomial.derivative f) (m - 1) := by
  haveI : Fact (Irreducible (toP p)) := ⟨irreducible_toP hp⟩
  haveI : CharP (AdjoinRoot (toP p)) 2 :=
    charP_of_injective_algebraMap (algebraMap (ZMod 2) (AdjoinRoot (toP p))).injective 2
  obtain ⟨u, hu, hqu⟩ := hf
  have hd : Polynomial.derivative f =
      q ^ (m - 1) * (Polynomial.derivative q * u + q * Polynomial.derivative u) := by
    rw [hu, Polynomial.derivative_mul, Polynomial.derivative_pow]
    rw [natCast_char_two, if_pos hm, Polynomial.C_1]
    rw [show q ^ m = q ^ (m - 1) * q from by
      conv_lhs => rw [show m = m - 1 + 1 from by omega]
      rw [pow_succ]]
    ring
  rw [hd]
  refine ⟨Polynomial.derivative q * u + q * Polynomial.derivative u, rfl, ?_⟩
  intro hdvd
  have hprime : Prime q := UniqueFactorizationMonoid.irreducible_iff_prime.1 hq
  have h1 : q ∣ Polynomial.derivative q * u := by
    have h2 : q ∣ q * Polynomial.derivative u := dvd_mul_right _ _
    have h3 := dvd_sub hdvd h2
    simpa using h3
  rcases hprime.2.2 _ _ h1 with h | h
  · have hq' : Polynomial.derivative q ≠ 0 := derivative_ne_zero_of_irreducible hp hq
    have hle := Polynomial.degree_le_of_dvd h hq'
    have hlt := Polynomial.degree_derivative_lt hq.ne_zero
    exact absurd hle (not_le.2 hlt)
  · exact hqu h

theorem pow_dvd_derivative_even {p : Nat} (hp : p = P1 ∨ p = P2)
    {q f : Polynomial (AdjoinRoot (toP p))} (hq : Irreducible q) {m : Nat}
    (hm : m % 2 = 0) (hf : ExactPow p q f m) :
    q ^ m ∣ Polynomial.derivative f := by
  haveI : Fact (Irreducible (toP p)) := ⟨irreducible_toP hp⟩
  haveI : CharP (AdjoinRoot (toP p)) 2 :=
    charP_of_injective_algebraMap (algebraMap (ZMod 2) (AdjoinRoot (toP p))).injective 2
  obtain ⟨u, hu, hqu⟩ := hf
  have hd : Polynomial.derivative f = q ^ m * Polynomial.derivative u := by
    rw [hu, Polynomial.derivative_mul, Polynomial.derivative_pow]
    rw [natCast_char_two, if_neg (by omega), Polynomial.C_0]
    ring
  rw [hd]
  exact Dvd.intro _ rfl

theorem sq_factor_of_even_mults {p : Nat} (hp : p = P1 ∨ p = P2) :
    ∀ (d : Nat) (c : Polynomial (AdjoinRoot (toP p))), c ≠ 0 → c.natDegree = d →
      EvenMults p c → ∃ (a : AdjoinRoot (toP p)) (h : Polynomial (AdjoinRoot (toP p))),
        c = Polynomial.C a * h ^ 2 := by
  haveI : Fact (Irreducible (toP p)) := ⟨irreducible_toP hp⟩
  intro d
  induction d using Nat.strong_induction_on with
  | _ d ih =>
    intro c hc0 hcd hev
    by_cases hunit : c.natDegree = 0
    · refine ⟨c.coeff 0, 1, ?_⟩
      rw [one_pow, mul_one]
      exact Polynomial.eq_C_of_natDegree_eq_zero hunit
    · have hnu : ¬IsUnit c := by
        intro hu
        exact hunit (Polynomial.natDegree_eq_zero_of_isUnit hu)
      obtain ⟨q, hq, hqc⟩ := WfDvdMonoid.exists_irreducible_factor hnu hc0
      obtain ⟨n, hn⟩ := exactPow_exists hp hq hc0
      have hn1 : 1 ≤ n := by
        have := (exactPow_pow_dvd hp hq hn 1).1 (by rw [pow_one]; exact hqc)
        omega
      have hne : n % 2 = 0 := hev q hq n hn
      obtain ⟨y, hy, hqy⟩ := hn
      have hy0 : y ≠ 0 := by
        intro h0
        rw [h0, mul_zero] at hy
        exact hc0 hy
      have hydeg : y.natDegree < d := by
        rw [← hcd, hy, Polynomial.natDegree_mul (pow_ne_zero n hq.ne_zero) hy0,
          Polynomial.natDegree_pow]
        have hqd := hq.natDegree_pos
        have hpos : 0 < n * q.natDegree := Nat.mul_pos (by omega) hqd
        omega
      have hevy : EvenMults p y := by
        intro r hr k hk
        by_cases hrq : r ∣ q ^ n
        · have hprime : Prime r := UniqueFactorizationMonoid.irreducible_iff_prime.1 hr
          have hrdq : r ∣ q := hprime.dvd_of_dvd_pow hrq
          have hassoc : Associated r q := hr.associated_of_dvd hq hrdq
          have hrny : ¬ r ∣ y := by
            intro hd2
            exact hqy (dvd_trans hassoc.symm.dvd hd2)
          have h0 : ExactPow p r y 0 := ⟨y, by rw [pow_zero, one_mul], hrny⟩
          have := exactPow_unique hp hr hk h0
          omega
        · have h0 : ExactPow p r (q ^ n) 0 := ⟨q ^ n, by rw [pow_zero, one_mul], hrq⟩
          have hmul := exactPow_mul hp hr h0 hk
          rw [← hy] at hmul
          have := hev r hr (0 + k) hmul
          simpa using this
      obtain ⟨a, h1, hh1⟩ := ih y.natDegree hydeg y hy0 rfl hevy
      refine ⟨a, q ^ (n / 2) * h1, ?_⟩
      rw [hy, hh1, mul_pow, ← pow_mul]
      rw [show n / 2 * 2 = n from by omega]
      ring

theorem derivative_eq_zero_of_even_mults {p : Nat} (hp : p = P1 ∨ p = P2)
    {c : Polynomial (AdjoinRoot (toP p))} (hc0 : c ≠ 0) (hev : EvenMults p c) :
    Polynomial.derivative c = 0 := by
  haveI : Fact (Irreducible (toP p)) := ⟨irreducible_toP hp⟩
  haveI : CharP (AdjoinRoot (toP p)) 2 :=
    charP_of_injective_algebraMap (algebraMap (ZMod 2) (AdjoinRoot (toP p))).injective 2
  obtain ⟨a, h, hh⟩ := sq_factor_of_even_mults hp c.natDegree c hc0 rfl hev
  rw [hh, Polynomial.derivative_C_mul, Polynomial.derivative_pow]
  rw [natCast_char_two, if_neg (by omega), Polynomial.C_0]
  ring

/-! ## Claim C3: the Euclidean gcd of `GFPoly.gcd` -/

theorem any_ne_zero_iff {l : List Nat} (hl : normalized l) :
    l.any (fun c => c != 0) = true ↔ l.getLastD 0 ≠ 0 := by
  constructor
  · intro h h0
    rcases hl.2 with h1 | h1
    · obtain ⟨a, rfl⟩ := List.length_eq_one.1 h1
      have ha : a = 0 := by
        rw [getLastD_eq_getD] at h0
        simpa using h0
      subst ha
      exact absurd h (by decide)
    · exact h1 h0
  · intro h
    rw [List.any_eq_true]
    exact ⟨l.getLastD 0, getLastD_mem hl.1, by simpa using h⟩

theorem isZero_iff {l : List Nat} : (l.length = 1 ∧ l.getD 0 0 = 0) ↔ l = [0] := by
  constructor
  · rintro ⟨h1, h2⟩
    obtain ⟨a, rfl⟩ := List.length_eq_one.1 h1
    simp at h2
    rw [h2]
  · rintro rfl
    exact ⟨rfl, rfl⟩

theorem isOne_iff {l : List Nat} : (l.length = 1 ∧ l.getD 0 0 = 1) ↔ l = [1] := by
  constructor
  · rintro ⟨h1, h2⟩
    obtain ⟨a, rfl⟩ := List.length_eq_one.1 h1
    simp at h2
    rw [h2]
  · rintro rfl
    exact ⟨rfl, rfl⟩

theorem C_mul_dvd_self {p : Nat} (hp : p = P1 ∨ p = P2) {u : AdjoinRoot (toP p)} (hu : u ≠ 0)
    (x : Polynomial (AdjoinRoot (toP p))) : Polynomial.C u * x ∣ x := by
  haveI : Fact (Irreducible (toP p)) := ⟨irreducible_toP hp⟩
  refine ⟨Polynomial.C u⁻¹, ?_⟩
  have hC : Polynomial.C u * Polynomial.C u⁻¹ = 1 := by
    rw [← Polynomial.C_mul, mul_inv_cancel₀ hu, Polynomial.C_1]
  calc x = (Polynomial.C u * Polynomial.C u⁻¹) * x := by rw [hC, one_mul]
    _ = Polynomial.C u * x * Polynomial.C u⁻¹ := by ring

theorem polyGcdF_spec {p : Nat} (hp : p = P1 ∨ p = P2) :
    ∀ (fuel : Nat) (A B : List Nat), normalized A → wfList A → normalized B → wfList B →
      B.length + 2 ≤ fuel →
      ∃ G, polyGcdF p fuel A B = some G ∧ normalized G ∧ wfList G ∧
        ((G = [0] ∧ toPK p A = 0 ∧ toPK p B = 0) ∨ G.getLastD 0 = 1) ∧
        toPK p G ∣ toPK p A ∧ toPK p G ∣ toPK p B ∧
        ∀ d : Polynomial (AdjoinRoot (toP p)), d ∣ toPK p A → d ∣ toPK p B →
          d ∣ toPK p G := by
  obtain ⟨hp1, hp2⟩ := poly_bounds hp
  haveI : Fact (Irreducible (toP p)) := ⟨irreducible_toP hp⟩
  intro fuel
  induction fuel using Nat.strong_induction_on with
  | _ fuel ih =>
    intro A B hA hwA hB hwB hfuel
    have hBlen1 : 1 ≤ B.length := List.length_pos.2 hB.1
    obtain ⟨fl, rfl⟩ : ∃ fl, fuel = fl + 1 := ⟨fuel - 1, by omega⟩
    rw [show polyGcdF p (fl + 1) A B = (if B.any (fun c => c != 0) = true then
        (gfpolyDivmod p A B).bind (fun qr => polyGcdF p fl B qr.2)
      else if A.length = 1 ∧ A.getD 0 0 = 0 then some [0] else polyMonic p A) from rfl]
    by_cases hany : B.any (fun c => c != 0) = true
    · rw [if_pos hany]
      have hBnz : B.getLastD 0 ≠ 0 := (any_ne_zero_iff hB).1 hany
      obtain ⟨Q, R, hsome, hQn, hQw, hRn, hRw, hEq, -, hExit⟩ :=
        gfpolyDivmod_spec hp hA hwA hB hwB hBnz
      rw [hsome, Option.some_bind]
      rcases hExit with hR0 | hRdeg
      · subst hR0
        rw [toPK_zero_list, add_zero] at hEq
        obtain ⟨fl2, rfl⟩ : ∃ fl2, fl = fl2 + 1 := ⟨fl - 1, by omega⟩
        rw [show polyGcdF p (fl2 + 1) B [0] =
            (if ([0] : List Nat).any (fun c => c != 0) = true then
              (gfpolyDivmod p B [0]).bind (fun qr => polyGcdF p fl2 [0] qr.2)
            else if B.length = 1 ∧ B.getD 0 0 = 0 then some [0] else polyMonic p B) from rfl]
        rw [if_neg (by decide)]
        by_cases hBz : B.length = 1 ∧ B.getD 0 0 = 0
        · exfalso
          have hB0 := isZero_iff.1 hBz
          exact hBnz (by rw [hB0]; decide)
        · rw [if_neg hBz]
          obtain ⟨M, hM_eq, hMn, hMw, hMlast, hMlen, u, hu, hMu⟩ :=
            polyMonic_spec hp hB hwB hBnz
          rw [hM_eq]
          have hBdvdA : toPK p B ∣ toPK p A := ⟨toPK p Q, by rw [← hEq]; ring⟩
          refine ⟨M, rfl, hMn, hMw, Or.inr hMlast, ?_, ?_, ?_⟩
          · rw [hMu]
            exact dvd_trans (C_mul_dvd_self hp hu _) hBdvdA
          · rw [hMu]
            exact C_mul_dvd_self hp hu _
          · intro d hdA hdB
            rw [hMu]
            exact Dvd.dvd.mul_left hdB _
      · have hRlen : R.length < B.length := by
          have h1 : 1 ≤ R.length := List.length_pos.2 hRn.1
          omega
        obtain ⟨G, hG_eq, hGn, hGw, hGmon, hGB, hGR, hGmax⟩ :=
          ih fl (by omega) B R hB hwB hRn hRw (by omega)
        rw [hG_eq]
        refine ⟨G, rfl, hGn, hGw, ?_, ?_, hGB, ?_⟩
        · rcases hGmon with ⟨hG0, hB0, hR0⟩ | h
          · exfalso
            have hBz := (toPK_eq_zero_iff hp1 hp2 hB hwB).1 hB0
            exact hBnz (by rw [hBz]; decide)
          · exact Or.inr h
        · rw [← hEq]
          exact dvd_add (Dvd.dvd.mul_left hGB _) hGR
        · intro d hdA hdB
          apply hGmax d hdB
          have hR : toPK p R = toPK p A - toPK p Q * toPK p B := by
            rw [← hEq]
            ring
          rw [hR]
          exact dvd_sub hdA (Dvd.dvd.mul_left hdB _)
    · rw [if_neg hany]
      have hB0 : B = [0] := normalized_any_false hB (by simpa using hany)
      subst hB0
      by_cases hAz : A.length = 1 ∧ A.getD 0 0 = 0
      · rw [if_pos hAz]
        have hA0 : A = [0] := isZero_iff.1 hAz
        subst hA0
        refine ⟨[0], rfl, ⟨by simp, Or.inl rfl⟩, fun c hc => by simp at hc; simp [hc],
          Or.inl ⟨rfl, toPK_zero_list p, toPK_zero_list p⟩, dvd_rfl, dvd_rfl, ?_⟩
        intro d _ _
        rw [toPK_zero_list]
        exact dvd_zero d
      · rw [if_neg hAz]
        have hAnz : A.getLastD 0 ≠ 0 := by
          apply getLastD_ne_zero_of_normalized hA
          intro h0
          exact hAz (by rw [h0]; exact ⟨rfl, rfl⟩)
        obtain ⟨M, hM_eq, hMn, hMw, hMlast, hMlen, u, hu, hMu⟩ := polyMonic_spec hp hA hwA hAnz
        rw [hM_eq]
        refine ⟨M, rfl, hMn, hMw, Or.inr hMlast, ?_, ?_, ?_⟩
        · rw [hMu]
          exact C_mul_dvd_self hp hu _
        · rw [toPK_zero_list]
          exact dvd_zero _
        · intro d hdA _
          rw [hMu]
          exact Dvd.dvd.mul_left hdA _

/-! ## Claim C3: the parity invariant of the refinement loop -/

theorem J_initial {p : Nat} (hp : p = P1 ∨ p = P2)
    {f c w df : Polynomial (AdjoinRoot (toP p))}
    (hf0 : f ≠ 0) (hdf : df = Polynomial.derivative f)
    (hcB : c ∣ df) (hwc : w * c = f) :
    ∀ q : Polynomial (AdjoinRoot (toP p)), Irreducible q →
      q ∣ w ∨ ∀ n, ExactPow p q c n → n % 2 = 0 := by
  intro q hq
  by_cases hqw : q ∣ w
  · exact Or.inl hqw
  · right
    intro n hn
    obtain ⟨m, hm⟩ := exactPow_exists hp hq hf0
    have hw0 : w ≠ 0 := by
      intro h0
      rw [h0, zero_mul] at hwc
      exact hf0 hwc.symm
    have hEw : ExactPow p q w 0 := ⟨w, by rw [pow_zero, one_mul], hqw⟩
    have hEf := exactPow_mul hp hq hEw hn
    rw [hwc] at hEf
    have hmn : m = 0 + n := exactPow_unique hp hq hm hEf
    by_cases hdf0 : df = 0
    · have hderiv : Polynomial.derivative f = 0 := by
        rw [← hdf]
        exact hdf0
      obtain ⟨h, hh⟩ := exists_sq_of_derivative_eq_zero hp hderiv
      have hh0 : h ≠ 0 := by
        intro h0
        exact hf0 (by rw [hh, h0]; ring)
      obtain ⟨t, ht⟩ := exactPow_exists hp hq hh0
      have h2 := exactPow_mul hp hq ht ht
      rw [← sq, ← hh] at h2
      have hm2 := exactPow_unique hp hq hm h2
      omega
    · by_contra hodd
      have hmodd : m % 2 = 1 := by omega
      have hdf_ex : ExactPow p q df (m - 1) := by
        rw [hdf]
        exact exactPow_derivative_odd hp hq hmodd hm
      have hnle : n ≤ m - 1 := by
        have hql : q ^ n ∣ c := (exactPow_pow_dvd hp hq hn n).2 le_rfl
        have hqdf : q ^ n ∣ df := dvd_trans hql hcB
        exact (exactPow_pow_dvd hp hq hdf_ex n).1 hqdf
      omega

theorem J_step {p : Nat} (hp : p = P1 ∨ p = P2)
    {w c y c' : Polynomial (AdjoinRoot (toP p))}
    (hyc : y ∣ c)
    (hymax : ∀ d, d ∣ w → d ∣ c → d ∣ y) (hcy : c' * y = c)
    (hJ : ∀ q, Irreducible q → q ∣ w ∨ ∀ n, ExactPow p q c n → n % 2 = 0) :
    ∀ q, Irreducible q → q ∣ y ∨ ∀ n, ExactPow p q c' n → n % 2 = 0 := by
  intro q hq
  by_cases hqy : q ∣ y
  · exact Or.inl hqy
  · right
    intro n hn
    have hEy : ExactPow p q y 0 := ⟨y, by rw [pow_zero, one_mul], hqy⟩
    have hEc := exactPow_mul hp hq hn hEy
    rw [hcy] at hEc
    rcases hJ q hq with hqw | heven
    · have hqc : ¬ q ∣ c := by
        intro hd
        exact hqy (hymax q hqw hd)
      have h0 : ExactPow p q c 0 := ⟨c, by rw [pow_zero, one_mul], hqc⟩
      have := exactPow_unique hp hq hEc h0
      omega
    · have := heven (n + 0) hEc
      omega

theorem J_exit {p : Nat} {c : Polynomial (AdjoinRoot (toP p))}
    (hJ : ∀ q : Polynomial (AdjoinRoot (toP p)), Irreducible q →
      q ∣ 1 ∨ ∀ n, ExactPow p q c n → n % 2 = 0) :
    EvenMults p c := by
  intro q hq n hn
  rcases hJ q hq with h | h
  · exact absurd (isUnit_of_dvd_one h) hq.not_unit
  · exact h n hn

/-! ## Claim C3: the refinement loop of `sff` -/

theorem sffLoopF_spec {p : Nat} (hp : p = P1 ∨ p = P2) :
    ∀ (fuel : Nat) (z : List (List Nat × Nat)) (e : Nat) (f c : List Nat),
      normalized f → wfList f → f.getLastD 0 = 1 →
      normalized c → wfList c → c.getLastD 0 = 1 →
      (∀ fe ∈ z, normalized fe.1 ∧ wfList fe.1) →
      (∀ q : Polynomial (AdjoinRoot (toP p)), Irreducible q →
        q ∣ toPK p f ∨ ∀ n, ExactPow p q (toPK p c) n → n % 2 = 0) →
      c.length + 2 ≤ fuel →
      ∃ zout cout, sffLoopF p fuel z e f c = some (zout, cout) ∧
        (∀ fe ∈ zout, normalized fe.1 ∧ wfList fe.1) ∧
        normalized cout ∧ wfList cout ∧ cout.getLastD 0 = 1 ∧
        toPK p cout ∣ toPK p c ∧
        EvenMults p (toPK p cout) ∧
        listProdK p zout * toPK p cout = listProdK p z * toPK p f ^ e * toPK p c := by
  obtain ⟨hp1, hp2⟩ := poly_bounds hp
  haveI : Fact (Irreducible (toP p)) := ⟨irreducible_toP hp⟩
  intro fuel
  induction fuel using Nat.strong_induction_on with
  | _ fuel ih =>
    intro z e f c hfn hfw hf1 hcn hcw hc1 hz hJ hfuel
    have hclen1 : 1 ≤ c.length := List.length_pos.2 hcn.1
    obtain ⟨fl, rfl⟩ : ∃ fl, fuel = fl + 1 := ⟨fuel - 1, by omega⟩
    rw [show sffLoopF p (fl + 1) z e f c = (if f.length = 1 ∧ f.getD 0 0 = 1 then some (z, c)
      else (polyGcdF p (f.length + c.length + 2) f c).bind (fun y =>
        (if f ≠ y then
            (gfpolyDivmod p f y).bind (fun qr =>
              (polyMonic p qr.1).map (fun qm => z ++ [(qm, e)]))
          else some z).bind (fun z2 =>
          (gfpolyDivmod p c y).bind (fun cr =>
            sffLoopF p fl z2 (e + 1) y cr.1)))) from rfl]
    by_cases hone : f.length = 1 ∧ f.getD 0 0 = 1
    · rw [if_pos hone]
      have hf_one : f = [1] := isOne_iff.1 hone
      subst hf_one
      refine ⟨z, c, rfl, hz, hcn, hcw, hc1, dvd_rfl, ?_, ?_⟩
      · apply J_exit
        intro q hq
        rcases hJ q hq with h | h
        · rw [toPK_one_list] at h
          exact Or.inl h
        · exact Or.inr h
      · rw [toPK_one_list, one_pow, mul_one]
    · rw [if_neg hone]
      have hfnz : f.getLastD 0 ≠ 0 := by rw [hf1]; exact one_ne_zero
      have hcnz : c.getLastD 0 ≠ 0 := by rw [hc1]; exact one_ne_zero
      have hfm : (toPK p f).Monic := toPK_monic hp1 hp2 hfn hfw hf1
      have hcm : (toPK p c).Monic := toPK_monic hp1 hp2 hcn hcw hc1
      obtain ⟨y, hy_eq, hyn, hyw2, hymon, hyf, hyc, hymax⟩ :=
        polyGcdF_spec hp (f.length + c.length + 2) f c hfn hfw hcn hcw (by omega)
      rw [hy_eq, Option.some_bind]
      have hy1 : y.getLastD 0 = 1 := by
        rcases hymon with ⟨hy0, hf0, hc0⟩ | h
        · exact absurd hf0 hfm.ne_zero
        · exact h
      have hynz : y.getLastD 0 ≠ 0 := by rw [hy1]; exact one_ne_zero
      have hym : (toPK p y).Monic := toPK_monic hp1 hp2 hyn hyw2 hy1
      obtain ⟨Qf, hQf_eq, hQfn, hQfw, hQfe⟩ :=
        gfpolyDivmod_exact hp hfn hfw hyn hyw2 hynz hyf
      obtain ⟨Qc, hQc_eq, hQcn, hQcw, hQce⟩ :=
        gfpolyDivmod_exact hp hcn hcw hyn hyw2 hynz hyc
      have hQfm : (toPK p Qf).Monic := by
        apply hym.of_mul_monic_left
        rw [mul_comm, hQfe]
        exact hfm
      have hQf1 : Qf.getLastD 0 = 1 := getLastD_eq_one_of_monic hp hQfn hQfw hQfm
      have hQcm : (toPK p Qc).Monic := by
        apply hym.of_mul_monic_left
        rw [mul_comm, hQce]
        exact hcm
      have hQc1 : Qc.getLastD 0 = 1 := getLastD_eq_one_of_monic hp hQcn hQcw hQcm
      have hz2ex : ∃ z2, (if f ≠ y then
          (gfpolyDivmod p f y).bind (fun qr =>
            (polyMonic p qr.1).map (fun qm => z ++ [(qm, e)]))
        else some z) = some z2 ∧ (∀ fe ∈ z2, normalized fe.1 ∧ wfList fe.1) ∧
        listProdK p z2 = listProdK p z * toPK p Qf ^ e := by
        by_cases hfy : f ≠ y
        · rw [if_pos hfy, hQf_eq, Option.some_bind]
          have hmQf : polyMonic p Qf = some Qf := by
            have hnz0 : ¬(Qf.length = 1 ∧ Qf.getD 0 0 = 0) := by
              intro hz0
              have h0 := isZero_iff.1 hz0
              rw [h0] at hQf1
              exact absurd hQf1 (by decide)
            unfold polyMonic
            rw [if_neg hnz0, if_pos hQf1]
          rw [hmQf, Option.map_some']
          refine ⟨z ++ [(Qf, e)], rfl, ?_, ?_⟩
          · intro fe hfe
            rcases List.mem_append.1 hfe with h | h
            · exact hz fe h
            · simp at h
              rw [h]
              exact ⟨hQfn, hQfw⟩
          · rw [listProdK_append, listProdK_cons, listProdK_nil, mul_one]
        · rw [if_neg hfy]
          push_neg at hfy
          have hQf_one : toPK p Qf = 1 := by
            have hy0 : toPK p y ≠ 0 := hym.ne_zero
            have heq : toPK p Qf * toPK p y = 1 * toPK p y := by
              rw [hQfe, one_mul, hfy]
            exact mul_right_cancel₀ hy0 heq
          refine ⟨z, rfl, hz, ?_⟩
          rw [hQf_one, one_pow, mul_one]
      obtain ⟨z2, hz2_eq, hz2prop, hz2prod⟩ := hz2ex
      rw [hz2_eq, Option.some_bind, hQc_eq, Option.some_bind]
      have hJ2 : ∀ q, Irreducible q → q ∣ toPK p y ∨
          ∀ n, ExactPow p q (toPK p Qc) n → n % 2 = 0 :=
        J_step hp hyc hymax hQce hJ
      by_cases hy_one : y = [1]
      · have hQc_c : Qc = c := by
          apply toPK_inj hp1 hp2 hQcn hcn hQcw hcw
          rw [← hQce, hy_one, toPK_one_list, mul_one]
        rw [hQc_c, hy_one]
        obtain ⟨fl2, rfl⟩ : ∃ fl2, fl = fl2 + 1 := ⟨fl - 1, by omega⟩
        rw [show sffLoopF p (fl2 + 1) z2 (e + 1) [1] c = some (z2, c) from rfl]
        rw [hQc_c] at hJ2
        refine ⟨z2, c, rfl, hz2prop, hcn, hcw, hc1, dvd_rfl, ?_, ?_⟩
        · apply J_exit
          intro q hq
          rcases hJ2 q hq with h | h
          · rw [hy_one, toPK_one_list] at h
            exact Or.inl h
          · exact Or.inr h
        · rw [hz2prod]
          have hQf_f : toPK p Qf = toPK p f := by
            rw [← hQfe, hy_one, toPK_one_list, mul_one]
          rw [hQf_f]
      · have hylen2 : 2 ≤ y.length := by
          rcases Nat.lt_or_ge y.length 2 with h | h
          · exfalso
            have h1 : y.length = 1 := by
              have := List.length_pos.2 hyn.1
              omega
            obtain ⟨a, ha⟩ := List.length_eq_one.1 h1
            apply hy_one
            rw [ha] at hy1 ⊢
            have ha1 : a = 1 := by
              rw [getLastD_eq_getD] at hy1
              simpa using hy1
            rw [ha1]
          · exact h
        have hyne : toPK p y ≠ 0 := hym.ne_zero
        have hQcne : toPK p Qc ≠ 0 := hQcm.ne_zero
        have hdeg : (toPK p Qc).natDegree + (toPK p y).natDegree = (toPK p c).natDegree := by
          rw [← Polynomial.natDegree_mul hQcne hyne, hQce]
        have hydeg := (toPK_ne_zero_natDegree hp1 hp2 hyn hyw2 hynz).2
        have hQcdeg := (toPK_ne_zero_natDegree hp1 hp2 hQcn hQcw
          (by rw [hQc1]; exact one_ne_zero)).2
        have hcdeg := (toPK_ne_zero_natDegree hp1 hp2 hcn hcw hcnz).2
        have hQclen : Qc.length < c.length := by
          have hQl1 : 1 ≤ Qc.length := List.length_pos.2 hQcn.1
          rw [hQcdeg, hydeg, hcdeg] at hdeg
          omega
        obtain ⟨zout, cout, hout_eq, hout_z, hout_cn, hout_cw, hout_c1, hout_dvd, hout_even,
          hout_prod⟩ := ih fl (by omega) z2 (e + 1) y Qc hyn hyw2 hy1 hQcn hQcw hQc1 hz2prop
            hJ2 (by omega)
        rw [hout_eq]
        refine ⟨zout, cout, rfl, hout_z, hout_cn, hout_cw, hout_c1, ?_, hout_even, ?_⟩
        · exact dvd_trans hout_dvd ⟨toPK p y, hQce.symm⟩
        · rw [hout_prod, hz2prod]
          have hfe2 : toPK p f = toPK p Qf * toPK p y := hQfe.symm
          have hce2 : toPK p c = toPK p Qc * toPK p y := hQce.symm
          rw [hfe2, hce2]
          ring

/-! ## Claim C3: the recursive `sff` and the full factorization -/

theorem polyDiff_normalized (l : List Nat) : normalized (polyDiff l) := by
  unfold polyDiff
  by_cases h : l.length ≤ 1
  · rw [if_pos h]
    exact ⟨by simp, Or.inl rfl⟩
  · rw [if_neg h]
    apply normalized_normalize
    intro h0
    have hl := congrArg List.length h0
    simp at hl
    omega

theorem polyDiff_wf {l : List Nat} (hw : wfList l) : wfList (polyDiff l) := by
  unfold polyDiff
  by_cases h : l.length ≤ 1
  · rw [if_pos h]
    intro c hc
    simp at hc
    simp [hc]
  · rw [if_neg h]
    apply wfList_normalize
    intro c hc
    obtain ⟨j, -, rfl⟩ := List.mem_map.1 hc
    by_cases hodd : (j + 1) % 2 = 1
    · rw [if_pos hodd]
      exact getD_lt_of_wf hw _
    · rw [if_neg hodd]
      decide

theorem sq_eq_one_char_two {p : Nat} (hp : p = P1 ∨ p = P2) {a : AdjoinRoot (toP p)}
    (h : a ^ 2 = 1) : a = 1 := by
  haveI : Fact (Irreducible (toP p)) := ⟨irreducible_toP hp⟩
  haveI : CharP (AdjoinRoot (toP p)) 2 :=
    charP_of_injective_algebraMap (algebraMap (ZMod 2) (AdjoinRoot (toP p))).injective 2
  haveI : Fact (Nat.Prime 2) := ⟨Nat.prime_two⟩
  have h2 : (a - 1) ^ 2 = 0 := by
    rw [CharTwo.sub_eq_add, add_pow_char a 1 2, h, one_pow]
    exact CharTwo.add_self_eq_zero 1
  exact sub_eq_zero.1 (sq_eq_zero_iff.1 h2)

theorem listProdK_double (p : Nat) : ∀ rz : List (List Nat × Nat),
    listProdK p (rz.map (fun fe => (fe.1, 2 * fe.2))) = listProdK p rz ^ 2 := by
  intro rz
  induction rz with
  | nil => rw [List.map_nil, listProdK_nil, one_pow]
  | cons fe z ihz =>
    rw [List.map_cons, listProdK_cons, listProdK_cons, ihz]
    ring

theorem sffF_spec {p : Nat} (hp : p = P1 ∨ p = P2) :
    ∀ (fuel : Nat) (f : List Nat), normalized f → wfList f → f.getLastD 0 = 1 →
      f.length ≤ fuel →
      ∃ zout, sffF p fuel f = some zout ∧
        (∀ fe ∈ zout, normalized fe.1 ∧ wfList fe.1) ∧
        listProdK p zout = toPK p f := by
  obtain ⟨hp1, hp2⟩ := poly_bounds hp
  haveI : Fact (Irreducible (toP p)) := ⟨irreducible_toP hp⟩
  intro fuel
  induction fuel using Nat.strong_induction_on with
  | _ fuel ih =>
    intro f hfn hfw hf1 hfuel
    have hfnz : f.getLastD 0 ≠ 0 := by rw [hf1]; exact one_ne_zero
    have hflen1 : 1 ≤ f.length := List.length_pos.2 hfn.1
    obtain ⟨fl, rfl⟩ : ∃ fl, fuel = fl + 1 := ⟨fuel - 1, by omega⟩
    rw [show sffF p (fl + 1) f = (polyGcdF p (f.length + (polyDiff f).length + 2) f
        (polyDiff f)).bind (fun c =>
      (gfpolyDivmod p f c).bind (fun fr =>
        (sffLoopF p (c.length + 2) [] 1 fr.1 c).bind (fun zc =>
          if zc.2.length = 1 ∧ zc.2.getD 0 0 = 1 then some zc.1
          else (sffF p fl (polySqrt p zc.2)).map (fun rf =>
            zc.1 ++ rf.map (fun fe => (fe.1, 2 * fe.2)))))) from rfl]
    obtain ⟨c, hc_eq, hcn2, hcw2, hcmon, hcf, hcdf, hcmax⟩ :=
      polyGcdF_spec hp (f.length + (polyDiff f).length + 2) f (polyDiff f) hfn hfw
        (polyDiff_normalized f) (polyDiff_wf hfw) (by omega)
    rw [hc_eq, Option.some_bind]
    have hfm : (toPK p f).Monic := toPK_monic hp1 hp2 hfn hfw hf1
    have hc1 : c.getLastD 0 = 1 := by
      rcases hcmon with ⟨-, hf0, -⟩ | h
      · exact absurd hf0 hfm.ne_zero
      · exact h
    have hcnz : c.getLastD 0 ≠ 0 := by rw [hc1]; exact one_ne_zero
    obtain ⟨w0, hw0_eq, hw0n, hw0w, hw0e⟩ := gfpolyDivmod_exact hp hfn hfw hcn2 hcw2 hcnz hcf
    rw [hw0_eq, Option.some_bind]
    have hcm : (toPK p c).Monic := toPK_monic hp1 hp2 hcn2 hcw2 hc1
    have hw0m : (toPK p w0).Monic := by
      apply hcm.of_mul_monic_left
      rw [mul_comm, hw0e]
      exact hfm
    have hw01 : w0.getLastD 0 = 1 := getLastD_eq_one_of_monic hp hw0n hw0w hw0m
    have hJ0 : ∀ q : Polynomial (AdjoinRoot (toP p)), Irreducible q →
        q ∣ toPK p w0 ∨ ∀ n, ExactPow p q (toPK p c) n → n % 2 = 0 :=
      J_initial hp hfm.ne_zero (toPK_polyDiff hp f) hcdf hw0e
    obtain ⟨z1, cout, hloop_eq, hz1, hcoutn, hcoutw, hcout1, hcoutdvd, hcouteven, hprod⟩ :=
      sffLoopF_spec hp (c.length + 2) [] 1 w0 c hw0n hw0w hw01 hcn2 hcw2 hc1
        (fun fe hfe => absurd hfe (List.not_mem_nil fe)) hJ0 le_rfl
    rw [hloop_eq, Option.some_bind]
    have hprod2 : listProdK p z1 * toPK p cout = toPK p f := by
      rw [hprod, listProdK_nil, one_mul, pow_one, hw0e]
    by_cases hcout_one : cout.length = 1 ∧ cout.getD 0 0 = 1
    · rw [if_pos hcout_one]
      have hco : cout = [1] := isOne_iff.1 hcout_one
      refine ⟨z1, rfl, hz1, ?_⟩
      rw [← hprod2, hco, toPK_one_list, mul_one]
    · rw [if_neg hcout_one]
      have hcoutm : (toPK p cout).Monic := toPK_monic hp1 hp2 hcoutn hcoutw hcout1
      have hcout_ne1 : cout ≠ [1] := fun h => hcout_one (by rw [h]; exact ⟨rfl, rfl⟩)
      have hcoutlen2 : 2 ≤ cout.length := by
        rcases Nat.lt_or_ge cout.length 2 with h | h
        · exfalso
          have h1 : cout.length = 1 := by
            have := List.length_pos.2 hcoutn.1
            omega
          obtain ⟨a, ha⟩ := List.length_eq_one.1 h1
          apply hcout_ne1
          rw [ha] at hcout1 ⊢
          have ha1 : a = 1 := by
            rw [getLastD_eq_getD] at hcout1
            simpa using hcout1
          rw [ha1]
        · exact h
      have hder : Polynomial.derivative (toPK p cout) = 0 :=
        derivative_eq_zero_of_even_mults hp hcoutm.ne_zero hcouteven
      have hsq := toPK_polySqrt hp hcoutw hder
      have hsqm : (toPK p (polySqrt p cout)).Monic := by
        have hlc : (toPK p (polySqrt p cout)).leadingCoeff ^ 2 = 1 := by
          rw [← Polynomial.leadingCoeff_pow, hsq]
          exact hcoutm
        exact sq_eq_one_char_two hp hlc
      have hsq1 : (polySqrt p cout).getLastD 0 = 1 :=
        getLastD_eq_one_of_monic hp (polySqrt_normalized p cout) (polySqrt_wf hp hcoutw) hsqm
      have hcoutlen : cout.length ≤ f.length := by
        have hdvdf : toPK p cout ∣ toPK p f := dvd_trans hcoutdvd hcf
        have hcoutdeg := (toPK_ne_zero_natDegree hp1 hp2 hcoutn hcoutw
          (by rw [hcout1]; exact one_ne_zero)).2
        have hfdeg := (toPK_ne_zero_natDegree hp1 hp2 hfn hfw hfnz).2
        have hdegle : (toPK p cout).natDegree ≤ (toPK p f).natDegree :=
          Polynomial.natDegree_le_of_dvd hdvdf hfm.ne_zero
        omega
      have hsqlen : (polySqrt p cout).length < cout.length := by
        have := polySqrt_length p cout
        omega
      obtain ⟨rz, hrz_eq, hrz_prop, hrz_prod⟩ := ih fl (by omega) (polySqrt p cout)
        (polySqrt_normalized p cout) (polySqrt_wf hp hcoutw) hsq1 (by omega)
      rw [hrz_eq, Option.map_some']
      refine ⟨z1 ++ rz.map (fun fe => (fe.1, 2 * fe.2)), rfl, ?_, ?_⟩
      · intro fe hfe
        rcases List.mem_append.1 hfe with h | h
        · exact hz1 fe h
        · obtain ⟨x, hx, rfl⟩ := List.mem_map.1 h
          exact ⟨(hrz_prop x hx).1, (hrz_prop x hx).2⟩
      · rw [listProdK_append, listProdK_double, hrz_prod, hsq]
        exact hprod2

/-- C3: for every nonzero polynomial `F` over GF(2^128), `square_free_factorization(F)`
returns a list of pairs `(f_k, e_k)` whose product of `f_k ^ e_k` equals `monic(F)`. -/
theorem claim_C3 {p : Nat} (hp : p = P1 ∨ p = P2) {F : List Nat}
    (hF : normalized F) (hwF : wfList F) (hFnz : F.getLastD 0 ≠ 0) :
    ∃ z M, square_free_factorization p F = some z ∧ polyMonic p F = some M ∧
      polyProd p z = M := by
  obtain ⟨hp1, hp2⟩ := poly_bounds hp
  haveI : Fact (Irreducible (toP p)) := ⟨irreducible_toP hp⟩
  obtain ⟨M, hM_eq, hMn, hMw, hM1, hMlen, u, hu, hMu⟩ := polyMonic_spec hp hF hwF hFnz
  unfold square_free_factorization
  rw [hM_eq, Option.some_bind]
  obtain ⟨zout, hz_eq, hz_prop, hz_prod⟩ := sffF_spec hp (F.length + 1) M hMn hMw hM1
    (by omega)
  rw [hz_eq, Option.map_some']
  refine ⟨sortPairsPoly zout, M, rfl, rfl, ?_⟩
  have hperm := sortPairsPoly_perm zout
  have hsprop : ∀ fe ∈ sortPairsPoly zout, normalized fe.1 :=
    fun fe hfe => (hz_prop fe (hperm.subset hfe)).1
  obtain ⟨hpn, hpw, hpe⟩ := polyProd_spec hp1 hp2 hsprop
  apply toPK_inj hp1 hp2 hpn hMn hpw hMw
  rw [hpe, listProdK_perm p hperm, hz_prod]

theorem claim_C3_witness :
    (P1 = P1 ∨ P1 = P2) ∧ normalized [0, 1] ∧ wfList [0, 1] ∧
      ([0, 1] : List Nat).getLastD 0 ≠ 0 ∧
      ∃ z M, square_free_factorization P1 [0, 1] = some z ∧ polyMonic P1 [0, 1] = some M ∧
        polyProd P1 z = M :=
  ⟨Or.inl rfl, ⟨by decide, Or.inr (by decide)⟩, fun c hc => by fin_cases hc <;> decide,
    by decide,
    claim_C3 (Or.inl rfl) ⟨by decide, Or.inr (by decide)⟩
      (fun c hc => by fin_cases hc <;> decide) (by decide)⟩

end Kauma
